import Mathlib

/-!
# orderqueue: a numerically ordered doubly-linked queue

Shallow embedding of `orderqueue.c` / `orderqueue.h` (the `ORDERQUEUE_LONG`
build) and a verification of its contract.

* A non-null pointer is an address, a `Nat`; a pointer is an `Option Nat`, the
  null pointer being `none`.
* The heap of queue nodes is a finite table of allocated cells (address,
  node).  Reading or writing through a pointer that is not allocated is a
  `Fault.segfault`.
* `calloc` is the environment: its answer is an argument of `pipeline_insert`
  (`none`: allocation failed, the process exits through `bail`).  Its contract,
  `Fresh`, is that a block it hands out overlaps no allocated block.
* Keys are `long`; they are carried as `Int`, comparisons are exact and the one
  subtraction (`pipeline_span`) wraps modulo `2^64`.
* `g_count` is `unsigned long`: increments and decrements are modulo `2^64`.
* Loops take a fuel argument; running out of fuel is `Fault.timeout`.
* Calls are taken one at a time: the mutex is not part of the state.  The trace
  buffer `log` of `pipeline_insert` is written and never read back by the queue;
  it is left out of the state as well.

The file has three parts: the embedding and the vocabulary of the statements;
the lemmas (heap, doubly-linked segments, one lemma per path through
`pipeline_insert` and `pipeline_pop`, the invariant of reachable states); the
claims.
-/

namespace OrderQueue

/-- The ways a call can fail to return. -/
inductive Fault where
  /-- calloc failed and bail called exit -/
  | exited
  /-- an unallocated address was dereferenced -/
  | segfault
  /-- the fuel of a loop ran out -/
  | timeout
deriving DecidableEq, Repr

/-- The node record `struct orderqueue_node` of orderqueue.h. -/
structure oqnode_t where
  pkg : Nat
  num : Int
  lower : Option Nat
  higher : Option Nat
deriving DecidableEq, Repr

/-- The heap of nodes: the allocated cells, most recent first. -/
structure Mem where
  cells : List (Nat × oqnode_t)
deriving DecidableEq, Repr

/-- The first cell at address `p`, if any. -/
def lookup : List (Nat × oqnode_t) → Nat → Option oqnode_t
  | [], _ => none
  | c :: cs, p => if c.1 = p then some c.2 else lookup cs p

/-- The node allocated at address `p`, if any. -/
def Mem.get (m : Mem) (p : Nat) : Option oqnode_t := lookup m.cells p

/-- Overwrite the node at address `p`. -/
def Mem.set (m : Mem) (p : Nat) (nd : oqnode_t) : Mem :=
  ⟨m.cells.map (fun c => if c.1 = p then (c.1, nd) else c)⟩

/-- A new cell at address `p`. -/
def Mem.alloc (m : Mem) (p : Nat) (nd : oqnode_t) : Mem :=
  ⟨(p, nd) :: m.cells⟩

/-- Release the cell at address `p`. -/
def Mem.release (m : Mem) (p : Nat) : Mem :=
  ⟨m.cells.filter (fun c => c.1 ≠ p)⟩

/-- The process-wide state of orderqueue.c: the two edge pointers, the
counter and the node heap. -/
structure State where
  g_highest : Option Nat
  g_lowest : Option Nat
  g_count : Nat
  mem : Mem
deriving DecidableEq

/-- State at load time: `g_highest = NULL`, `g_lowest = NULL`, `g_count = 0`,
no node allocated. -/
def State.init : State :=
  { g_highest := none, g_lowest := none, g_count := 0, mem := ⟨[]⟩ }

def OQ_LOWEST : Int := 0

def OQ_HIGHEST : Int := 1

/-- Size in bytes of `oqnode_t` on LP64: four 8-byte fields. -/
def sizeof_oqnode : Nat := 32

/-- Two's complement reduction of an integer to the range of `long`. -/
def wrap_long (x : Int) : Int := (x + 2 ^ 63) % 2 ^ 64 - 2 ^ 63

/-- Reduction to the range of `unsigned long`. -/
def wrap_ulong (x : Int) : Nat := (x % 2 ^ 64).toNat

/-- Read through a pointer. -/
def deref (m : Mem) (p : Nat) : Except Fault oqnode_t :=
  match m.get p with
  | some nd => .ok nd
  | none => .error .segfault

/-- Write through a pointer: the node at `p` is replaced by `f` of it. -/
def store (m : Mem) (p : Nat) (f : oqnode_t → oqnode_t) : Except Fault Mem :=
  match m.get p with
  | some nd => .ok (m.set p (f nd))
  | none => .error .segfault

/-- The C library `free`. -/
def free (m : Mem) (p : Nat) : Mem := m.release p

/-- The node allocator `new_oqnode`: `calloc(1, sizeof(oqnode_t))`, whose answer
is `a`; a null answer ends the process, otherwise the block is all zero. -/
def new_oqnode (m : Mem) (a : Option Nat) : Except Fault (Mem × Nat) :=
  match a with
  | none => .error .exited
  | some p => .ok (m.alloc p { pkg := 0, num := 0, lower := none, higher := none }, p)

/-- The loop of `find_predecessor` (lines 69-72), started at `cursor`. -/
def find_predecessor_loop (m : Mem) (num : Int) : Nat → Nat → Except Fault Nat
  | 0, _ => .error .timeout
  | fuel + 1, cursor => do
    let c ← deref m cursor
    match c.lower with
    | none => pure cursor
    | some lo => do
      let l ← deref m lo
      if num ≥ l.num then pure cursor
      else find_predecessor_loop m num fuel lo

/-- The function `find_predecessor` (lines 62-75); its caller has checked that
`g_highest` is not null. -/
def find_predecessor (fuel : Nat) (st : State) (num : Int) : Except Fault (Option Nat) :=
  match st.g_highest with
  | none => .error .segfault
  | some hi => do
    let h ← deref st.mem hi
    if num ≥ h.num then pure none
    else do
      let c ← find_predecessor_loop st.mem num fuel hi
      pure (some c)

/-- Lines 127-149 of `pipeline_insert`: link `cursor` above `post` (or make it
`g_lowest`), fill in key and payload, count it, return 1. -/
def insert_finish (st : State) (cursor : Nat) (post : Option Nat) (pkg : Nat) (num : Int) :
    Except Fault (State × Int) := do
  let st1 ← (match post with
    | some po => do
      let m1 ← store st.mem cursor (fun n => { n with lower := some po })
      let m2 ← store m1 po (fun n => { n with higher := some cursor })
      pure { st with mem := m2 }
    | none => pure { st with g_lowest := some cursor })
  let m3 ← store st1.mem cursor (fun n => { n with num := num })
  let m4 ← store m3 cursor (fun n => { n with pkg := pkg })
  pure ({ st1 with mem := m4, g_count := (st1.g_count + 1) % 2 ^ 64 }, 1)

/-- The function `pipeline_insert` (lines 86-150).  `a` is what calloc answers,
`fuel` bounds the walk of `find_predecessor`. -/
def pipeline_insert (fuel : Nat) (st : State) (a : Option Nat) (pkg : Nat) (num : Int)
    (reject_dupes : Int) : Except Fault (State × Int) :=
  match st.g_highest with
  | none => do
    let (m1, cursor) ← new_oqnode st.mem a
    insert_finish { st with g_highest := some cursor, mem := m1 } cursor none pkg num
  | some hi => do
    let pre ← find_predecessor fuel st num
    let (m1, cursor) ← new_oqnode st.mem a
    match pre with
    | none => do
      let dup ← (if reject_dupes ≠ 0 then do
          let h ← deref m1 hi
          pure (decide (num = h.num))
        else pure false)
      if dup then pure ({ st with mem := free m1 cursor }, 0)
      else insert_finish { st with g_highest := some cursor, mem := m1 } cursor (some hi) pkg num
    | some pr => do
      let dup ← (if reject_dupes ≠ 0 then do
          let p ← deref m1 pr
          match p.lower with
          | none => pure false
          | some lo => do
            let l ← deref m1 lo
            pure (decide (num = l.num))
        else pure false)
      if dup then pure ({ st with mem := free m1 cursor }, 0)
      else do
        let p ← deref m1 pr
        let post := p.lower
        let m2 ← store m1 pr (fun n => { n with lower := some cursor })
        let m3 ← store m2 cursor (fun n => { n with higher := some pr })
        insert_finish { st with mem := m3 } cursor post pkg num

/-- The function `pipeline_count`: `g_count` converted to `long`. -/
def pipeline_count (st : State) : Int := wrap_long st.g_count

/-- The function `pipeline_span` (lines 159-170). -/
def pipeline_span (st : State) : Except Fault Int :=
  match st.g_highest, st.g_lowest with
  | some hi, some lo => do
    let h ← deref st.mem hi
    let l ← deref st.mem lo
    pure (wrap_long (h.num - l.num))
  | _, _ => pure 0

/-- The function `pipeline_pop` (lines 179-212): the new state and the
returned pointer. -/
def pipeline_pop (st : State) (which : Int) : Except Fault (State × Option Nat) :=
  if which ≠ OQ_LOWEST ∧ which ≠ OQ_HIGHEST then pure (st, none)
  else do
    let (st1, cursor1) ← (if which = OQ_HIGHEST then
        match st.g_highest with
        | some hi => do
          let h ← deref st.mem hi
          let st1 ← (match h.lower with
            | some nh => do
              let m1 ← store st.mem nh (fun n => { n with higher := none })
              pure { st with g_highest := some nh, mem := m1 }
            | none => pure { st with g_highest := none, g_lowest := none })
          pure ({ st1 with g_count := wrap_ulong (st1.g_count - 1) }, some hi)
        | none => pure (st, none)
      else pure (st, none))
    let (st2, cursor2) ← (if which = OQ_LOWEST then
        match st1.g_lowest with
        | some lo => do
          let l ← deref st1.mem lo
          let st2 ← (match l.higher with
            | some nl => do
              let m1 ← store st1.mem nl (fun n => { n with lower := none })
              pure { st1 with g_lowest := some nl, mem := m1 }
            | none => pure { st1 with g_lowest := none, g_highest := none })
          pure ({ st2 with g_count := wrap_ulong (st2.g_count - 1) }, some lo)
        | none => pure (st1, cursor1)
      else pure (st1, cursor1))
    match cursor2 with
    | some c => do
      let m1 ← store st2.mem c (fun n => { n with higher := none })
      let m2 ← store m1 c (fun n => { n with lower := none })
      pure ({ st2 with mem := m2 }, some c)
    | none => pure (st2, none)

/-- The function `destroy_orphan` (lines 223-226). -/
def destroy_orphan (st : State) (p : Option Nat) : State :=
  match p with
  | some q => { st with mem := free st.mem q }
  | none => st

/-! ## Callers: call sequences and the drain loop of the test drivers -/

/-- One call of the public interface. -/
inductive Call where
  | insert (a : Option Nat) (pkg : Nat) (num : Int) (reject_dupes : Int)
  | pop (which : Int)
  | destroy (p : Option Nat)
deriving DecidableEq, Repr

/-- What a call returned. -/
inductive Ret where
  | inserted (r : Int)
  | popped (p : Option Nat)
  | destroyed
deriving DecidableEq, Repr

/-- Perform one call. -/
def exec (fuel : Nat) (st : State) : Call → Except Fault (State × Ret)
  | .insert a pkg num reject_dupes => do
    let (st1, r) ← pipeline_insert fuel st a pkg num reject_dupes
    pure (st1, .inserted r)
  | .pop which => do
    let (st1, p) ← pipeline_pop st which
    pure (st1, .popped p)
  | .destroy p => pure (destroy_orphan st p, .destroyed)

/-- Blocks of two nodes do not overlap. -/
def Apart (a b : Nat) : Prop := a + sizeof_oqnode ≤ b ∨ b + sizeof_oqnode ≤ a

instance (a b : Nat) : Decidable (Apart a b) := by
  unfold Apart; infer_instance

/-- The block of a node at address `p` lies in the 64-bit address space and
not at the null address. -/
def InRange (p : Nat) : Prop := 0 < p ∧ p + sizeof_oqnode ≤ 2 ^ 64

instance (p : Nat) : Decidable (InRange p) := by
  unfold InRange; infer_instance

/-- The calloc contract: the block `[p, p + sizeof_oqnode)` lies in the 64-bit
address space, is not at address 0 and overlaps no allocated block. -/
def Fresh (m : Mem) (p : Nat) : Prop :=
  InRange p ∧
    ∀ c ∈ m.cells, Apart p c.1

instance (m : Mem) (p : Nat) : Decidable (Fresh m p) := by
  unfold Fresh; infer_instance

/-- Follow `lower` links from `cur`, at most `fuel` nodes. -/
def walk_lower (m : Mem) : Nat → Option Nat → List Nat
  | 0, _ => []
  | _ + 1, none => []
  | fuel + 1, some p => p :: walk_lower m fuel ((m.get p).bind oqnode_t.lower)

/-- Follow `higher` links from `cur`, at most `fuel` nodes. -/
def walk_higher (m : Mem) : Nat → Option Nat → List Nat
  | 0, _ => []
  | _ + 1, none => []
  | fuel + 1, some p => p :: walk_higher m fuel ((m.get p).bind oqnode_t.higher)

/-- The spine: the addresses met from `g_highest` along `lower` links. -/
def spine (st : State) : List Nat := walk_lower st.mem st.g_count st.g_highest

/-- What the caller may assume of the environment and must respect itself:
calloc answers null or a fresh block; only an orphan (allocated, not linked)
is handed to `destroy_orphan`. -/
def Call.Valid (st : State) : Call → Prop
  | .insert (some p) _ _ _ => Fresh st.mem p
  | .insert none _ _ _ => True
  | .pop _ => True
  | .destroy (some q) => st.mem.get q ≠ none ∧ q ∉ spine st
  | .destroy none => True

instance (st : State) (c : Call) : Decidable (c.Valid st) := by
  cases c with
  | insert a pkg num reject_dupes => cases a <;> (unfold Call.Valid; infer_instance)
  | pop which => unfold Call.Valid; infer_instance
  | destroy p => cases p <;> (unfold Call.Valid; infer_instance)

/-- The call is not an insert for which calloc answers null. -/
def Call.answered : Call → Prop
  | .insert none _ _ _ => False
  | _ => True

instance (c : Call) : Decidable c.answered := by
  cases c with
  | insert a pkg num reject_dupes => cases a <;> (unfold Call.answered; infer_instance)
  | pop which => unfold Call.answered; infer_instance
  | destroy p => unfold Call.answered; infer_instance

/-- The states the queue can be in: those reached from the load-time state by
calls that returned. -/
inductive Reachable : State → Prop where
  | init : Reachable State.init
  | step {st st1 : State} (fuel : Nat) (c : Call) (r : Ret) :
      Reachable st → c.Valid st → exec fuel st c = .ok (st1, r) → Reachable st1

/-- The loop `while( (p = pipeline_pop(which)) ) { print_and_destroy(p); }` of
the test drivers: the (key, payload) read from each popped node, in order, and
the final state. -/
def drain (which : Int) : Nat → State → Except Fault (List (Int × Nat) × State)
  | 0, _ => .error .timeout
  | fuel + 1, st => do
    let (st1, p) ← pipeline_pop st which
    match p with
    | none => pure ([], st1)
    | some q => do
      let nd ← deref st1.mem q
      let (rest, st2) ← drain which fuel (destroy_orphan st1 (some q))
      pure ((nd.num, nd.pkg) :: rest, st2)

/-! ## The abstraction: the list of linked entries, top to bottom -/

/-- A linked node seen from outside: where it is, what it carries. -/
structure Entry where
  addr : Nat
  pkg : Nat
  num : Int
deriving DecidableEq, Repr

/-- Address of the first entry of `l`, or `next` when `l` is empty. -/
def headAddr (l : List Entry) (next : Option Nat) : Option Nat :=
  match l with
  | [] => next
  | e :: _ => some e.addr

/-- Address of the last entry of `l`, or `prev` when `l` is empty. -/
def lastAddr (prev : Option Nat) (l : List Entry) : Option Nat :=
  match l with
  | [] => prev
  | e :: r => lastAddr (some e.addr) r

/-- The heap holds the entries of `l` as a doubly-linked segment coming from
`prev` and going on to `next`. -/
def Seg (m : Mem) : Option Nat → List Entry → Option Nat → Prop
  | _, [], _ => True
  | prev, e :: r, next =>
    m.get e.addr = some { pkg := e.pkg, num := e.num, lower := headAddr r next, higher := prev } ∧
      Seg m (some e.addr) r next

/-- Deciding `Seg` by going through the list. -/
def decSeg (m : Mem) : (prev : Option Nat) → (l : List Entry) → (next : Option Nat) →
    Decidable (Seg m prev l next)
  | _, [], _ => isTrue trivial
  | prev, e :: r, next =>
    match decSeg m (some e.addr) r next with
    | isTrue h =>
      if h0 : m.get e.addr =
          some { pkg := e.pkg, num := e.num, lower := headAddr r next, higher := prev } then
        isTrue ⟨h0, h⟩
      else isFalse (fun h1 => h0 h1.1)
    | isFalse h => isFalse (fun h1 => h h1.2)

instance (m : Mem) (prev : Option Nat) (l : List Entry) (next : Option Nat) :
    Decidable (Seg m prev l next) := decSeg m prev l next

/-- Well-formed queue state, with `l` its linked entries from highest to lowest:
the heap holds `l` as a doubly-linked list closed by null at both ends (I3, I4),
the edge pointers are its two ends and the counter its length (I1, I2), the nodes
are distinct blocks of the address space, and keys descend (I5). -/
def WellFormed (st : State) (l : List Entry) : Prop :=
  Seg st.mem none l none ∧
  st.g_highest = headAddr l none ∧
  st.g_lowest = lastAddr none l ∧
  st.g_count = l.length ∧
  l.Pairwise (fun a b => Apart a.addr b.addr) ∧
  (∀ e ∈ l, InRange e.addr) ∧
  l.Pairwise (fun a b => a.num ≥ b.num)

instance (st : State) (l : List Entry) : Decidable (WellFormed st l) := by
  unfold WellFormed; infer_instance

/-- The condition under which `pipeline_insert` rejects: rejection was asked for
and the first entry that is not above `num` carries `num`. -/
def Rejects (lo : List Entry) (num : Int) (reject_dupes : Int) : Prop :=
  reject_dupes ≠ 0 ∧ ∃ y, lo.head? = some y ∧ y.num = num

/-- The entries of `l` in front of the first one whose key is not above `num`. -/
def above (num : Int) (l : List Entry) : List Entry :=
  l.takeWhile (fun e => decide (num < e.num))

/-- The entries of `l` from the first one whose key is not above `num`. -/
def notAbove (num : Int) (l : List Entry) : List Entry :=
  l.dropWhile (fun e => decide (num < e.num))

/-- The nodes on the spine, top to bottom, as the heap holds them. -/
def linked (st : State) : List oqnode_t := (spine st).filterMap st.mem.get

/-- The keys on the spine, top to bottom. -/
def linkedKeys (st : State) : List Int := (linked st).map oqnode_t.num

/-- Perform a sequence of calls; the final state and what each call returned. -/
def run (fuel : Nat) : State → List Call → Except Fault (State × List Ret)
  | st, [] => pure (st, [])
  | st, c :: cs => do
    let (st1, r) ← exec fuel st c
    let (st2, rs) ← run fuel st1 cs
    pure (st2, r :: rs)

/-- Every call of the sequence is valid in the state it is made in. -/
def ValidRun (fuel : Nat) : State → List Call → Prop
  | _, [] => True
  | st, c :: cs =>
    c.Valid st ∧
      match exec fuel st c with
      | .ok (st1, _) => ValidRun fuel st1 cs
      | .error _ => True

/-- Deciding `ValidRun` by performing the calls. -/
def decValidRun (fuel : Nat) : (st : State) → (cs : List Call) → Decidable (ValidRun fuel st cs)
  | _, [] => isTrue trivial
  | st, c :: cs =>
    if hv : c.Valid st then
      match he : exec fuel st c with
      | .ok (st1, r) =>
        match decValidRun fuel st1 cs with
        | isTrue h => isTrue ⟨hv, by simp only [he]; exact h⟩
        | isFalse h => isFalse (fun h1 => h (by have h2 := h1.2; simp only [he] at h2; exact h2))
      | .error e => isTrue ⟨hv, by simp only [he]⟩
    else isFalse (fun h1 => hv h1.1)

instance (fuel : Nat) (st : State) (cs : List Call) : Decidable (ValidRun fuel st cs) :=
  decValidRun fuel st cs

/-- The calls inserting the entries of `xs` (address answered by calloc, payload,
key), all with the same duplicate policy. -/
def insertCalls (xs : List (Nat × Nat × Int)) (reject_dupes : Int) : List Call :=
  xs.map (fun x => Call.insert (some x.1) x.2.1 x.2.2 reject_dupes)

/-- The entry an insert call makes: block address, payload, key. -/
def entryOf (x : Nat × Nat × Int) : Entry := ⟨x.1, x.2.1, x.2.2⟩

/-- How many calls were inserts that returned 1. -/
def inserts_ok (rs : List Ret) : Nat := rs.countP (fun r => decide (r = Ret.inserted 1))

/-- How many calls were pops that returned a node. -/
def pops_ok (rs : List Ret) : Nat :=
  rs.countP (fun r => match r with
    | .popped (some _) => true
    | _ => false)

/-- What a sequence of calls made from the load-time state gives: the final state
and the values returned (the load-time state and nothing if a call does not
return). -/
def outcome (fuel : Nat) (cs : List Call) : State × List Ret :=
  match run fuel State.init cs with
  | .ok x => x
  | .error _ => (State.init, [])

/-- The state after inserting the entries of `xs` into the empty queue, all with
the same duplicate policy and fuel enough for every call. -/
def stateAfter (xs : List (Nat × Nat × Int)) (reject_dupes : Int) : State :=
  (outcome xs.length (insertCalls xs reject_dupes)).1

deriving instance DecidableEq for Except

/-- The payload handles given to the insert calls of a sequence, in call order. -/
def payloads (cs : List Call) : List Nat :=
  cs.filterMap (fun c => match c with
    | .insert _ pkg _ _ => some pkg
    | _ => none)

/-- The nine inserts of `main` in test_dupe_rejection.c: keys 41, 41, 42, 42, 41,
43, 43, 42, 41, with calloc answering 32, 64, ... and payload handles 1 to 9. -/
def test_sequence : List (Nat × Nat × Int) :=
  [(32, 1, 41), (64, 2, 41), (96, 3, 42), (128, 4, 42), (160, 5, 41), (192, 6, 43),
    (224, 7, 43), (256, 8, 42), (288, 9, 41)]

/-- Two inserts: key 41 then key 42. -/
def two_inserts : List (Nat × Nat × Int) := [(32, 1, 41), (64, 2, 42)]

/-- A call sequence with every kind of call: an insert, a rejected insert, an
accepted one, a pop with an invalid edge, a pop of each edge with the orphan
destroyed, a pop on the empty queue. -/
def mixed_calls : List Call :=
  [.insert (some 32) 1 41 0, .insert (some 64) 2 41 1, .insert (some 64) 2 42 1, .pop 2,
    .pop OQ_HIGHEST, .destroy (some 64), .pop OQ_LOWEST, .destroy (some 32), .pop OQ_LOWEST]

/-- The call is not an insert that allows duplicates. -/
def Call.rejecting : Call → Prop
  | .insert _ _ _ reject_dupes => reject_dupes ≠ 0
  | _ => True

instance (c : Call) : Decidable c.rejecting := by
  cases c <;> (unfold Call.rejecting; infer_instance)

/-- The walk as the specification words it: stop at the first entry whose lower
neighbour is missing or has a key strictly less than the new key `k`. -/
def spec_walk (k : Int) : Entry → List Entry → Entry
  | e, [] => e
  | e, y :: t => if y.num < k then e else spec_walk k y t

/-- The predecessor as the specification words it: none when the new key is
strictly greater than the top key, else the entry `spec_walk` stops at. -/
def spec_predecessor (k : Int) : List Entry → Option Entry
  | [] => none
  | e :: t => if k > e.num then none else some (spec_walk k e t)

/-- The predecessor in the other words of the specification: the lowest-positioned
entry whose key is at least `k`. -/
def spec_lowest_ge (k : Int) (l : List Entry) : Option Entry :=
  (l.filter (fun e => decide (k ≤ e.num))).getLast?

/-- Two inserts: key 3 then key 5. -/
def five_above_three : List (Nat × Nat × Int) := [(32, 1, 3), (64, 2, 5)]

/-- Two inserts: key 10 then key 30. -/
def ten_thirty : List (Nat × Nat × Int) := [(32, 1, 10), (64, 2, 30)]

/-- Two inserts: key -1 then key `LONG_MAX`. -/
def minus_one_long_max : List (Nat × Nat × Int) := [(32, 1, -1), (64, 2, 9223372036854775807)]

/-- Two inserts: key `LONG_MIN` then key `LONG_MAX`. -/
def long_min_long_max : List (Nat × Nat × Int) :=
  [(32, 1, -9223372036854775808), (64, 2, 9223372036854775807)]

/-! ## The trace text of `pipeline_insert` -/

/-- The bookkeeping of the trace text built by `pipeline_insert`: the value of
`n` at each `snprintf` made so far, in order, and the current value of `n`. -/
structure Trace where
  offsets : List Nat
  n : Nat
deriving DecidableEq, Repr

/-- The declaration `int n = 0;`: no `snprintf` made yet. -/
def Trace.start : Trace := ⟨[], 0⟩

/-- The statement `n += snprintf(&log[n], 128-n, ...)` for a text of `len`
characters: the call is made with the current `n` and returns `len`. -/
def Trace.snprintf (t : Trace) (len : Nat) : Trace := ⟨t.offsets ++ [t.n], t.n + len⟩

/-- The number of characters `%ld` prints for `x`: a minus sign when `x` is
negative, then the decimal digits of its magnitude (one digit for zero). -/
def ld_len (x : Int) : Nat :=
  (if x < 0 then 1 else 0) + max 1 (Nat.digits 10 x.natAbs).length

/-- Lines 124-149 of `pipeline_insert` with the trace text: as `insert_finish`,
preceded by the two `snprintf` of lines 124-125 and with those of lines 130-136. -/
def insert_finish_traced (st : State) (cursor : Nat) (pre post : Option Nat) (pkg : Nat)
    (num : Int) (t : Trace) : Except Fault (State × Int × Trace) := do
  let t1 := if pre.isNone then t.snprintf 4 else t
  let t2 := t1.snprintf (ld_len num)
  let (st1, t3) ← (match post with
    | some po => do
      let m1 ← store st.mem cursor (fun n => { n with lower := some po })
      let m2 ← store m1 po (fun n => { n with higher := some cursor })
      let p ← deref m2 po
      pure ({ st with mem := m2 }, ((t2.snprintf 4).snprintf (ld_len p.num)).snprintf 4)
    | none => pure ({ st with g_lowest := some cursor }, t2.snprintf 4))
  let m3 ← store st1.mem cursor (fun n => { n with num := num })
  let m4 ← store m3 cursor (fun n => { n with pkg := pkg })
  pure ({ st1 with mem := m4, g_count := (st1.g_count + 1) % 2 ^ 64 }, 1, t3)

/-- The function `pipeline_insert` (lines 86-150) with the trace text it builds in
`log[128]`: the state and return value of `pipeline_insert` together with the
offsets at which `snprintf` was called. -/
def pipeline_insert_traced (fuel : Nat) (st : State) (a : Option Nat) (pkg : Nat) (num : Int)
    (reject_dupes : Int) : Except Fault (State × Int × Trace) :=
  match st.g_highest with
  | none => do
    let (m1, cursor) ← new_oqnode st.mem a
    let st1 := { st with g_highest := some cursor, mem := m1 }
    insert_finish_traced st1 cursor none none pkg num Trace.start
  | some hi => do
    let pre ← find_predecessor fuel st num
    let (m1, cursor) ← new_oqnode st.mem a
    match pre with
    | none => do
      let dup ← (if reject_dupes ≠ 0 then do
          let h ← deref m1 hi
          pure (decide (num = h.num))
        else pure false)
      if dup then pure ({ st with mem := free m1 cursor }, 0, Trace.start)
      else
        let st1 := { st with g_highest := some cursor, mem := m1 }
        insert_finish_traced st1 cursor none (some hi) pkg num Trace.start
    | some pr => do
      let dup ← (if reject_dupes ≠ 0 then do
          let p ← deref m1 pr
          match p.lower with
          | none => pure false
          | some lo => do
            let l ← deref m1 lo
            pure (decide (num = l.num))
        else pure false)
      if dup then pure ({ st with mem := free m1 cursor }, 0, Trace.start)
      else do
        let p ← deref m1 pr
        let t := ((Trace.start.snprintf 4).snprintf (ld_len p.num)).snprintf 4
        let post := p.lower
        let m2 ← store m1 pr (fun n => { n with lower := some cursor })
        let m3 ← store m2 cursor (fun n => { n with higher := some pr })
        insert_finish_traced { st with mem := m3 } cursor (some pr) post pkg num t

/-- Every node of the heap has a key that fits a `long`. -/
def LongKeys (m : Mem) : Prop := ∀ c ∈ m.cells, -2 ^ 63 ≤ c.2.num ∧ c.2.num < 2 ^ 63

instance (m : Mem) : Decidable (LongKeys m) := by unfold LongKeys; infer_instance

/-- Every `snprintf` so far was made at an offset of at most `k`, and `n` is at
most `k`. -/
def Trace.Within (t : Trace) (k : Nat) : Prop := (∀ o ∈ t.offsets, o ≤ k) ∧ t.n ≤ k

/-- What the caller reads from the node a pop handed back, in the state right
after the call: its key and its payload handle. -/
def handed (st1 : State) : Ret → Except Fault (List (Int × Nat))
  | .popped (some q) => do
    let nd ← deref st1.mem q
    pure [(nd.num, nd.pkg)]
  | _ => pure []

/-- The (key, payload) read from each node handed back by the pops of a call
sequence, in call order. -/
def observed (fuel : Nat) : State → List Call → Except Fault (List (Int × Nat))
  | _, [] => pure []
  | st, c :: cs => do
    let (st1, r) ← exec fuel st c
    let here ← handed st1 r
    let rest ← observed fuel st1 cs
    pure (here ++ rest)

/-- The (key, payload) arguments of the insert calls that returned 1, in call
order. -/
def accepted : List Call → List Ret → List (Int × Nat)
  | .insert _ pkg num _ :: cs, .inserted r :: rs =>
    if r = 1 then (num, pkg) :: accepted cs rs else accepted cs rs
  | _ :: cs, _ :: rs => accepted cs rs
  | _, _ => []

/-- A call sequence that pops between inserts: two inserts, a pop of the top, an
insert of an equal key, a rejected insert, a pop of the bottom. -/
def carried_calls : List Call :=
  [.insert (some 32) 1 41 0, .insert (some 64) 2 42 0, .pop OQ_HIGHEST,
    .insert (some 96) 3 41 0, .insert (some 128) 4 41 1, .pop OQ_LOWEST]

/-! ## Lock discipline: the memory accesses of each operation, in program order -/

/-- A memory location the operations touch: a global or a field of the node at
an address. -/
inductive Loc where
  | g_highest
  | g_lowest
  | g_count
  | lower (p : Nat)
  | higher (p : Nat)
  | num (p : Nat)
  | pkg (p : Nat)
deriving DecidableEq, Repr

/-- One step of an operation as another thread sees it: `PIPELOCK`,
`PIPEUNLOCK`, a read or a write of a location. -/
inductive Event where
  | lock
  | unlock
  | read (l : Loc)
  | write (l : Loc)
deriving DecidableEq, Repr

/-- The reads and writes of a sequence of events that are made while the lock is
not held; `held` says whether it is held at the start. -/
def unguarded : Bool → List Event → List Event
  | _, [] => []
  | _, .lock :: es => unguarded true es
  | _, .unlock :: es => unguarded false es
  | held, .read l :: es => if held then unguarded held es else .read l :: unguarded held es
  | held, .write l :: es => if held then unguarded held es else .write l :: unguarded held es

/-- The accesses of the loop of `find_predecessor` (lines 69-72), started at
`cursor`: the loop test reads `cursor->lower`, the comparison reads
`cursor->lower->num`, the advance reads `cursor->lower`. -/
def find_predecessor_loop_events (m : Mem) (num : Int) : Nat → Nat → Except Fault (List Event)
  | 0, _ => .error .timeout
  | fuel + 1, cursor => do
    let c ← deref m cursor
    match c.lower with
    | none => pure [.read (.lower cursor)]
    | some lo => do
      let l ← deref m lo
      if num ≥ l.num then pure [.read (.lower cursor), .read (.lower cursor), .read (.num lo)]
      else do
        let rest ← find_predecessor_loop_events m num fuel lo
        pure ([.read (.lower cursor), .read (.lower cursor), .read (.num lo),
          .read (.lower cursor)] ++ rest)

/-- The accesses of `find_predecessor` (lines 62-75). -/
def find_predecessor_events (fuel : Nat) (st : State) (num : Int) : Except Fault (List Event) :=
  match st.g_highest with
  | none => .error .segfault
  | some hi => do
    let h ← deref st.mem hi
    if num ≥ h.num then pure [.read .g_highest, .read (.num hi)]
    else do
      let rest ← find_predecessor_loop_events st.mem num fuel hi
      pure ([.read .g_highest, .read (.num hi), .read .g_highest] ++ rest)

/-- The accesses of lines 127-147 of `pipeline_insert`, up to `PIPEUNLOCK`. -/
def insert_finish_events (cursor : Nat) (post : Option Nat) : List Event :=
  (match post with
    | some po => [.write (.lower cursor), .write (.higher po), .read (.num po)]
    | none => [.write .g_lowest]) ++
  [.write (.num cursor), .write (.pkg cursor), .read .g_count, .write .g_count, .unlock]

/-- The events of `pipeline_insert` (lines 86-150), from `PIPELOCK` to the
`PIPEUNLOCK` of the path taken. -/
def pipeline_insert_events (fuel : Nat) (st : State) (a : Option Nat) (num : Int)
    (reject_dupes : Int) : Except Fault (List Event) :=
  match st.g_highest with
  | none => do
    let (_, cursor) ← new_oqnode st.mem a
    pure ([.lock, .read .g_highest, .write .g_highest] ++ insert_finish_events cursor none)
  | some hi => do
    let pre ← find_predecessor fuel st num
    let evp ← find_predecessor_events fuel st num
    let (m1, cursor) ← new_oqnode st.mem a
    match pre with
    | none => do
      let (dup, evd) ← (if reject_dupes ≠ 0 then do
          let h ← deref m1 hi
          pure (decide (num = h.num), [Event.read .g_highest, .read .g_highest, .read (.num hi)])
        else pure (false, []))
      if dup then pure ([.lock, .read .g_highest] ++ evp ++ evd ++ [.unlock])
      else pure ([.lock, .read .g_highest] ++ evp ++ evd ++
        [.read .g_highest, .write .g_highest] ++ insert_finish_events cursor (some hi))
    | some pr => do
      let (dup, evd) ← (if reject_dupes ≠ 0 then do
          let p ← deref m1 pr
          match p.lower with
          | none => pure (false, [Event.read (.lower pr)])
          | some lo => do
            let l ← deref m1 lo
            pure (decide (num = l.num),
              [Event.read (.lower pr), .read (.lower pr), .read (.num lo)])
        else pure (false, []))
      if dup then pure ([.lock, .read .g_highest] ++ evp ++ evd ++ [.unlock])
      else do
        let p ← deref m1 pr
        pure ([.lock, .read .g_highest] ++ evp ++ evd ++
          [.read (.num pr), .read (.lower pr), .write (.lower pr), .write (.higher cursor)] ++
          insert_finish_events cursor p.lower)

/-- The function `pipeline_span` (lines 159-170) with its events: the emptiness
test of line 163, then `PIPELOCK`, the subtraction, `PIPEUNLOCK`. -/
def pipeline_span_events (st : State) : Except Fault (Int × List Event) :=
  match st.g_highest with
  | none => pure (0, [.read .g_highest])
  | some hi =>
    match st.g_lowest with
    | none => pure (0, [.read .g_highest, .read .g_lowest])
    | some lo => do
      let h ← deref st.mem hi
      let l ← deref st.mem lo
      pure (wrap_long (h.num - l.num), [.read .g_highest, .read .g_lowest, .lock,
        .read .g_highest, .read (.num hi), .read .g_lowest, .read (.num lo), .unlock])

/-- The function `pipeline_pop` (lines 179-212) with its events: as
`pipeline_pop`, with `PIPELOCK` at line 185 and `PIPEUNLOCK` at line 204. -/
def pipeline_pop_events (st : State) (which : Int) :
    Except Fault ((State × Option Nat) × List Event) :=
  if which ≠ OQ_LOWEST ∧ which ≠ OQ_HIGHEST then pure ((st, none), [])
  else do
    let (st1, cursor1, ev1) ← (if which = OQ_HIGHEST then
        match st.g_highest with
        | some hi => do
          let h ← deref st.mem hi
          let (st1, ev) ← (match h.lower with
            | some nh => do
              let m1 ← store st.mem nh (fun n => { n with higher := none })
              pure ({ st with g_highest := some nh, mem := m1 },
                [Event.read .g_highest, .read .g_highest, .write (.higher nh)])
            | none => pure ({ st with g_highest := none, g_lowest := none },
                [Event.read .g_highest, .write .g_lowest]))
          pure ({ st1 with g_count := wrap_ulong (st1.g_count - 1) }, some hi,
            [Event.read .g_highest, .read .g_highest, .read .g_highest, .read (.lower hi),
              .write .g_highest] ++ ev ++ [.read .g_count, .write .g_count])
        | none => pure (st, none, [Event.read .g_highest])
      else pure (st, none, []))
    let (st2, cursor2, ev2) ← (if which = OQ_LOWEST then
        match st1.g_lowest with
        | some lo => do
          let l ← deref st1.mem lo
          let (st2, ev) ← (match l.higher with
            | some nl => do
              let m1 ← store st1.mem nl (fun n => { n with lower := none })
              pure ({ st1 with g_lowest := some nl, mem := m1 },
                [Event.read .g_lowest, .read .g_lowest, .write (.lower nl)])
            | none => pure ({ st1 with g_lowest := none, g_highest := none },
                [Event.read .g_lowest, .write .g_highest]))
          pure ({ st2 with g_count := wrap_ulong (st2.g_count - 1) }, some lo,
            [Event.read .g_lowest, .read .g_lowest, .read .g_lowest, .read (.higher lo),
              .write .g_lowest] ++ ev ++ [.read .g_count, .write .g_count])
        | none => pure (st1, cursor1, [Event.read .g_lowest])
      else pure (st1, cursor1, []))
    match cursor2 with
    | some c => do
      let m1 ← store st2.mem c (fun n => { n with higher := none })
      let m2 ← store m1 c (fun n => { n with lower := none })
      pure (({ st2 with mem := m2 }, some c),
        [Event.lock] ++ ev1 ++ ev2 ++ [.unlock, .write (.higher c), .write (.lower c)])
    | none => pure ((st2, none), [Event.lock] ++ ev1 ++ ev2 ++ [.unlock])

/-- The event is a read or a write, not a lock operation. -/
def Event.isAccess : Event → Bool
  | .read _ => true
  | .write _ => true
  | _ => false

/-- Two inserts: key `-2^62` then key `2^62`. -/
def half_range_pair : List (Nat × Nat × Int) :=
  [(32, 1, -4611686018427387904), (64, 2, 4611686018427387904)]

/-! ## Heap lemmas -/

theorem Mem.get_alloc (m : Mem) (p : Nat) (nd : oqnode_t) (q : Nat) :
    (m.alloc p nd).get q = if p = q then some nd else m.get q := by
  simp [Mem.get, Mem.alloc, lookup]

theorem Mem.get_set (m : Mem) (p : Nat) (nd : oqnode_t) (q : Nat) :
    (m.set p nd).get q = if q = p then (m.get p).map (fun _ => nd) else m.get q := by
  obtain ⟨cs⟩ := m
  simp only [Mem.get, Mem.set]
  induction cs with
  | nil => simp [lookup]
  | cons c cs ih =>
    simp only [List.map_cons, lookup]
    by_cases hc : c.1 = p <;> by_cases hq : q = p <;> by_cases hcq : c.1 = q <;>
      simp_all

theorem Mem.get_release (m : Mem) (p q : Nat) :
    (m.release p).get q = if q = p then none else m.get q := by
  obtain ⟨cs⟩ := m
  simp only [Mem.get, Mem.release]
  induction cs with
  | nil => simp [lookup]
  | cons c cs ih =>
    by_cases hc : c.1 = p <;> by_cases hq : q = p <;> by_cases hcq : c.1 = q <;>
      simp_all [List.filter_cons, lookup]

theorem Mem.release_alloc (m : Mem) (p : Nat) (nd : oqnode_t)
    (h : ∀ c ∈ m.cells, c.1 ≠ p) : (m.alloc p nd).release p = m := by
  obtain ⟨cs⟩ := m
  simp only [Mem.alloc, Mem.release, Mem.mk.injEq]
  simp only [List.filter_cons, ne_eq, not_true_eq_false, decide_False]
  simp only [Bool.false_eq_true, if_false, List.filter_eq_self, decide_eq_true_eq]
  exact h

theorem Mem.mem_cells_of_get {m : Mem} {p : Nat} {nd : oqnode_t} (h : m.get p = some nd) :
    (p, nd) ∈ m.cells := by
  obtain ⟨cs⟩ := m
  simp only [Mem.get] at h
  induction cs with
  | nil => simp [lookup] at h
  | cons c cs ih =>
    simp only [lookup] at h
    by_cases hc : c.1 = p
    · simp only [hc, if_true, Option.some.injEq] at h
      subst hc; subst h; simp
    · simp only [hc, if_false] at h
      exact List.mem_cons_of_mem _ (ih h)

/-! ## Segment lemmas -/

theorem Apart.ne {a b : Nat} (h : Apart a b) : a ≠ b := by
  unfold Apart sizeof_oqnode at h
  omega

theorem Apart.symm {a b : Nat} (h : Apart a b) : Apart b a := by
  unfold Apart at *
  omega

theorem lastAddr_append (prev : Option Nat) (xs ys : List Entry) :
    lastAddr prev (xs ++ ys) = lastAddr (lastAddr prev xs) ys := by
  induction xs generalizing prev with
  | nil => rfl
  | cons x xs ih => simp [lastAddr, ih]

@[simp] theorem headAddr_cons (e : Entry) (r : List Entry) (next : Option Nat) :
    headAddr (e :: r) next = some e.addr := rfl

@[simp] theorem headAddr_nil (next : Option Nat) : headAddr [] next = next := rfl

@[simp] theorem lastAddr_cons (prev : Option Nat) (e : Entry) (r : List Entry) :
    lastAddr prev (e :: r) = lastAddr (some e.addr) r := rfl

@[simp] theorem lastAddr_nil (prev : Option Nat) : lastAddr prev [] = prev := rfl

theorem headAddr_append (xs ys : List Entry) (next : Option Nat) :
    headAddr (xs ++ ys) next = headAddr xs (headAddr ys next) := by
  cases xs <;> rfl

theorem Seg.congr {m m1 : Mem} {prev next : Option Nat} {l : List Entry}
    (h : ∀ e ∈ l, m1.get e.addr = m.get e.addr) (hs : Seg m prev l next) : Seg m1 prev l next := by
  induction l generalizing prev with
  | nil => trivial
  | cons e r ih =>
    obtain ⟨h1, h2⟩ := hs
    refine ⟨?_, ih (fun x hx => h x (List.mem_cons_of_mem _ hx)) h2⟩
    rw [h e (List.mem_cons_self _ _)]
    exact h1

theorem Seg.append {m : Mem} {prev next : Option Nat} {xs ys : List Entry} :
    Seg m prev (xs ++ ys) next ↔
      Seg m prev xs (headAddr ys next) ∧ Seg m (lastAddr prev xs) ys next := by
  induction xs generalizing prev with
  | nil => simp [Seg, lastAddr]
  | cons x xs ih =>
    simp only [List.cons_append, Seg, List.append_eq, ih, headAddr_append, lastAddr]
    tauto

theorem Seg.allocated {m : Mem} {prev next : Option Nat} {l : List Entry}
    (hs : Seg m prev l next) {e : Entry} (he : e ∈ l) : ∃ nd, m.get e.addr = some nd ∧
      nd.pkg = e.pkg ∧ nd.num = e.num := by
  induction l generalizing prev with
  | nil => cases he
  | cons x r ih =>
    obtain ⟨h1, h2⟩ := hs
    rcases List.mem_cons.1 he with rfl | hr
    · exact ⟨_, h1, rfl, rfl⟩
    · exact ih h2 hr

theorem walk_lower_seg {m : Mem} {prev : Option Nat} {l : List Entry}
    (hs : Seg m prev l none) (fuel : Nat) (hf : l.length ≤ fuel) :
    walk_lower m fuel (headAddr l none) = l.map Entry.addr := by
  induction l generalizing prev fuel with
  | nil => cases fuel <;> rfl
  | cons x r ih =>
    obtain ⟨h1, h2⟩ := hs
    cases fuel with
    | zero => simp at hf
    | succ n =>
      simp only [headAddr_cons, walk_lower, h1, Option.bind, List.map_cons]
      rw [ih h2 n (by simpa using hf)]

/-- The number of nodes is bounded by the address space. -/
theorem length_le_of_apart (l : List Entry)
    (hap : l.Pairwise (fun a b => Apart a.addr b.addr))
    (hr : ∀ e ∈ l, InRange e.addr) :
    l.length ≤ 2 ^ 59 := by
  have hnd : (l.map (fun e => e.addr / 32)).Nodup := by
    rw [List.Nodup, List.pairwise_map]
    refine hap.imp ?_
    intro a b hab
    show a.addr / 32 ≠ b.addr / 32
    unfold Apart sizeof_oqnode at hab
    omega
  have hsub : (l.map (fun e => e.addr / 32)).toFinset ⊆ Finset.range (2 ^ 59) := by
    intro x hx
    simp only [List.mem_toFinset, List.mem_map] at hx
    obtain ⟨e, he, rfl⟩ := hx
    have := hr e he
    unfold InRange sizeof_oqnode at this
    simp only [Finset.mem_range]
    omega
  have hc := Finset.card_le_card hsub
  rw [List.toFinset_card_of_nodup hnd] at hc
  simpa using hc

theorem wrap_ulong_pred (n : Nat) (h : n + 1 < 2 ^ 64) : wrap_ulong ((n + 1 : Nat) - 1) = n := by
  unfold wrap_ulong
  have : ((n + 1 : Nat) : Int) - 1 = (n : Int) := by push_cast; ring
  rw [this]
  have h2 : (n : Int) % 2 ^ 64 = n := by
    apply Int.emod_eq_of_lt <;> omega
  rw [h2]; simp

theorem Seg.get_of_mem {m : Mem} {prev next : Option Nat} {l : List Entry}
    (hs : Seg m prev l next) {e : Entry} (he : e ∈ l) : m.get e.addr ≠ none := by
  obtain ⟨nd, h, _⟩ := hs.allocated he
  simp [h]

theorem pop_highest_cons {st : State} {e : Entry} {t : List Entry}
    (h : WellFormed st (e :: t)) :
    ∃ st1, pipeline_pop st OQ_HIGHEST = .ok (st1, some e.addr) ∧ WellFormed st1 t ∧
      st1.mem.get e.addr = some { pkg := e.pkg, num := e.num, lower := none, higher := none } ∧
      (∀ q, q ≠ e.addr → some q ≠ headAddr t none → st1.mem.get q = st.mem.get q) := by
  obtain ⟨hseg, hhi, hlo, hcnt, hap, hrg, hsort⟩ := h
  have hlen := length_le_of_apart _ hap hrg
  obtain ⟨he, hseg2⟩ := hseg
  simp only [headAddr_cons, lastAddr_cons] at hhi hlo
  cases t with
  | nil =>
    simp only [headAddr_nil] at he
    simp only [List.length_singleton] at hcnt
    simp [pipeline_pop, OQ_LOWEST, OQ_HIGHEST, hhi, deref, store, Mem.get_set, he, bind,
        Except.bind, pure, Except.pure]
    refine ⟨?_, ?_⟩
    · simp [WellFormed, Seg, hcnt, wrap_ulong]
    · intro q hq
      simp [hq]
  | cons e2 t2 =>
    simp only [headAddr_cons] at he
    obtain ⟨he2, hseg3⟩ := hseg2
    have hne : e.addr ≠ e2.addr := by
      have := (List.pairwise_cons.1 hap).1 e2 (List.mem_cons_self _ _)
      exact this.ne
    have hne2 : ∀ x ∈ t2, x.addr ≠ e.addr ∧ x.addr ≠ e2.addr := by
      intro x hx
      have h1 := (List.pairwise_cons.1 hap).1 x (List.mem_cons_of_mem _ hx)
      have h2 := (List.pairwise_cons.1 (List.pairwise_cons.1 hap).2).1 x hx
      exact ⟨h1.symm.ne, h2.symm.ne⟩
    simp [pipeline_pop, OQ_LOWEST, OQ_HIGHEST, hhi, deref, store, Mem.get_set, he, he2, bind,
        Except.bind, pure, Except.pure, hne, hne.symm]
    refine ⟨?_, ?_⟩
    · refine ⟨⟨?_, ?_⟩, ?_, ?_, ?_, (List.pairwise_cons.1 hap).2, ?_, (List.pairwise_cons.1 hsort).2⟩
      · simp [Mem.get_set, he2, hne.symm]
      · refine hseg3.congr ?_
        intro x hx
        simp [Mem.get_set, (hne2 x hx).1, (hne2 x hx).2]
      · rfl
      · simpa using hlo
      · simp only [List.length_cons] at hcnt hlen ⊢
        rw [hcnt]
        exact wrap_ulong_pred _ (by omega)
      · intro x hx
        exact hrg x (List.mem_cons_of_mem _ hx)
    · intro q hq hq2
      simp [hq, hq2]

theorem pop_lowest_concat {st : State} {xs : List Entry} {z : Entry}
    (h : WellFormed st (xs ++ [z])) :
    ∃ st1, pipeline_pop st OQ_LOWEST = .ok (st1, some z.addr) ∧ WellFormed st1 xs ∧
      st1.mem.get z.addr = some { pkg := z.pkg, num := z.num, lower := none, higher := none } ∧
      (∀ q, q ≠ z.addr → some q ≠ lastAddr none xs → st1.mem.get q = st.mem.get q) := by
  obtain ⟨hseg, hhi, hlo, hcnt, hap, hrg, hsort⟩ := h
  have hlen := length_le_of_apart _ hap hrg
  rw [lastAddr_append] at hlo
  simp only [lastAddr_cons, lastAddr_nil] at hlo
  rcases List.eq_nil_or_concat xs with rfl | ⟨ys, y, rfl⟩
  · obtain ⟨he, -⟩ := hseg
    simp only [headAddr_nil] at he
    simp only [List.nil_append, List.length_singleton] at hcnt
    simp [pipeline_pop, OQ_LOWEST, OQ_HIGHEST, hlo, deref, store, Mem.get_set, he, bind,
        Except.bind, pure, Except.pure]
    refine ⟨?_, ?_⟩
    · simp [WellFormed, Seg, hcnt, wrap_ulong]
    · intro q hq
      simp [hq]
  · simp only [List.concat_eq_append] at *
    rw [Seg.append, Seg.append] at hseg
    obtain ⟨⟨hys, hy, -⟩, hz, -⟩ := hseg
    simp only [headAddr_cons, headAddr_nil, lastAddr_append, lastAddr_cons, lastAddr_nil] at hy hz hys
    rw [List.pairwise_append] at hap hsort
    obtain ⟨hap1, -, hap2⟩ := hap
    have hapy := List.pairwise_append.1 hap1
    have hne : y.addr ≠ z.addr :=
      (hap2 y (by simp) z (by simp)).ne
    have hne2 : ∀ x ∈ ys, x.addr ≠ y.addr ∧ x.addr ≠ z.addr := by
      intro x hx
      exact ⟨(hapy.2.2 x hx y (by simp)).ne, (hap2 x (by simp [hx]) z (by simp)).ne⟩
    simp [pipeline_pop, OQ_LOWEST, OQ_HIGHEST, hlo, deref, store, Mem.get_set, hy, hz, bind,
        Except.bind, pure, Except.pure, hne, hne.symm, lastAddr_append]
    refine ⟨?_, ?_⟩
    · refine ⟨?_, ?_, ?_, ?_, hap1, ?_, hsort.1⟩
      · rw [Seg.append]
        refine ⟨hys.congr ?_, ?_, trivial⟩
        · intro x hx
          simp [Mem.get_set, (hne2 x hx).1, (hne2 x hx).2]
        · simp [Mem.get_set, hy, hne]
      · simpa [headAddr_append] using hhi
      · simp [lastAddr_append]
      · simp only [List.length_append, List.length_singleton] at hcnt hlen ⊢
        rw [hcnt]
        exact wrap_ulong_pred _ (by omega)
      · intro x hx
        exact hrg x (List.mem_append_left _ hx)
    · intro q hq hq2
      simp [hq, hq2]

theorem pop_empty {st : State} (h : WellFormed st []) (which : Int) :
    pipeline_pop st which = .ok (st, none) := by
  obtain ⟨-, hhi, hlo, -⟩ := h
  simp only [headAddr_nil, lastAddr_nil] at hhi hlo
  unfold pipeline_pop
  by_cases h1 : which = OQ_HIGHEST <;> by_cases h0 : which = OQ_LOWEST <;>
    simp [h1, h0, hhi, hlo, bind, Except.bind, pure, Except.pure]

theorem pop_invalid (st : State) (which : Int) (h0 : which ≠ OQ_LOWEST) (h1 : which ≠ OQ_HIGHEST) :
    pipeline_pop st which = .ok (st, none) := by
  simp [pipeline_pop, h0, h1, pure, Except.pure]

theorem Seg.cons_iff {m : Mem} {prev next : Option Nat} {e : Entry} {r : List Entry} :
    Seg m prev (e :: r) next ↔
      m.get e.addr = some { pkg := e.pkg, num := e.num, lower := headAddr r next, higher := prev } ∧
        Seg m (some e.addr) r next := Iff.rfl

/-- The walk of `find_predecessor` stops at the last node whose key is above `num`. -/
theorem find_predecessor_loop_spec (m : Mem) (num : Int) (pre : Entry) (lo : List Entry) :
    ∀ (xs : List Entry) (prev : Option Nat) (fuel : Nat),
      Seg m prev (xs ++ pre :: lo) none →
      (∀ x ∈ xs, num < x.num) → num < pre.num →
      (∀ y, lo.head? = some y → y.num ≤ num) →
      xs.length + 1 ≤ fuel →
      ∀ c, headAddr (xs ++ [pre]) none = some c →
      find_predecessor_loop m num fuel c = .ok pre.addr := by
  intro xs
  induction xs with
  | nil =>
    intro prev fuel hseg _ _ hlo hf c hc
    obtain ⟨hpre, hrest⟩ := hseg
    simp only [List.nil_append, headAddr_cons, Option.some.injEq] at hc
    subst hc
    cases fuel with
    | zero => simp at hf
    | succ n =>
      cases lo with
      | nil =>
        simp [find_predecessor_loop, deref, hpre, bind, Except.bind, pure, Except.pure]
      | cons y t =>
        have hy := hlo y rfl
        obtain ⟨hy2, -⟩ := hrest
        simp [find_predecessor_loop, deref, hpre, hy2, hy, bind, Except.bind, pure, Except.pure]
  | cons x xs ih =>
    intro prev fuel hseg hxs hpre hlo hf c hc
    rw [List.cons_append, Seg.cons_iff] at hseg
    obtain ⟨hx, hrest⟩ := hseg
    simp only [List.cons_append, headAddr_cons, Option.some.injEq] at hc
    subst hc
    cases fuel with
    | zero => simp at hf
    | succ n =>
      cases xs with
      | nil =>
        rw [List.nil_append, Seg.cons_iff] at hrest
        have hp := hrest.1
        simp only [List.nil_append, headAddr_cons] at hx
        have hlt : ¬ pre.num ≤ num := not_le.2 hpre
        simp only [find_predecessor_loop, deref, hx, hp, bind, Except.bind, ge_iff_le, hlt,
          if_false]
        exact ih (some x.addr) n (by simpa [Seg.cons_iff] using hrest) (by simp) hpre hlo
          (by simpa using hf) pre.addr rfl
      | cons x2 t =>
        rw [List.cons_append, Seg.cons_iff] at hrest
        have hp := hrest.1
        simp only [List.cons_append, headAddr_cons] at hx
        have hlt : ¬ x2.num ≤ num := not_le.2 (hxs x2 (by simp))
        simp only [find_predecessor_loop, deref, hx, hp, bind, Except.bind, ge_iff_le, hlt,
          if_false]
        exact ih (some x.addr) n (by simpa [Seg.cons_iff] using hrest)
          (fun y hy => hxs y (List.mem_cons_of_mem _ hy)) hpre hlo
          (by simpa using hf) x2.addr rfl

theorem Fresh.apart {m : Mem} {p q : Nat} (h : Fresh m p) (hq : m.get q ≠ none) : Apart p q := by
  cases hg : m.get q with
  | none => exact absurd hg hq
  | some nd => exact h.2 _ (Mem.mem_cells_of_get hg)

theorem Fresh.release_alloc_eq {m : Mem} {p : Nat} (h : Fresh m p) (nd : oqnode_t) :
    (m.alloc p nd).release p = m :=
  Mem.release_alloc m p nd (fun c hc => (h.2 c hc).symm.ne)

theorem sorted_le_of_head {lo : List Entry} {num : Int}
    (hs : lo.Pairwise (fun a b => a.num ≥ b.num))
    (hh : ∀ y, lo.head? = some y → y.num ≤ num) : ∀ y ∈ lo, y.num ≤ num := by
  cases lo with
  | nil => intro y hy; cases hy
  | cons z t =>
    intro y hy
    have hz := hh z rfl
    rcases List.mem_cons.1 hy with rfl | ht
    · exact hz
    · exact le_trans ((List.pairwise_cons.1 hs).1 y ht) hz

/-- Well-formedness of the list with a new entry spliced in, given the heap facts. -/
theorem wellFormed_splice {st : State} (hi lo : List Entry) (h : WellFormed st (hi ++ lo))
    {p : Nat} (hp : Fresh st.mem p) (pkg : Nat) (num : Int)
    (hhi : ∀ x ∈ hi, num < x.num) (hlo : ∀ y, lo.head? = some y → y.num ≤ num)
    (m1 : Mem)
    (h1 : Seg m1 none hi (some p))
    (h2 : m1.get p = some ⟨pkg, num, headAddr lo none, lastAddr none hi⟩)
    (h3 : Seg m1 (some p) lo none) :
    WellFormed ⟨headAddr hi (some p), lastAddr (some p) lo, (st.g_count + 1) % 2 ^ 64, m1⟩
      (hi ++ ⟨p, pkg, num⟩ :: lo) := by
  obtain ⟨hseg, -, -, hcnt, hap, hrg, hsort⟩ := h
  have hlen := length_le_of_apart _ hap hrg
  have hapart : ∀ e ∈ hi ++ lo, Apart p e.addr := fun e he => hp.apart (hseg.get_of_mem he)
  rw [List.pairwise_append] at hap hsort
  refine ⟨?_, ?_, ?_, ?_, ?_, ?_, ?_⟩
  · rw [Seg.append]
    exact ⟨h1, h2, h3⟩
  · simp [headAddr_append]
  · simp [lastAddr_append]
  · simp only [List.length_append, List.length_cons] at hcnt hlen ⊢
    show (st.g_count + 1) % 2 ^ 64 = _
    rw [hcnt, Nat.mod_eq_of_lt (by omega)]
    omega
  · rw [List.pairwise_append]
    refine ⟨hap.1, List.pairwise_cons.2 ⟨?_, hap.2.1⟩, ?_⟩
    · intro y hy
      exact hapart y (List.mem_append_right _ hy)
    · intro x hx y hy
      rcases List.mem_cons.1 hy with rfl | hy
      · exact (hapart x (List.mem_append_left _ hx)).symm
      · exact hap.2.2 x hx y hy
  · intro e he
    rcases List.mem_append.1 he with h | h
    · exact hrg e (List.mem_append_left _ h)
    · rcases List.mem_cons.1 h with rfl | h
      · exact hp.1
      · exact hrg e (List.mem_append_right _ h)
  · rw [List.pairwise_append]
    have hle := sorted_le_of_head hsort.2.1 hlo
    refine ⟨hsort.1, List.pairwise_cons.2 ⟨?_, hsort.2.1⟩, ?_⟩
    · intro y hy
      exact hle y hy
    · intro x hx y hy
      rcases List.mem_cons.1 hy with rfl | hy
      · exact le_of_lt (hhi x hx)
      · exact hsort.2.2 x hx y hy

theorem insert_empty {st : State} (h : WellFormed st []) {p : Nat} (hp : Fresh st.mem p)
    (fuel : Nat) (pkg : Nat) (num : Int) (rej : Int) :
    ∃ st1, pipeline_insert fuel st (some p) pkg num rej = .ok (st1, 1) ∧
      WellFormed st1 [⟨p, pkg, num⟩] ∧ (∀ q, q ≠ p → st1.mem.get q = st.mem.get q) := by
  have hw := wellFormed_splice [] [] h hp pkg num (by simp) (by simp)
  obtain ⟨-, hhi, hlo, hcnt, -⟩ := h
  simp only [headAddr_nil, lastAddr_nil] at hhi hlo
  simp [pipeline_insert, hhi, new_oqnode, insert_finish, store, Mem.get_set, Mem.get_alloc, bind,
    Except.bind, pure, Except.pure]
  refine ⟨?_, ?_⟩
  · refine hw _ trivial ?_ trivial
    simp [Mem.get_set, Mem.get_alloc]
  · intro q hq
    simp [hq, Ne.symm hq]

theorem insert_top {st : State} {y : Entry} {t : List Entry} (h : WellFormed st (y :: t))
    {p : Nat} (hp : Fresh st.mem p) (fuel : Nat) (pkg : Nat) (num : Int) (rej : Int)
    (hy : y.num ≤ num) :
    (Rejects (y :: t) num rej → pipeline_insert fuel st (some p) pkg num rej = .ok (st, 0)) ∧
    (¬ Rejects (y :: t) num rej →
      ∃ st1, pipeline_insert fuel st (some p) pkg num rej = .ok (st1, 1) ∧
        WellFormed st1 (⟨p, pkg, num⟩ :: y :: t) ∧
        (∀ q, q ≠ p → q ≠ y.addr → st1.mem.get q = st.mem.get q)) := by
  have hw := wellFormed_splice [] (y :: t) h hp pkg num (by simp)
    (by intro z hz; simp at hz; subst hz; exact hy)
  obtain ⟨hseg, hhi, hlo, hcnt, hap, -⟩ := h
  have hpy : p ≠ y.addr := (hp.apart (hseg.get_of_mem (List.mem_cons_self _ _))).ne
  have hpt : ∀ x ∈ t, x.addr ≠ p ∧ x.addr ≠ y.addr := fun x hx =>
    ⟨(hp.apart (hseg.get_of_mem (List.mem_cons_of_mem _ hx))).symm.ne,
      ((List.pairwise_cons.1 hap).1 x hx).symm.ne⟩
  rw [Seg.cons_iff] at hseg
  obtain ⟨hgy, hseg2⟩ := hseg
  simp only [headAddr_cons] at hhi
  constructor
  · rintro ⟨hrej, z, hz, hnum⟩
    simp only [List.head?_cons, Option.some.injEq] at hz
    subst hz
    simp [pipeline_insert, hhi, find_predecessor, deref, hgy, hy, new_oqnode, Mem.get_alloc, hpy,
      hrej, hnum, bind, Except.bind, pure, Except.pure, free, hp.release_alloc_eq]
    rw [← hhi]
  · intro hnr
    have hdup : ¬ (rej ≠ 0 ∧ num = y.num) := by
      intro ⟨h1, h2⟩
      exact hnr ⟨h1, y, rfl, h2.symm⟩
    by_cases hrej : rej = 0
    · simp [pipeline_insert, hhi, find_predecessor, deref, hgy, hy, new_oqnode, Mem.get_alloc, hpy,
        hrej, bind, Except.bind, pure, Except.pure, insert_finish, store, Mem.get_set, hpy.symm]
      refine ⟨?_, ?_⟩
      · rw [hlo]
        refine hw _ trivial ?_ ⟨?_, ?_⟩
        · simp [Mem.get_set, Mem.get_alloc, hpy]
        · simp [Mem.get_set, Mem.get_alloc, hpy, hpy.symm, hgy]
        · refine hseg2.congr ?_
          intro x hx
          simp [Mem.get_set, Mem.get_alloc, (hpt x hx).1, (hpt x hx).2, Ne.symm (hpt x hx).1]
      · intro q hq hq2
        simp [hq, hq2, Ne.symm hq]
    · have hne : ¬ num = y.num := fun h2 => hdup ⟨hrej, h2⟩
      simp [pipeline_insert, hhi, find_predecessor, deref, hgy, hy, new_oqnode, Mem.get_alloc, hpy,
        hrej, hne, bind, Except.bind, pure, Except.pure, insert_finish, store, Mem.get_set,
        hpy.symm]
      refine ⟨?_, ?_⟩
      · rw [hlo]
        refine hw _ trivial ?_ ⟨?_, ?_⟩
        · simp [Mem.get_set, Mem.get_alloc, hpy]
        · simp [Mem.get_set, Mem.get_alloc, hpy, hpy.symm, hgy]
        · refine hseg2.congr ?_
          intro x hx
          simp [Mem.get_set, Mem.get_alloc, (hpt x hx).1, (hpt x hx).2, Ne.symm (hpt x hx).1]
      · intro q hq hq2
        simp [hq, hq2, Ne.symm hq]

theorem find_predecessor_spec {st : State} {xs lo : List Entry} {pre : Entry} {num : Int}
    (h : WellFormed st (xs ++ pre :: lo)) (fuel : Nat) (hf : xs.length + 1 ≤ fuel)
    (hxs : ∀ x ∈ xs, num < x.num) (hpre : num < pre.num)
    (hlo : ∀ y, lo.head? = some y → y.num ≤ num) :
    find_predecessor fuel st num = .ok (some pre.addr) := by
  obtain ⟨hseg, hhi, -⟩ := h
  have hhd : ∃ hd, headAddr (xs ++ [pre]) none = some hd.addr ∧ hd ∈ xs ++ pre :: lo ∧
      num < hd.num := by
    cases xs with
    | nil => exact ⟨pre, rfl, by simp, hpre⟩
    | cons x t => exact ⟨x, rfl, by simp, hxs x (by simp)⟩
  obtain ⟨hd, hd1, hd2, hd3⟩ := hhd
  obtain ⟨nd, hnd, -, hnum⟩ := hseg.allocated hd2
  have hg : st.g_highest = some hd.addr := by
    rw [hhi, ← hd1]
    cases xs <;> rfl
  have hlt : ¬ nd.num ≤ num := by rw [hnum]; exact not_le.2 hd3
  have hloop := find_predecessor_loop_spec st.mem num pre lo xs none fuel hseg hxs hpre hlo hf
    hd.addr hd1
  simp [find_predecessor, hg, deref, hnd, hlt, hloop, bind, Except.bind, pure, Except.pure]

theorem insert_below {st : State} {xs lo : List Entry} {pre : Entry}
    (h : WellFormed st (xs ++ pre :: lo))
    {p : Nat} (hp : Fresh st.mem p) (fuel : Nat) (hf : xs.length + 1 ≤ fuel)
    (pkg : Nat) (num : Int) (rej : Int)
    (hxs : ∀ x ∈ xs, num < x.num) (hpre : num < pre.num)
    (hlo : ∀ y, lo.head? = some y → y.num ≤ num) :
    (Rejects lo num rej → pipeline_insert fuel st (some p) pkg num rej = .ok (st, 0)) ∧
    (¬ Rejects lo num rej →
      ∃ st1, pipeline_insert fuel st (some p) pkg num rej = .ok (st1, 1) ∧
        WellFormed st1 (xs ++ pre :: ⟨p, pkg, num⟩ :: lo) ∧
        (∀ q, q ≠ p → q ≠ pre.addr → some q ≠ headAddr lo none →
          st1.mem.get q = st.mem.get q)) := by
  have hfp := find_predecessor_spec h fuel hf hxs hpre hlo
  have hw : ∀ m1, Seg m1 none xs (some pre.addr) →
      m1.get pre.addr = some ⟨pre.pkg, pre.num, some p, lastAddr none xs⟩ →
      m1.get p = some ⟨pkg, num, headAddr lo none, some pre.addr⟩ →
      Seg m1 (some p) lo none →
      WellFormed ⟨st.g_highest, lastAddr (some p) lo, (st.g_count + 1) % 2 ^ 64, m1⟩
        (xs ++ pre :: ⟨p, pkg, num⟩ :: lo) := by
    intro m1 h1 h2 h3 h4
    have := wellFormed_splice (xs ++ [pre]) lo
      (by simpa using h) hp pkg num
      (by intro x hx; rcases List.mem_append.1 hx with h1 | h1
          · exact hxs x h1
          · simp at h1; subst h1; exact hpre) hlo m1
      (by rw [Seg.append]; exact ⟨h1, h2, trivial⟩)
      (by simpa [lastAddr_append] using h3) h4
    have hg : st.g_highest = headAddr xs (some pre.addr) := by
      rw [h.2.1, headAddr_append]; rfl
    rw [hg]
    simpa [headAddr_append] using this
  obtain ⟨hseg, hhi, hlow, hcnt, hap, -⟩ := h
  have hapart : ∀ e ∈ xs ++ pre :: lo, p ≠ e.addr := fun e he =>
    (hp.apart (hseg.get_of_mem he)).ne
  have hppre : p ≠ pre.addr := hapart pre (by simp)
  obtain ⟨c, hc⟩ : ∃ c, st.g_highest = some c := by
    rw [hhi]; cases xs <;> exact ⟨_, rfl⟩
  rw [List.pairwise_append] at hap
  obtain ⟨hap1, hap2, hap3⟩ := hap
  rw [Seg.append, Seg.cons_iff] at hseg
  obtain ⟨hsx, hgpre, hsl⟩ := hseg
  have hxne : ∀ x ∈ xs, x.addr ≠ p ∧ x.addr ≠ pre.addr ∧ some x.addr ≠ headAddr lo none := by
    intro x hx
    refine ⟨(hapart x (by simp [hx])).symm, (hap3 x hx pre (by simp)).ne, ?_⟩
    cases lo with
    | nil => simp
    | cons y t =>
      simp only [headAddr_cons, ne_eq, Option.some.injEq]
      exact (hap3 x hx y (by simp)).ne
  have hsx1 : ∀ m1 : Mem, (∀ x ∈ xs, m1.get x.addr = st.mem.get x.addr) →
      Seg m1 none xs (some pre.addr) := fun m1 hm => hsx.congr hm
  clear hsx
  cases lo with
  | nil =>
    simp only [headAddr_nil] at hgpre
    constructor
    · rintro ⟨-, z, hz, -⟩
      simp at hz
    · intro _
      have key : ∀ m0 : Mem,
          m0 = ((st.mem.alloc p ⟨0, 0, none, none⟩).set pre.addr
              ⟨pre.pkg, pre.num, some p, lastAddr none xs⟩).set p ⟨0, 0, none, some pre.addr⟩ →
          ∃ st1, insert_finish ⟨st.g_highest, st.g_lowest, st.g_count, m0⟩ p none pkg num
            = .ok (st1, 1) ∧
          WellFormed st1 (xs ++ [pre, ⟨p, pkg, num⟩]) ∧
          (∀ q, q ≠ p → q ≠ pre.addr → st1.mem.get q = st.mem.get q) := by
        intro m0 hm0
        subst hm0
        simp [bind, Except.bind, pure, Except.pure, insert_finish, store, Mem.get_set,
          Mem.get_alloc, hppre, hppre.symm]
        refine ⟨?_, ?_⟩
        · refine hw _ (hsx1 _ ?_) ?_ ?_ trivial
          · intro x hx
            simp [Mem.get_set, Mem.get_alloc, (hxne x hx).1, (hxne x hx).2.1,
              Ne.symm (hxne x hx).1]
          · simp [Mem.get_set, Mem.get_alloc, hppre, hppre.symm, hgpre]
          · simp [Mem.get_set, Mem.get_alloc, hppre, hppre.symm, hgpre]
        · intro q hq hq2
          simp [hq, hq2, Ne.symm hq]
      by_cases hrej : rej = 0
      · simpa [pipeline_insert, hc, hfp, deref, hgpre, new_oqnode, Mem.get_alloc, hppre,
          hrej, bind, Except.bind, pure, Except.pure, store, Mem.get_set,
          hppre.symm] using key _ rfl
      · simpa [pipeline_insert, hc, hfp, deref, hgpre, new_oqnode, Mem.get_alloc, hppre,
          hrej, bind, Except.bind, pure, Except.pure, store, Mem.get_set,
          hppre.symm] using key _ rfl
  | cons y t =>
    simp only [headAddr_cons] at hgpre
    rw [Seg.cons_iff] at hsl
    obtain ⟨hgy, hst⟩ := hsl
    have hpy : p ≠ y.addr := hapart y (by simp)
    have hprey : pre.addr ≠ y.addr := ((List.pairwise_cons.1 hap2).1 y (by simp)).ne
    have htne : ∀ x ∈ t, x.addr ≠ p ∧ x.addr ≠ pre.addr ∧ x.addr ≠ y.addr := by
      intro x hx
      refine ⟨(hapart x (by simp [hx])).symm, ?_, ?_⟩
      · exact ((List.pairwise_cons.1 hap2).1 x (by simp [hx])).symm.ne
      · exact ((List.pairwise_cons.1 (List.pairwise_cons.1 hap2).2).1 x hx).symm.ne
    constructor
    · rintro ⟨hrej, z, hz, hnum⟩
      simp only [List.head?_cons, Option.some.injEq] at hz
      subst hz
      simp [pipeline_insert, hc, hfp, deref, hgpre, hgy, new_oqnode, Mem.get_alloc, hppre, hpy,
        hrej, hnum, bind, Except.bind, pure, Except.pure, free, hp.release_alloc_eq]
      rw [← hc]
    · intro hnr
      have hdup : ¬ (rej ≠ 0 ∧ num = y.num) := by
        intro ⟨h1, h2⟩
        exact hnr ⟨h1, y, rfl, h2.symm⟩
      have key : ∀ m0 : Mem,
          m0 = ((st.mem.alloc p ⟨0, 0, none, none⟩).set pre.addr
              ⟨pre.pkg, pre.num, some p, lastAddr none xs⟩).set p ⟨0, 0, none, some pre.addr⟩ →
          ∃ st1, insert_finish ⟨st.g_highest, st.g_lowest, st.g_count, m0⟩ p (some y.addr) pkg num
            = .ok (st1, 1) ∧
          WellFormed st1 (xs ++ pre :: ⟨p, pkg, num⟩ :: y :: t) ∧
          (∀ q, q ≠ p → q ≠ pre.addr → ¬ q = y.addr → st1.mem.get q = st.mem.get q) := by
        intro m0 hm0
        subst hm0
        simp [bind, Except.bind, pure, Except.pure, insert_finish, store, Mem.get_set,
          Mem.get_alloc, hppre, hppre.symm, hpy, hpy.symm, hprey, hprey.symm, hgy]
        refine ⟨?_, ?_⟩
        · have hl : st.g_lowest = lastAddr (some p) (y :: t) := by
            rw [hlow]; simp [lastAddr_append]
          rw [hl]
          refine hw _ (hsx1 _ ?_) ?_ ?_ ⟨?_, hst.congr ?_⟩
          · intro x hx
            simp [Mem.get_set, Mem.get_alloc, (hxne x hx).1, (hxne x hx).2.1,
              Ne.symm (hxne x hx).1, (hxne x hx).2.2]
            intro h1
            exact absurd (congrArg some h1) (by simpa using (hxne x hx).2.2)
          · simp [Mem.get_set, Mem.get_alloc, hppre, hppre.symm, hgpre, hprey, hpy, hpy.symm]
          · simp [Mem.get_set, Mem.get_alloc, hppre, hppre.symm, hgpre, hpy, hpy.symm]
          · simp [Mem.get_set, Mem.get_alloc, hpy, hpy.symm, hprey.symm, hgy]
          · intro x hx
            simp [Mem.get_set, Mem.get_alloc, (htne x hx).1, (htne x hx).2.1,
              Ne.symm (htne x hx).1, (htne x hx).2.2]
        · intro q hq hq2 hq3
          simp [hq, hq2, hq3, Ne.symm hq]
      by_cases hrej : rej = 0
      · simpa [pipeline_insert, hc, hfp, deref, hgpre, hgy, new_oqnode, Mem.get_alloc, hppre, hpy,
          hrej, bind, Except.bind, pure, Except.pure, store, Mem.get_set,
          hppre.symm] using key _ rfl
      · have hne : ¬ num = y.num := fun h2 => hdup ⟨hrej, h2⟩
        simpa [pipeline_insert, hc, hfp, deref, hgpre, hgy, new_oqnode, Mem.get_alloc, hppre, hpy,
          hrej, hne, bind, Except.bind, pure, Except.pure, store, Mem.get_set,
          hppre.symm] using key _ rfl

theorem above_append_notAbove (num : Int) (l : List Entry) :
    above num l ++ notAbove num l = l := List.takeWhile_append_dropWhile _ _

theorem lt_of_mem_above {num : Int} {l : List Entry} {x : Entry} (h : x ∈ above num l) :
    num < x.num := by
  have := List.mem_takeWhile_imp h
  simpa using this

theorem head_notAbove_le {num : Int} {l : List Entry} {y : Entry}
    (h : (notAbove num l).head? = some y) : y.num ≤ num := by
  unfold notAbove at h
  have := List.head?_dropWhile_not (fun e : Entry => decide (num < e.num)) l
  rw [h] at this
  simpa using this

/-- For a queue in descending order, the rejection test of `pipeline_insert` finds a
duplicate exactly when some linked entry carries the key. -/
theorem rejects_iff {l : List Entry} (hs : l.Pairwise (fun a b => a.num ≥ b.num))
    (num : Int) (rej : Int) :
    Rejects (notAbove num l) num rej ↔ rej ≠ 0 ∧ ∃ e ∈ l, e.num = num := by
  unfold Rejects
  refine and_congr_right (fun _ => ⟨?_, ?_⟩)
  · rintro ⟨y, hy, hnum⟩
    refine ⟨y, ?_, hnum⟩
    rw [← above_append_notAbove num l]
    exact List.mem_append_right _ (List.mem_of_mem_head? hy)
  · rintro ⟨e, he, hnum⟩
    rw [← above_append_notAbove num l] at he hs
    rcases List.mem_append.1 he with h1 | h1
    · have := lt_of_mem_above h1
      omega
    · cases hlo : notAbove num l with
      | nil => rw [hlo] at h1; cases h1
      | cons y t =>
        refine ⟨y, rfl, ?_⟩
        have hy := head_notAbove_le (l := l) (y := y) (by rw [hlo]; rfl)
        rw [hlo] at h1 hs
        have hs2 := (List.pairwise_append.1 hs).2.1
        rcases List.mem_cons.1 h1 with rfl | ht
        · exact hnum
        · have := (List.pairwise_cons.1 hs2).1 e ht
          omega

/-- What `pipeline_insert` does to a well-formed queue: it rejects a duplicate and
leaves the state alone, or splices the new entry in front of the first entry
whose key is not above the new key. -/
theorem insert_spec {st : State} {l : List Entry} (h : WellFormed st l)
    {p : Nat} (hp : Fresh st.mem p) (fuel : Nat) (hf : l.length ≤ fuel)
    (pkg : Nat) (num : Int) (rej : Int) :
    (Rejects (notAbove num l) num rej →
      pipeline_insert fuel st (some p) pkg num rej = .ok (st, 0)) ∧
    (¬ Rejects (notAbove num l) num rej →
      ∃ st1, pipeline_insert fuel st (some p) pkg num rej = .ok (st1, 1) ∧
        WellFormed st1 (above num l ++ ⟨p, pkg, num⟩ :: notAbove num l) ∧
        (∀ q, q ≠ p → some q ≠ lastAddr none (above num l) →
          some q ≠ headAddr (notAbove num l) none → st1.mem.get q = st.mem.get q)) := by
  have hl := above_append_notAbove num l
  have hab : ∀ x ∈ above num l, num < x.num := fun x hx => lt_of_mem_above hx
  have hna : ∀ y, (notAbove num l).head? = some y → y.num ≤ num := fun y hy =>
    head_notAbove_le hy
  generalize above num l = hi at hl hab ⊢
  generalize notAbove num l = lo at hl hna ⊢
  subst hl
  rcases List.eq_nil_or_concat hi with rfl | ⟨xs, pre, rfl⟩
  · cases lo with
    | nil =>
      constructor
      · rintro ⟨-, z, hz, -⟩
        simp at hz
      · intro _
        obtain ⟨st1, h1, h2, h3⟩ := insert_empty h hp fuel pkg num rej
        exact ⟨st1, h1, h2, fun q hq _ _ => h3 q hq⟩
    | cons y t =>
      obtain ⟨h1, h2⟩ := insert_top h hp fuel pkg num rej (hna y rfl)
      refine ⟨h1, fun hn => ?_⟩
      obtain ⟨st1, h3, h4, h5⟩ := h2 hn
      refine ⟨st1, h3, h4, fun q hq _ hq3 => h5 q hq ?_⟩
      simpa using hq3
  · simp only [List.concat_eq_append, List.append_assoc, List.singleton_append] at h hf hab ⊢
    obtain ⟨h1, h2⟩ := insert_below h hp fuel (by simp at hf; omega) pkg num rej
      (fun x hx => hab x (by simp [hx])) (hab pre (by simp)) hna
    refine ⟨h1, fun hn => ?_⟩
    obtain ⟨st1, h3, h4, h5⟩ := h2 hn
    refine ⟨st1, h3, h4, fun q hq hq2 hq3 => h5 q hq ?_ hq3⟩
    simpa [lastAddr_append] using hq2

theorem find_predecessor_loop_mono (m : Mem) (num : Int) :
    ∀ (fuel : Nat) (c r : Nat), find_predecessor_loop m num fuel c = .ok r →
      ∀ k, find_predecessor_loop m num (fuel + k) c = .ok r := by
  intro fuel
  induction fuel with
  | zero => intro c r h; simp [find_predecessor_loop] at h
  | succ n ih =>
    intro c r h k
    rw [Nat.add_right_comm]
    simp only [find_predecessor_loop, bind, Except.bind] at h ⊢
    cases hc : deref m c with
    | error e => simp [hc] at h
    | ok nd =>
      simp only [hc] at h ⊢
      cases hl : nd.lower with
      | none => simpa [hl] using h
      | some lo =>
        simp only [hl] at h ⊢
        cases hd : deref m lo with
        | error e => simp [hd] at h
        | ok nl =>
          simp only [hd] at h ⊢
          by_cases hge : num ≥ nl.num
          · simpa [hge] using h
          · simp only [hge, if_false] at h ⊢
            exact ih lo r h k

theorem find_predecessor_mono {fuel fuel1 : Nat} {st : State} {num : Int} {r : Option Nat}
    (h : find_predecessor fuel st num = .ok r) (hf : fuel ≤ fuel1) :
    find_predecessor fuel1 st num = .ok r := by
  obtain ⟨k, rfl⟩ := Nat.exists_eq_add_of_le hf
  unfold find_predecessor at h ⊢
  cases hg : st.g_highest with
  | none => simp [hg] at h
  | some hi =>
    simp only [hg, bind, Except.bind] at h ⊢
    cases hd : deref st.mem hi with
    | error e => simp [hd] at h
    | ok nd =>
      simp only [hd] at h ⊢
      by_cases hge : num ≥ nd.num
      · simpa [hge] using h
      · simp only [hge, if_false] at h ⊢
        cases hl : find_predecessor_loop st.mem num fuel hi with
        | error e => simp [hl] at h
        | ok c =>
          rw [find_predecessor_loop_mono _ _ _ _ _ hl k]
          simpa [hl] using h

/-- More fuel does not change what `pipeline_insert` returns. -/
theorem pipeline_insert_mono {fuel fuel1 : Nat} {st : State} {a : Option Nat} {pkg : Nat}
    {num rej : Int} {r : State × Int}
    (h : pipeline_insert fuel st a pkg num rej = .ok r) (hf : fuel ≤ fuel1) :
    pipeline_insert fuel1 st a pkg num rej = .ok r := by
  unfold pipeline_insert at h ⊢
  cases hg : st.g_highest with
  | none => simpa [hg] using h
  | some hi =>
    simp only [hg, bind, Except.bind] at h ⊢
    cases hfp : find_predecessor fuel st num with
    | error e => simp [hfp] at h
    | ok x =>
      rw [find_predecessor_mono hfp hf]
      simpa [hfp] using h

theorem WellFormed.spine_eq {st : State} {l : List Entry} (h : WellFormed st l) :
    spine st = l.map Entry.addr := by
  obtain ⟨hseg, hhi, -, hcnt, -⟩ := h
  unfold spine
  rw [hhi, hcnt]
  exact walk_lower_seg hseg _ (le_refl _)

theorem Seg.filterMap_get {m : Mem} {prev next : Option Nat} {l : List Entry}
    (hs : Seg m prev l next) :
    ((l.map Entry.addr).filterMap m.get).map (fun nd => (nd.num, nd.pkg)) =
      l.map (fun e => (e.num, e.pkg)) := by
  induction l generalizing prev with
  | nil => rfl
  | cons e r ih =>
    obtain ⟨h1, h2⟩ := hs
    simp only [List.map_cons, List.filterMap_cons, h1]
    rw [ih h2]

theorem WellFormed.linked_eq {st : State} {l : List Entry} (h : WellFormed st l) :
    (linked st).map (fun nd => (nd.num, nd.pkg)) = l.map (fun e => (e.num, e.pkg)) := by
  unfold linked
  rw [h.spine_eq]
  exact h.1.filterMap_get

theorem WellFormed.linkedKeys_eq {st : State} {l : List Entry} (h : WellFormed st l) :
    linkedKeys st = l.map Entry.num := by
  have := congrArg (List.map Prod.fst) h.linked_eq
  simpa [linkedKeys, List.map_map, Function.comp_def] using this

theorem wellFormed_init : WellFormed State.init [] := by decide

theorem WellFormed.destroy {st : State} {l : List Entry} (h : WellFormed st l) {q : Nat}
    (hq : q ∉ spine st) : WellFormed (destroy_orphan st (some q)) l := by
  rw [h.spine_eq] at hq
  obtain ⟨hseg, hrest⟩ := h
  refine ⟨hseg.congr ?_, hrest⟩
  intro e he
  have : e.addr ≠ q := fun h1 => hq (h1 ▸ List.mem_map_of_mem _ he)
  simp [destroy_orphan, free, Mem.get_release, this]

theorem WellFormed.key_le_head {e : Entry} {t : List Entry} {st : State}
    (h : WellFormed st (e :: t)) : ∀ k ∈ linkedKeys st, k ≤ e.num := by
  rw [h.linkedKeys_eq]
  intro k hk
  obtain ⟨x, hx, rfl⟩ := List.mem_map.1 hk
  rcases List.mem_cons.1 hx with rfl | ht
  · exact le_refl _
  · exact (List.pairwise_cons.1 h.2.2.2.2.2.2).1 x ht

theorem WellFormed.last_le_key {z : Entry} {xs : List Entry} {st : State}
    (h : WellFormed st (xs ++ [z])) : ∀ k ∈ linkedKeys st, z.num ≤ k := by
  rw [h.linkedKeys_eq]
  intro k hk
  obtain ⟨x, hx, rfl⟩ := List.mem_map.1 hk
  rcases List.mem_append.1 hx with h1 | h1
  · exact (List.pairwise_append.1 h.2.2.2.2.2.2).2.2 x h1 z (by simp)
  · simp at h1; subst h1; exact le_refl _

theorem WellFormed.node_of_mem {st : State} {l : List Entry} (h : WellFormed st l) {e : Entry}
    (he : e ∈ l) : ∃ nd, st.mem.get e.addr = some nd ∧ nd.pkg = e.pkg ∧ nd.num = e.num :=
  h.1.allocated he

theorem walk_lower_take {m : Mem} {prev : Option Nat} {l : List Entry}
    (hs : Seg m prev l none) (fuel : Nat) :
    walk_lower m fuel (headAddr l none) = (l.map Entry.addr).take fuel := by
  induction l generalizing prev fuel with
  | nil => cases fuel <;> rfl
  | cons x r ih =>
    obtain ⟨h1, h2⟩ := hs
    cases fuel with
    | zero => rfl
    | succ n =>
      simp only [headAddr_cons, walk_lower, h1, Option.bind, List.map_cons, List.take_succ_cons]
      rw [ih h2 n]

theorem walk_higher_take {m : Mem} {next : Option Nat} {l : List Entry}
    (hs : Seg m none l next) (fuel : Nat) :
    walk_higher m fuel (lastAddr none l) = (l.reverse.map Entry.addr).take fuel := by
  induction l using List.reverseRecOn generalizing next fuel with
  | nil => cases fuel <;> rfl
  | append_singleton xs z ih =>
    rw [Seg.append] at hs
    obtain ⟨h1, h2, -⟩ := hs
    cases fuel with
    | zero => rfl
    | succ n =>
      simp only [lastAddr_append, lastAddr_cons, lastAddr_nil, walk_higher, h2, Option.bind,
        List.reverse_append, List.reverse_cons, List.reverse_nil, List.nil_append,
        List.singleton_append, List.map_cons, List.take_succ_cons]
      rw [ih h1 n]

theorem Seg.links {m : Mem} {prev next : Option Nat} {l : List Entry} (hs : Seg m prev l next)
    {e : Entry} (he : e ∈ l) :
    ∃ nd, m.get e.addr = some nd ∧
      (nd.lower = next ∨ ∃ x ∈ l, nd.lower = some x.addr) ∧
      (nd.higher = prev ∨ ∃ x ∈ l, nd.higher = some x.addr) := by
  induction l generalizing prev with
  | nil => cases he
  | cons a r ih =>
    obtain ⟨h1, h2⟩ := hs
    rcases List.mem_cons.1 he with rfl | hr
    · refine ⟨_, h1, ?_, Or.inl rfl⟩
      cases r with
      | nil => exact Or.inl rfl
      | cons b r2 => exact Or.inr ⟨b, by simp, rfl⟩
    · obtain ⟨nd, hnd, hl, hh⟩ := ih h2 hr
      refine ⟨nd, hnd, ?_, ?_⟩
      · rcases hl with hl | ⟨x, hx, hl⟩
        · exact Or.inl hl
        · exact Or.inr ⟨x, List.mem_cons_of_mem _ hx, hl⟩
      · rcases hh with hh | ⟨x, hx, hh⟩
        · exact Or.inr ⟨a, List.mem_cons_self _ _, hh⟩
        · exact Or.inr ⟨x, List.mem_cons_of_mem _ hx, hh⟩

/-- A node that is not among the linked entries of a well-formed state is out of
reach of the queue. -/
theorem WellFormed.isolated {st : State} {l : List Entry} (h : WellFormed st l) {p : Nat}
    (hp : ∀ e ∈ l, e.addr ≠ p) :
    (∀ fuel, p ∉ walk_lower st.mem fuel st.g_highest) ∧
    (∀ fuel, p ∉ walk_higher st.mem fuel st.g_lowest) ∧
    (∀ q ∈ spine st, ∀ nq, st.mem.get q = some nq → nq.higher ≠ some p ∧ nq.lower ≠ some p) := by
  have hnot : p ∉ l.map Entry.addr := by
    intro hc
    obtain ⟨e, he, h1⟩ := List.mem_map.1 hc
    exact hp e he h1
  refine ⟨?_, ?_, ?_⟩
  · intro fuel hc
    rw [h.2.1, walk_lower_take h.1] at hc
    exact hnot (List.mem_of_mem_take hc)
  · intro fuel hc
    rw [h.2.2.1, walk_higher_take h.1] at hc
    have := List.mem_of_mem_take hc
    rw [List.map_reverse, List.mem_reverse] at this
    exact hnot this
  · intro q hq nq hnq
    rw [h.spine_eq] at hq
    obtain ⟨e, he, rfl⟩ := List.mem_map.1 hq
    obtain ⟨nd, hnd, hl, hh⟩ := h.1.links he
    rw [hnd] at hnq
    cases hnq
    constructor
    · rcases hh with hh | ⟨x, hx, hh⟩
      · rw [hh]; simp
      · rw [hh]; intro hc; exact hp x hx (Option.some.inj hc)
    · rcases hl with hl | ⟨x, hx, hl⟩
      · rw [hl]; simp
      · rw [hl]; intro hc; exact hp x hx (Option.some.inj hc)

theorem insert_finish_ret {st s : State} {c : Nat} {post : Option Nat} {pkg : Nat} {num r : Int}
    (h : insert_finish st c post pkg num = .ok (s, r)) : r = 1 := by
  unfold insert_finish at h
  simp only [bind, Except.bind, pure, Except.pure] at h
  split at h
  · simp at h
  · split at h
    · simp at h
    · split at h
      · simp at h
      · simp only [Except.ok.injEq, Prod.mk.injEq] at h
        exact h.2.symm

/-- The only way `pipeline_insert` returns 0 is the bail-out, which frees the block
it was given and touches nothing else. -/
theorem pipeline_insert_zero {fuel : Nat} {st st1 : State} {p : Nat} {pkg : Nat} {num rej : Int}
    (hp : Fresh st.mem p)
    (h : pipeline_insert fuel st (some p) pkg num rej = .ok (st1, 0)) : st1 = st := by
  have hfree : ({ st with mem := free (st.mem.alloc p ⟨0, 0, none, none⟩) p } : State) = st := by
    simp [free, hp.release_alloc_eq]
  unfold pipeline_insert at h
  cases hg : st.g_highest with
  | none =>
    simp only [hg, new_oqnode, bind, Except.bind] at h
    have := insert_finish_ret h
    omega
  | some hi =>
    simp only [hg, new_oqnode, bind, Except.bind] at h
    cases hf : find_predecessor fuel st num with
    | error e => simp [hf] at h
    | ok pre =>
      simp only [hf] at h
      cases pre with
      | none =>
        simp only [] at h
        split at h
        · simp at h
        · rename_i dup hdup
          cases dup with
          | true =>
            simp only [if_true, pure, Except.pure, Except.ok.injEq, Prod.mk.injEq] at h
            rw [← h.1, ← hg]; exact hfree
          | false =>
            simp only [Bool.false_eq_true, if_false] at h
            have := insert_finish_ret h
            omega
      | some pr =>
        simp only [] at h
        split at h
        · simp at h
        · rename_i dup hdup
          cases dup with
          | true =>
            simp only [if_true, pure, Except.pure, Except.ok.injEq, Prod.mk.injEq] at h
            rw [← h.1, ← hg]; exact hfree
          | false =>
            simp only [Bool.false_eq_true, if_false] at h
            split at h
            · simp at h
            · split at h
              · simp at h
              · split at h
                · simp at h
                · have := insert_finish_ret h
                  omega

theorem WellFormed.not_mem_of_pop_highest {st : State} {e : Entry} {t : List Entry}
    (h : WellFormed st (e :: t)) : e.addr ∉ t.map Entry.addr := by
  intro hc
  obtain ⟨x, hx, h1⟩ := List.mem_map.1 hc
  exact ((List.pairwise_cons.1 h.2.2.2.2.1).1 x hx).ne h1.symm

theorem WellFormed.not_mem_of_pop_lowest {st : State} {z : Entry} {xs : List Entry}
    (h : WellFormed st (xs ++ [z])) : z.addr ∉ xs.map Entry.addr := by
  intro hc
  obtain ⟨x, hx, h1⟩ := List.mem_map.1 hc
  exact ((List.pairwise_append.1 h.2.2.2.2.1).2.2 x hx z (by simp)).ne h1

/-- Draining a well-formed queue from the top returns its entries top to bottom. -/
theorem drain_highest {l : List Entry} : ∀ {st : State} (_ : WellFormed st l) (fuel : Nat)
    (_ : l.length < fuel),
    ∃ st1, drain OQ_HIGHEST fuel st = .ok (l.map (fun e => (e.num, e.pkg)), st1) ∧
      WellFormed st1 [] := by
  induction l with
  | nil =>
    intro st h fuel hf
    cases fuel with
    | zero => simp at hf
    | succ n =>
      exact ⟨st, by simp [drain, pop_empty h, bind, Except.bind, pure, Except.pure], h⟩
  | cons e t ih =>
    intro st h fuel hf
    cases fuel with
    | zero => simp at hf
    | succ n =>
      obtain ⟨st1, h1, h2, h3, -⟩ := pop_highest_cons h
      have hd : WellFormed (destroy_orphan st1 (some e.addr)) t :=
        h2.destroy (by rw [h2.spine_eq]; exact h.not_mem_of_pop_highest)
      obtain ⟨st2, h4, h5⟩ := ih hd n (by simpa using hf)
      exact ⟨st2, by simp [drain, h1, deref, h3, h4, bind, Except.bind, pure, Except.pure], h5⟩

/-- Draining a well-formed queue from the bottom returns its entries bottom to top. -/
theorem drain_lowest {l : List Entry} : ∀ {st : State} (_ : WellFormed st l) (fuel : Nat)
    (_ : l.length < fuel),
    ∃ st1, drain OQ_LOWEST fuel st = .ok (l.reverse.map (fun e => (e.num, e.pkg)), st1) ∧
      WellFormed st1 [] := by
  induction l using List.reverseRecOn with
  | nil =>
    intro st h fuel hf
    cases fuel with
    | zero => simp at hf
    | succ n =>
      exact ⟨st, by simp [drain, pop_empty h, bind, Except.bind, pure, Except.pure], h⟩
  | append_singleton xs z ih =>
    intro st h fuel hf
    cases fuel with
    | zero => simp at hf
    | succ n =>
      obtain ⟨st1, h1, h2, h3, -⟩ := pop_lowest_concat h
      have hd : WellFormed (destroy_orphan st1 (some z.addr)) xs :=
        h2.destroy (by rw [h2.spine_eq]; exact h.not_mem_of_pop_lowest)
      obtain ⟨st2, h4, h5⟩ := ih hd n (by simp at hf; omega)
      exact ⟨st2, by simp [drain, h1, deref, h3, h4, bind, Except.bind, pure, Except.pure], h5⟩

/-- Inserting with duplicates allowed: every call returns 1 and the linked entries
are the old ones and the new ones, in descending key order. -/
theorem run_inserts_allow (xs : List (Nat × Nat × Int)) : ∀ {st : State} {l : List Entry}
    (_ : WellFormed st l) (fuel : Nat) (_ : l.length + xs.length ≤ fuel)
    (_ : ValidRun fuel st (insertCalls xs 0)),
    ∃ st1 l1, run fuel st (insertCalls xs 0) = .ok (st1, xs.map (fun _ => Ret.inserted 1)) ∧
      WellFormed st1 l1 ∧ l1.Perm (l ++ xs.map entryOf) := by
  induction xs with
  | nil =>
    intro st l h fuel _ _
    exact ⟨st, l, rfl, h, by simp⟩
  | cons x xs ih =>
    intro st l h fuel hf hv
    obtain ⟨hv1, hv2⟩ := hv
    obtain ⟨-, h2⟩ := insert_spec h hv1 fuel (by simp at hf; omega) x.2.1 x.2.2 0
    obtain ⟨st1, h3, h4, -⟩ := h2 (by simp [Rejects])
    have he : exec fuel st (Call.insert (some x.1) x.2.1 x.2.2 0) = .ok (st1, .inserted 1) := by
      simp [exec, h3, bind, Except.bind, pure, Except.pure]
    rw [he] at hv2
    obtain ⟨st2, l2, h5, h6, h7⟩ := ih h4 fuel (by
      have := congrArg List.length (above_append_notAbove x.2.2 l)
      simp at this hf ⊢; omega) hv2
    refine ⟨st2, l2, ?_, h6, ?_⟩
    · simp only [insertCalls, List.map_cons, run, he, bind, Except.bind, pure, Except.pure]
      simp only [insertCalls] at h5
      rw [h5]
    · refine h7.trans ?_
      have hl := above_append_notAbove x.2.2 l
      have : (above x.2.2 l ++ (⟨x.1, x.2.1, x.2.2⟩ : Entry) :: notAbove x.2.2 l).Perm
          (l ++ [entryOf x]) := by
        conv_rhs => rw [← hl]
        rw [List.append_assoc]
        exact List.Perm.append_left _ (by simpa [entryOf] using (List.perm_append_singleton _ _).symm)
      simpa using this.append_right (xs.map entryOf)

theorem wrap_long_of_range {x : Int} (h0 : -2 ^ 63 ≤ x) (h1 : x < 2 ^ 63) : wrap_long x = x := by
  unfold wrap_long
  rw [Int.emod_eq_of_lt (by omega) (by omega)]
  omega

theorem WellFormed.count_eq {st : State} {l : List Entry} (h : WellFormed st l) :
    pipeline_count st = l.length := by
  have hlen := length_le_of_apart _ h.2.2.2.2.1 h.2.2.2.2.2.1
  unfold pipeline_count
  rw [h.2.2.2.1]
  apply wrap_long_of_range <;> omega

theorem WellFormed.span {st : State} {e : Entry} {t : List Entry} (h : WellFormed st (e :: t)) :
    ∃ z, z ∈ e :: t ∧ (∀ x ∈ e :: t, z.num ≤ x.num) ∧
      pipeline_span st = .ok (wrap_long (e.num - z.num)) := by
  rcases List.eq_nil_or_concat (e :: t) with h0 | ⟨xs, z, hxz⟩
  · cases h0
  · simp only [List.concat_eq_append] at hxz
    have hz : z ∈ e :: t := by rw [hxz]; simp
    refine ⟨z, hz, ?_, ?_⟩
    · intro x hx
      have hs := h.2.2.2.2.2.2
      rw [hxz] at hs hx
      rcases List.mem_append.1 hx with h1 | h1
      · exact (List.pairwise_append.1 hs).2.2 x h1 z (by simp)
      · simp at h1; subst h1; exact le_refl _
    · obtain ⟨nd, hnd, -, hnum⟩ := h.node_of_mem (List.mem_cons_self e t)
      obtain ⟨nz, hnz, -, hznum⟩ := h.node_of_mem hz
      have hlo : st.g_lowest = some z.addr := by
        rw [h.2.2.1, hxz, lastAddr_append]; rfl
      have hhi : st.g_highest = some e.addr := h.2.1
      simp [pipeline_span, hhi, hlo, deref, hnd, hnz, hnum, hznum, bind, Except.bind, pure,
        Except.pure]

/-- Splicing a key that is not linked into a strictly descending list keeps it
strictly descending. -/
theorem strict_splice {l : List Entry} (hs : l.Pairwise (fun a b => a.num > b.num))
    (e : Entry) (hnot : ∀ x ∈ l, x.num ≠ e.num) :
    (above e.num l ++ e :: notAbove e.num l).Pairwise (fun a b => a.num > b.num) := by
  have hl := above_append_notAbove e.num l
  have hweak : (notAbove e.num l).Pairwise (fun a b => a.num ≥ b.num) := by
    have : l.Pairwise (fun a b => a.num ≥ b.num) := hs.imp (fun h => le_of_lt h)
    rw [← hl] at this
    exact (List.pairwise_append.1 this).2.1
  have hle := sorted_le_of_head hweak (fun y hy => head_notAbove_le hy)
  rw [← hl] at hs hnot
  rw [List.pairwise_append] at hs ⊢
  refine ⟨hs.1, List.pairwise_cons.2 ⟨?_, hs.2.1⟩, ?_⟩
  · intro y hy
    have h1 := hle y hy
    have h2 := hnot y (List.mem_append_right _ hy)
    omega
  · intro x hx y hy
    rcases List.mem_cons.1 hy with rfl | hy
    · exact lt_of_mem_above hx
    · exact hs.2.2 x hx y hy

/-- Inserting with duplicates rejected: the linked keys stay strictly descending
and are the old keys together with the inserted ones. -/
theorem run_inserts_reject (xs : List (Nat × Nat × Int)) (rej : Int) (hrej : rej ≠ 0) :
    ∀ {st : State} {l : List Entry} (_ : WellFormed st l)
    (_ : l.Pairwise (fun a b => a.num > b.num)) (fuel : Nat) (_ : l.length + xs.length ≤ fuel)
    (_ : ValidRun fuel st (insertCalls xs rej)),
    ∃ st1 rets l1, run fuel st (insertCalls xs rej) = .ok (st1, rets) ∧
      WellFormed st1 l1 ∧ l1.Pairwise (fun a b => a.num > b.num) ∧
      (∀ k, k ∈ l1.map Entry.num ↔ k ∈ l.map Entry.num ∨ k ∈ xs.map (fun x => x.2.2)) := by
  induction xs with
  | nil =>
    intro st l h hs fuel _ _
    exact ⟨st, [], l, rfl, h, hs, by simp⟩
  | cons x xs ih =>
    intro st l h hs fuel hf hv
    obtain ⟨hv1, hv2⟩ := hv
    obtain ⟨h1, h2⟩ := insert_spec h hv1 fuel (by simp at hf; omega) x.2.1 x.2.2 rej
    have hiff := rejects_iff h.2.2.2.2.2.2 x.2.2 rej
    by_cases hr : Rejects (notAbove x.2.2 l) x.2.2 rej
    · have he : exec fuel st (Call.insert (some x.1) x.2.1 x.2.2 rej) = .ok (st, .inserted 0) := by
        simp [exec, h1 hr, bind, Except.bind, pure, Except.pure]
      rw [he] at hv2
      obtain ⟨st2, rets, l2, h5, h6, h7, h8⟩ := ih h hs fuel (by simp at hf ⊢; omega) hv2
      refine ⟨st2, .inserted 0 :: rets, l2, ?_, h6, h7, ?_⟩
      · simp only [insertCalls, List.map_cons, run, he, bind, Except.bind, pure, Except.pure]
        simp only [insertCalls] at h5
        rw [h5]
      · intro k
        rw [h8 k]
        obtain ⟨e, he1, he2⟩ := (hiff.1 hr).2
        simp only [List.map_cons, List.mem_cons]
        constructor
        · rintro (h9 | h9)
          · exact Or.inl h9
          · exact Or.inr (Or.inr h9)
        · rintro (h9 | h9 | h9)
          · exact Or.inl h9
          · exact Or.inl (h9 ▸ he2 ▸ List.mem_map_of_mem _ he1)
          · exact Or.inr h9
    · obtain ⟨st1, h3, h4, -⟩ := h2 hr
      have hnot : ∀ y ∈ l, y.num ≠ x.2.2 := fun y hy hc => hr (hiff.2 ⟨hrej, y, hy, hc⟩)
      have hs1 := strict_splice hs ⟨x.1, x.2.1, x.2.2⟩ hnot
      have he : exec fuel st (Call.insert (some x.1) x.2.1 x.2.2 rej) = .ok (st1, .inserted 1) := by
        simp [exec, h3, bind, Except.bind, pure, Except.pure]
      rw [he] at hv2
      have hlen := congrArg List.length (above_append_notAbove x.2.2 l)
      obtain ⟨st2, rets, l2, h5, h6, h7, h8⟩ := ih h4 hs1 fuel (by
        simp at hlen hf ⊢; omega) hv2
      refine ⟨st2, .inserted 1 :: rets, l2, ?_, h6, h7, ?_⟩
      · simp only [insertCalls, List.map_cons, run, he, bind, Except.bind, pure, Except.pure]
        simp only [insertCalls] at h5
        rw [h5]
      · intro k
        rw [h8 k]
        have hmem : ∀ k, k ∈ (above x.2.2 l ++ (⟨x.1, x.2.1, x.2.2⟩ : Entry) ::
            notAbove x.2.2 l).map Entry.num ↔ k ∈ l.map Entry.num ∨ k = x.2.2 := by
          intro k
          conv_rhs => rw [← above_append_notAbove x.2.2 l]
          simp only [List.map_append, List.map_cons, List.mem_append, List.mem_cons]
          tauto
        rw [hmem k]
        simp only [List.map_cons, List.mem_cons]
        tauto

theorem inserts_ok_cons (r : Ret) (rs : List Ret) :
    inserts_ok (r :: rs) = inserts_ok rs + inserts_ok [r] := by
  simp [inserts_ok, List.countP_cons]

theorem pops_ok_cons (r : Ret) (rs : List Ret) :
    pops_ok (r :: rs) = pops_ok rs + pops_ok [r] := by
  simp [pops_ok, List.countP_cons]

/-- One returning call on a well-formed state: the state stays well-formed; the
number of linked entries goes up by one for an insert that returned 1, down by
one for a pop that returned a node, and is unchanged otherwise; the linked
entries are the old ones with the new entry spliced in, or a sublist of the old
ones. -/
theorem WellFormed.step_spec {st st1 : State} {l : List Entry} (h : WellFormed st l)
    {fuel : Nat} {c : Call} {r : Ret} (hv : c.Valid st) (he : exec fuel st c = .ok (st1, r)) :
    ∃ l1, WellFormed st1 l1 ∧ l1.length + pops_ok [r] = l.length + inserts_ok [r] ∧
      (l1.Sublist l ∨ ∃ a pkg num rej, c = .insert (some a) pkg num rej ∧
        l1 = above num l ++ ⟨a, pkg, num⟩ :: notAbove num l) := by
  cases c with
  | insert a pkg num rej =>
    cases a with
    | none => simp [OrderQueue.exec, pipeline_insert, new_oqnode, bind, Except.bind] at he
              cases hg : st.g_highest <;> simp [hg] at he
              cases hf : find_predecessor fuel st num <;> simp [hf] at he
    | some p =>
      simp only [OrderQueue.exec, bind, Except.bind] at he
      cases hi : pipeline_insert fuel st (some p) pkg num rej with
      | error e => simp [hi] at he
      | ok x =>
        obtain ⟨s, v⟩ := x
        simp only [hi, pure, Except.pure, Except.ok.injEq, Prod.mk.injEq] at he
        obtain ⟨rfl, rfl⟩ := he
        have hbig := pipeline_insert_mono hi (Nat.le_max_left fuel l.length)
        obtain ⟨h1, h2⟩ := insert_spec h hv (max fuel l.length) (Nat.le_max_right _ _) pkg num rej
        by_cases hr : Rejects (notAbove num l) num rej
        · rw [h1 hr] at hbig
          simp only [Except.ok.injEq, Prod.mk.injEq] at hbig
          obtain ⟨rfl, rfl⟩ := hbig
          exact ⟨l, h, by simp [pops_ok, inserts_ok], Or.inl (List.Sublist.refl _)⟩
        · obtain ⟨s1, h3, h4, -⟩ := h2 hr
          rw [h3] at hbig
          simp only [Except.ok.injEq, Prod.mk.injEq] at hbig
          obtain ⟨rfl, rfl⟩ := hbig
          refine ⟨_, h4, ?_, Or.inr ⟨p, pkg, num, rej, rfl, rfl⟩⟩
          have := congrArg List.length (above_append_notAbove num l)
          simp [pops_ok, inserts_ok] at this ⊢
          omega
  | pop which =>
    simp only [OrderQueue.exec, bind, Except.bind] at he
    cases hp : pipeline_pop st which with
    | error e => simp [hp] at he
    | ok x =>
      obtain ⟨s, v⟩ := x
      simp only [hp, pure, Except.pure, Except.ok.injEq, Prod.mk.injEq] at he
      obtain ⟨rfl, rfl⟩ := he
      by_cases h1 : which = OQ_HIGHEST
      · subst h1
        cases l with
        | nil =>
          rw [pop_empty h] at hp
          simp only [Except.ok.injEq, Prod.mk.injEq] at hp
          obtain ⟨rfl, rfl⟩ := hp
          exact ⟨[], h, by simp [pops_ok, inserts_ok], Or.inl (List.Sublist.refl _)⟩
        | cons e t =>
          obtain ⟨s1, h3, h4, -⟩ := pop_highest_cons h
          rw [h3] at hp
          simp only [Except.ok.injEq, Prod.mk.injEq] at hp
          obtain ⟨rfl, rfl⟩ := hp
          exact ⟨t, h4, by simp [pops_ok, inserts_ok], Or.inl (List.sublist_cons_self _ _)⟩
      · by_cases h0 : which = OQ_LOWEST
        · subst h0
          rcases List.eq_nil_or_concat l with rfl | ⟨xs, z, rfl⟩
          · rw [pop_empty h] at hp
            simp only [Except.ok.injEq, Prod.mk.injEq] at hp
            obtain ⟨rfl, rfl⟩ := hp
            exact ⟨[], h, by simp [pops_ok, inserts_ok], Or.inl (List.Sublist.refl _)⟩
          · simp only [List.concat_eq_append] at h ⊢
            obtain ⟨s1, h3, h4, -⟩ := pop_lowest_concat h
            rw [h3] at hp
            simp only [Except.ok.injEq, Prod.mk.injEq] at hp
            obtain ⟨rfl, rfl⟩ := hp
            exact ⟨xs, h4, by simp [pops_ok, inserts_ok], Or.inl (List.sublist_append_left _ _)⟩
        · rw [pop_invalid st which h0 h1] at hp
          simp only [Except.ok.injEq, Prod.mk.injEq] at hp
          obtain ⟨rfl, rfl⟩ := hp
          exact ⟨l, h, by simp [pops_ok, inserts_ok], Or.inl (List.Sublist.refl _)⟩
  | destroy p =>
    simp only [OrderQueue.exec, pure, Except.pure, Except.ok.injEq, Prod.mk.injEq] at he
    obtain ⟨rfl, rfl⟩ := he
    cases p with
    | none => exact ⟨l, h, by simp [pops_ok, inserts_ok], Or.inl (List.Sublist.refl _)⟩
    | some q => exact ⟨l, h.destroy hv.2, by simp [pops_ok, inserts_ok], Or.inl (List.Sublist.refl _)⟩

/-- Every reachable state is well-formed. -/
theorem Reachable.wellFormed {st : State} (h : Reachable st) : ∃ l, WellFormed st l := by
  induction h with
  | init => exact ⟨[], wellFormed_init⟩
  | step fuel c r _ hv he ih =>
    obtain ⟨l, hl⟩ := ih
    obtain ⟨l1, h1, -⟩ := hl.step_spec hv he
    exact ⟨l1, h1⟩

/-- A returning sequence of valid calls on a well-formed state. -/
theorem WellFormed.run_count {fuel : Nat} (cs : List Call) : ∀ {st st1 : State} {l : List Entry}
    {rs : List Ret} (_ : WellFormed st l) (_ : ValidRun fuel st cs)
    (_ : run fuel st cs = .ok (st1, rs)),
    ∃ l1, WellFormed st1 l1 ∧ l1.length + pops_ok rs = l.length + inserts_ok rs := by
  induction cs with
  | nil =>
    intro st st1 l rs h _ hr
    simp only [run, pure, Except.pure, Except.ok.injEq, Prod.mk.injEq] at hr
    obtain ⟨rfl, rfl⟩ := hr
    exact ⟨l, h, rfl⟩
  | cons c cs ih =>
    intro st st1 l rs h hv hr
    obtain ⟨hv1, hv2⟩ := hv
    simp only [run, bind, Except.bind] at hr
    cases he : exec fuel st c with
    | error e => simp [he] at hr
    | ok x =>
      obtain ⟨s, r⟩ := x
      simp only [he] at hr hv2
      cases hrest : run fuel s cs with
      | error e => simp [hrest] at hr
      | ok y =>
        obtain ⟨s2, rs2⟩ := y
        simp only [hrest, pure, Except.pure, Except.ok.injEq, Prod.mk.injEq] at hr
        obtain ⟨rfl, rfl⟩ := hr
        obtain ⟨l1, h1, h2, -⟩ := h.step_spec hv1 he
        obtain ⟨l2, h3, h4⟩ := ih h1 hv2 hrest
        refine ⟨l2, h3, ?_⟩
        rw [inserts_ok_cons, pops_ok_cons]
        omega

/-- The states of returning valid call sequences are reachable. -/
theorem Reachable.run {fuel : Nat} (cs : List Call) : ∀ {st st1 : State} {rs : List Ret}
    (_ : Reachable st) (_ : ValidRun fuel st cs) (_ : OrderQueue.run fuel st cs = .ok (st1, rs)),
    Reachable st1 := by
  induction cs with
  | nil =>
    intro st st1 rs h _ hr
    simp only [OrderQueue.run, pure, Except.pure, Except.ok.injEq, Prod.mk.injEq] at hr
    exact hr.1 ▸ h
  | cons c cs ih =>
    intro st st1 rs h hv hr
    obtain ⟨hv1, hv2⟩ := hv
    simp only [OrderQueue.run, bind, Except.bind] at hr
    cases he : exec fuel st c with
    | error e => simp [he] at hr
    | ok x =>
      obtain ⟨s, r⟩ := x
      simp only [he] at hr hv2
      cases hrest : OrderQueue.run fuel s cs with
      | error e => simp [hrest] at hr
      | ok y =>
        obtain ⟨s2, rs2⟩ := y
        simp only [hrest, pure, Except.pure, Except.ok.injEq, Prod.mk.injEq] at hr
        obtain ⟨rfl, -⟩ := hr
        exact ih (Reachable.step fuel c r h hv1 he) hv2 hrest

/-- The split of a list at the first key not above `k` is the only split with all
keys above `k` in front and a key not above `k` next. -/
theorem above_of_split {k : Int} {hi lo : List Entry} (hhi : ∀ x ∈ hi, k < x.num)
    (hlo : ∀ y, lo.head? = some y → y.num ≤ k) :
    above k (hi ++ lo) = hi ∧ notAbove k (hi ++ lo) = lo := by
  induction hi with
  | nil =>
    cases lo with
    | nil => exact ⟨rfl, rfl⟩
    | cons y t =>
      have hy : ¬ k < y.num := not_lt.2 (hlo y rfl)
      simp [above, notAbove, List.takeWhile_cons, List.dropWhile_cons, hy]
  | cons x xs ih =>
    have hx : k < x.num := hhi x (List.mem_cons_self _ _)
    obtain ⟨h1, h2⟩ := ih (fun y hy => hhi y (List.mem_cons_of_mem _ hy))
    simp only [above, notAbove] at h1 h2 ⊢
    simp [List.takeWhile_cons, List.dropWhile_cons, hx, h1, h2]

/-- Insert with duplicates allowed, the split of the linked entries being given. -/
theorem insert_allow_split {st : State} (hi lo : List Entry) (h : WellFormed st (hi ++ lo))
    {p : Nat} (hp : Fresh st.mem p) (fuel : Nat) (hf : (hi ++ lo).length ≤ fuel)
    (pkg : Nat) (k : Int) (hhi : ∀ x ∈ hi, k < x.num)
    (hlo : ∀ y, lo.head? = some y → y.num ≤ k) :
    ∃ st1, pipeline_insert fuel st (some p) pkg k 0 = .ok (st1, 1) ∧
      WellFormed st1 (hi ++ ⟨p, pkg, k⟩ :: lo) ∧
      (∀ q, q ≠ p → some q ≠ lastAddr none hi → some q ≠ headAddr lo none →
        st1.mem.get q = st.mem.get q) := by
  obtain ⟨-, h2⟩ := insert_spec h hp fuel hf pkg k 0
  obtain ⟨st1, h3, h4, h5⟩ := h2 (by simp [Rejects])
  obtain ⟨ha, hn⟩ := above_of_split hhi hlo
  rw [ha, hn] at h4 h5
  exact ⟨st1, h3, h4, h5⟩

theorem exec_insert_ok {fuel : Nat} {st st1 : State} {a : Option Nat} {pkg : Nat} {num rej r : Int}
    (h : pipeline_insert fuel st a pkg num rej = .ok (st1, r)) :
    exec fuel st (.insert a pkg num rej) = .ok (st1, .inserted r) := by
  simp [exec, h, bind, Except.bind, pure, Except.pure]

theorem exec_pop_ok {fuel : Nat} {st st1 : State} {which : Int} {p : Option Nat}
    (h : pipeline_pop st which = .ok (st1, p)) :
    exec fuel st (.pop which) = .ok (st1, .popped p) := by
  simp [exec, h, bind, Except.bind, pure, Except.pure]

theorem run_cons_ok {fuel : Nat} {st st1 st2 : State} {c : Call} {cs : List Call} {r : Ret}
    {rs : List Ret} (h1 : exec fuel st c = .ok (st1, r)) (h2 : run fuel st1 cs = .ok (st2, rs)) :
    run fuel st (c :: cs) = .ok (st2, r :: rs) := by
  simp [run, h1, h2, bind, Except.bind, pure, Except.pure]

theorem headAddr_ne_of_not_mem {l : List Entry} {q : Nat} (h : ∀ e ∈ l, e.addr ≠ q) :
    some q ≠ headAddr l none := by
  cases l with
  | nil => simp
  | cons e t =>
    simp only [headAddr_cons, ne_eq, Option.some.injEq]
    exact fun hc => h e (List.mem_cons_self _ _) hc.symm

theorem lastAddr_ne_of_not_mem {l : List Entry} {q : Nat} (h : ∀ e ∈ l, e.addr ≠ q) :
    some q ≠ lastAddr none l := by
  rcases List.eq_nil_or_concat l with rfl | ⟨xs, z, rfl⟩
  · simp
  · simp only [List.concat_eq_append, lastAddr_append, lastAddr_cons, lastAddr_nil, ne_eq,
      Option.some.injEq]
    exact fun hc => h z (by simp) hc.symm

theorem payloads_cons_subset (c : Call) (cs : List Call) :
    ∀ q ∈ payloads cs, q ∈ payloads (c :: cs) := by
  intro q hq
  unfold payloads at hq ⊢
  rw [List.filterMap_cons]
  split
  · exact hq
  · exact List.mem_cons_of_mem _ hq

theorem payloads_cons_pairwise {c : Call} {cs : List Call}
    (h : (payloads (c :: cs)).Pairwise (fun a b => a < b)) :
    (payloads cs).Pairwise (fun a b => a < b) := by
  unfold payloads at h ⊢
  rw [List.filterMap_cons] at h
  split at h
  · exact h
  · exact (List.pairwise_cons.1 h).2

/-- Along a run whose insert calls carry increasing payload handles, linked
entries with equal keys carry decreasing handles from top to bottom. -/
theorem WellFormed.run_recency {fuel : Nat} (cs : List Call) :
    ∀ {st st1 : State} {l : List Entry} {rs : List Ret} (_ : WellFormed st l)
    (_ : ValidRun fuel st cs) (_ : run fuel st cs = .ok (st1, rs))
    (_ : (payloads cs).Pairwise (fun a b => a < b))
    (_ : l.Pairwise (fun a b => a.num = b.num → b.pkg < a.pkg))
    (_ : ∀ e ∈ l, ∀ q ∈ payloads cs, e.pkg < q),
    ∃ l1, WellFormed st1 l1 ∧ l1.Pairwise (fun a b => a.num = b.num → b.pkg < a.pkg) := by
  induction cs with
  | nil =>
    intro st st1 l rs h _ hr _ hp _
    simp only [run, pure, Except.pure, Except.ok.injEq, Prod.mk.injEq] at hr
    obtain ⟨rfl, rfl⟩ := hr
    exact ⟨l, h, hp⟩
  | cons c cs ih =>
    intro st st1 l rs h hv hr hser hp hb
    obtain ⟨hv1, hv2⟩ := hv
    simp only [run, bind, Except.bind] at hr
    cases he : exec fuel st c with
    | error e => simp [he] at hr
    | ok x =>
      obtain ⟨s, r⟩ := x
      simp only [he] at hr hv2
      cases hrest : run fuel s cs with
      | error e => simp [hrest] at hr
      | ok y =>
        obtain ⟨s2, rs2⟩ := y
        simp only [hrest, pure, Except.pure, Except.ok.injEq, Prod.mk.injEq] at hr
        obtain ⟨rfl, rfl⟩ := hr
        obtain ⟨l1, h1, -, hshape⟩ := h.step_spec hv1 he
        have hser2 := payloads_cons_pairwise hser
        rcases hshape with hsub | ⟨a, pkg, num, rej, rfl, rfl⟩
        · exact ih h1 hv2 hrest hser2 (hp.sublist hsub)
            (fun e he q hq => hb e (hsub.subset he) q (payloads_cons_subset c cs q hq))
        · have hl := above_append_notAbove num l
          have hpay : payloads (Call.insert (some a) pkg num rej :: cs) = pkg :: payloads cs := rfl
          rw [hpay] at hser hb
          refine ih h1 hv2 hrest hser2 ?_ ?_
          · rw [← hl] at hp hb
            rw [List.pairwise_append] at hp ⊢
            refine ⟨hp.1, List.pairwise_cons.2 ⟨?_, hp.2.1⟩, ?_⟩
            · intro y hy _
              exact hb y (List.mem_append_right _ hy) pkg (List.mem_cons_self _ _)
            · intro x hx y hy
              rcases List.mem_cons.1 hy with rfl | hy
              · intro hc
                have := lt_of_mem_above hx
                simp only at hc
                omega
              · exact hp.2.2 x hx y hy
          · intro e he q hq
            rcases List.mem_append.1 he with h2 | h2
            · exact hb e (by rw [← hl]; exact List.mem_append_left _ h2) q
                (List.mem_cons_of_mem _ hq)
            · rcases List.mem_cons.1 h2 with rfl | h2
              · exact (List.pairwise_cons.1 hser).1 q hq
              · exact hb e (by rw [← hl]; exact List.mem_append_right _ h2) q
                  (List.mem_cons_of_mem _ hq)

theorem WellFormed.linked_pairwise {st : State} {l : List Entry} (h : WellFormed st l)
    (hp : l.Pairwise (fun a b => a.num = b.num → b.pkg < a.pkg)) :
    (linked st).Pairwise (fun a b => a.num = b.num → b.pkg < a.pkg) := by
  have h1 : (l.map (fun e => (e.num, e.pkg))).Pairwise
      (fun a b : Int × Nat => a.1 = b.1 → b.2 < a.2) := by
    rw [List.pairwise_map]; exact hp
  rw [← h.linked_eq, List.pairwise_map] at h1
  exact h1

/-- Where `pipeline_insert` puts a key that is already linked, duplicates allowed. -/
theorem WellFormed.insert_tie {st : State} {l : List Entry} (h : WellFormed st l) {p : Nat}
    (hp : Fresh st.mem p) (fuel : Nat) (hf : st.g_count ≤ fuel) (pkg : Nat) (k : Int)
    (hk : k ∈ linkedKeys st) :
    ∃ st1 hi t lo nt, pipeline_insert fuel st (some p) pkg k 0 = .ok (st1, 1) ∧
      spine st = hi ++ t :: lo ∧ st.mem.get t = some nt ∧ nt.num = k ∧
      (∀ q ∈ hi, ∀ nq, st.mem.get q = some nq → k < nq.num) ∧
      spine st1 = hi ++ p :: t :: lo ∧
      st1.mem.get p = some ⟨pkg, k, some t, (hi.getLast?)⟩ := by
  rw [h.linkedKeys_eq] at hk
  obtain ⟨e, he, hek⟩ := List.mem_map.1 hk
  obtain ⟨-, y, hy, hyk⟩ := (rejects_iff h.2.2.2.2.2.2 k 1).2 ⟨by decide, e, he, hek⟩
  obtain ⟨-, h2⟩ := insert_spec h hp fuel (by rw [← h.2.2.2.1]; exact hf) pkg k 0
  obtain ⟨st1, h3, h4, -⟩ := h2 (by simp [Rejects])
  have hl := above_append_notAbove k l
  obtain ⟨rest, hrest⟩ : ∃ rest, notAbove k l = y :: rest := by
    cases hn : notAbove k l with
    | nil => rw [hn] at hy; simp at hy
    | cons z t => rw [hn] at hy; simp at hy; subst hy; exact ⟨t, rfl⟩
  rw [hrest] at h4 hl
  have hab : ∀ x ∈ above k l, k < x.num := fun x hx => lt_of_mem_above hx
  generalize above k l = hi at h4 hl hab
  subst hl
  obtain ⟨ny, hny, -, hnum⟩ := h.node_of_mem (e := y) (by simp)
  refine ⟨st1, hi.map Entry.addr, y.addr, rest.map Entry.addr, ny, h3, ?_, hny,
    by rw [hnum, hyk], ?_, ?_, ?_⟩
  · rw [h.spine_eq]; simp
  · intro q hq nq hnq
    obtain ⟨x, hx, rfl⟩ := List.mem_map.1 hq
    obtain ⟨nx, hnx, -, hxnum⟩ := h.node_of_mem (e := x) (by simp [hx])
    rw [hnx] at hnq
    cases hnq
    rw [hxnum]
    exact hab x hx
  · rw [h4.spine_eq]; simp
  · have hseg := h4.1
    rw [Seg.append, Seg.cons_iff] at hseg
    rw [hseg.2.1]
    simp only [headAddr_cons, Option.some.injEq, oqnode_t.mk.injEq, true_and]
    rcases List.eq_nil_or_concat hi with rfl | ⟨xs, z, rfl⟩
    · rfl
    · simp [lastAddr_append]

theorem reachable_outcome (fuel : Nat) (cs : List Call) (hv : ValidRun fuel State.init cs) :
    Reachable (outcome fuel cs).1 := by
  unfold outcome
  cases hr : run fuel State.init cs with
  | error e => exact Reachable.init
  | ok x =>
    obtain ⟨st, rs⟩ := x
    exact Reachable.run _ Reachable.init hv hr

theorem reachable_stateAfter (xs : List (Nat × Nat × Int)) (rej : Int)
    (hv : ValidRun xs.length State.init (insertCalls xs rej)) : Reachable (stateAfter xs rej) :=
  reachable_outcome _ _ hv

/-- The test sequence with duplicates allowed drains from the bottom as
41, 41, 41, 41, 42, 42, 42, 43, 43 and from the top in the opposite order. -/
theorem drain_test_sequence :
    (drain OQ_LOWEST 10 (stateAfter test_sequence 0)).map (fun r => r.1.map Prod.fst) =
      .ok [41, 41, 41, 41, 42, 42, 42, 43, 43] ∧
    (drain OQ_HIGHEST 10 (stateAfter test_sequence 0)).map (fun r => r.1.map Prod.fst) =
      .ok [43, 43, 42, 42, 42, 41, 41, 41, 41] := by
  decide

/-- After the test sequence with duplicates allowed the count is 9 and the span
is 2; after inserting the single key 7 the count is 1 and the span is 0. -/
theorem span_test_sequence :
    pipeline_span (stateAfter test_sequence 0) = .ok 2 ∧
    pipeline_count (stateAfter test_sequence 0) = 9 ∧
    pipeline_span (stateAfter [(32, 1, 7)] 0) = .ok 0 ∧
    pipeline_count (stateAfter [(32, 1, 7)] 0) = 1 := by
  decide

/-- After the test sequence with duplicates rejected the count is 3 and the queue
drains as 41, 42, 43 from the bottom and 43, 42, 41 from the top. -/
theorem drain_test_sequence_reject :
    pipeline_count (stateAfter test_sequence 1) = 3 ∧
    (drain OQ_LOWEST 10 (stateAfter test_sequence 1)).map (fun r => r.1.map Prod.fst) =
      .ok [41, 42, 43] ∧
    (drain OQ_HIGHEST 10 (stateAfter test_sequence 1)).map (fun r => r.1.map Prod.fst) =
      .ok [43, 42, 41] := by
  decide

/-- After the test sequence with duplicates allowed, the spine carries, top to
bottom, the keys 43, 43, 42, 42, 42, 41, 41, 41, 41 with the payload handles 7,
6, 8, 4, 3, 9, 5, 2, 1: among equal keys the later insert is higher. -/
theorem linked_test_sequence :
    (linked (stateAfter test_sequence 0)).map (fun nd => (nd.num, nd.pkg)) =
      [(43, 7), (43, 6), (42, 8), (42, 4), (42, 3), (41, 9), (41, 5), (41, 2), (41, 1)] := by
  decide

/-- The mixed call sequence returns; it counts two inserts that returned 1 and two
pops that returned a node, and ends with count 0. -/
theorem mixed_calls_outcome :
    run 9 State.init mixed_calls = .ok (outcome 9 mixed_calls) ∧
    (outcome 9 mixed_calls).2 = [.inserted 1, .inserted 0, .inserted 1, .popped none,
      .popped (some 64), .destroyed, .popped (some 32), .destroyed, .popped none] ∧
    inserts_ok (outcome 9 mixed_calls).2 = 2 ∧ pops_ok (outcome 9 mixed_calls).2 = 2 ∧
    pipeline_count (outcome 9 mixed_calls).1 = 0 := by
  decide

/-- On a well-formed state every valid call returns, given fuel for the walk and
unless calloc answers null. -/
theorem WellFormed.exec_returns {st : State} {l : List Entry} (h : WellFormed st l)
    {fuel : Nat} (hf : l.length ≤ fuel) {c : Call} (hv : c.Valid st) (ha : c.answered) :
    ∃ st1 r, exec fuel st c = .ok (st1, r) := by
  cases c with
  | insert a pkg num rej =>
    cases a with
    | none => exact absurd ha (by simp [Call.answered])
    | some p =>
      obtain ⟨h1, h2⟩ := insert_spec h hv fuel hf pkg num rej
      by_cases hr : Rejects (notAbove num l) num rej
      · exact ⟨_, _, exec_insert_ok (h1 hr)⟩
      · obtain ⟨st1, h3, -⟩ := h2 hr
        exact ⟨_, _, exec_insert_ok h3⟩
  | pop which =>
    by_cases h1 : which = OQ_HIGHEST
    · subst h1
      cases l with
      | nil => exact ⟨_, _, exec_pop_ok (pop_empty h _)⟩
      | cons e t =>
        obtain ⟨s1, h3, -⟩ := pop_highest_cons h
        exact ⟨_, _, exec_pop_ok h3⟩
    · by_cases h0 : which = OQ_LOWEST
      · subst h0
        rcases List.eq_nil_or_concat l with rfl | ⟨xs, z, rfl⟩
        · exact ⟨_, _, exec_pop_ok (pop_empty h _)⟩
        · simp only [List.concat_eq_append] at h
          obtain ⟨s1, h3, -⟩ := pop_lowest_concat h
          exact ⟨_, _, exec_pop_ok h3⟩
      · exact ⟨_, _, exec_pop_ok (pop_invalid st which h0 h1)⟩
  | destroy p => exact ⟨_, _, rfl⟩

/-- A valid call sequence on a well-formed state returns, given fuel for the
longest walk and unless calloc answers null. -/
theorem WellFormed.run_returns {fuel : Nat} (cs : List Call) : ∀ {st : State} {l : List Entry}
    (_ : WellFormed st l) (_ : l.length + cs.length ≤ fuel) (_ : ValidRun fuel st cs)
    (_ : ∀ c ∈ cs, c.answered), ∃ st1 rs, run fuel st cs = .ok (st1, rs) := by
  induction cs with
  | nil => intro st l _ _ _ _; exact ⟨st, [], rfl⟩
  | cons c cs ih =>
    intro st l h hf hv ha
    obtain ⟨hv1, hv2⟩ := hv
    simp only [List.length_cons] at hf
    have hfl : l.length ≤ fuel := by omega
    obtain ⟨s, r, he⟩ := h.exec_returns hfl hv1 (ha c (List.mem_cons_self _ _))
    rw [he] at hv2
    obtain ⟨l1, h1, hlen, -⟩ := h.step_spec hv1 he
    have hle : inserts_ok [r] ≤ 1 := by
      unfold inserts_ok
      exact List.countP_le_length _
    have hlen1 : l1.length + cs.length ≤ fuel := by omega
    obtain ⟨s2, rs, h2⟩ := ih h1 hlen1 hv2 (fun c hc => ha c (List.mem_cons_of_mem _ hc))
    exact ⟨s2, r :: rs, run_cons_ok he h2⟩

/-- After the test sequence with duplicates allowed, a further insert of key 42
into block 320 lands directly above the topmost 42 (block 256), below the two
43s: the spine becomes 224, 192, 320, 256, 128, 96, 288, 160, 64, 32. -/
theorem insert_tie_test_sequence :
    spine (stateAfter test_sequence 0) = [224, 192, 256, 128, 96, 288, 160, 64, 32] ∧
    (pipeline_insert 9 (stateAfter test_sequence 0) (some 320) 10 42 0).map
        (fun r => (spine r.1, r.1.mem.get 320, r.2)) =
      .ok ([224, 192, 320, 256, 128, 96, 288, 160, 64, 32],
        some ⟨10, 42, some 256, some 192⟩, 1) := by
  decide

theorem exec_mono {fuel fuel1 : Nat} {st : State} {c : Call} {x : State × Ret}
    (h : exec fuel st c = .ok x) (hf : fuel ≤ fuel1) : exec fuel1 st c = .ok x := by
  cases c with
  | insert a pkg num rej =>
    simp only [exec, bind, Except.bind] at h ⊢
    cases hi : pipeline_insert fuel st a pkg num rej with
    | error e => simp [hi] at h
    | ok y =>
      rw [pipeline_insert_mono hi hf]
      simpa [hi] using h
  | pop which => exact h
  | destroy p => exact h

/-- More fuel does not change what a sequence of calls returns. -/
theorem run_mono {fuel fuel1 : Nat} (hf : fuel ≤ fuel1) (cs : List Call) :
    ∀ {st : State} {x : State × List Ret}, run fuel st cs = .ok x → run fuel1 st cs = .ok x := by
  induction cs with
  | nil => intro st x h; exact h
  | cons c cs ih =>
    intro st x h
    simp only [run, bind, Except.bind] at h ⊢
    cases he : exec fuel st c with
    | error e => simp [he] at h
    | ok y =>
      rw [exec_mono he hf]
      simp only [he] at h ⊢
      cases hr : run fuel y.1 cs with
      | error e => simp [hr] at h
      | ok z =>
        rw [ih hr]
        simpa [hr] using h

/-- The node of an entry, read off the split of the segment at that entry. -/
theorem Seg.node_at_split {m : Mem} {prev next : Option Nat} {xs ys : List Entry} {e : Entry}
    (hs : Seg m prev (xs ++ e :: ys) next) :
    m.get e.addr = some ⟨e.pkg, e.num, headAddr ys next, lastAddr prev xs⟩ := by
  rw [Seg.append, Seg.cons_iff] at hs
  exact hs.2.1

theorem exec_insert_inv {fuel : Nat} {st st1 : State} {a : Option Nat} {pkg : Nat}
    {num rej : Int} {r : Ret} (h : exec fuel st (.insert a pkg num rej) = .ok (st1, r)) :
    ∃ v, r = .inserted v ∧ pipeline_insert fuel st a pkg num rej = .ok (st1, v) := by
  simp only [exec, bind, Except.bind] at h
  cases hi : pipeline_insert fuel st a pkg num rej with
  | error e => simp [hi] at h
  | ok x =>
    obtain ⟨s, v⟩ := x
    simp only [hi, pure, Except.pure, Except.ok.injEq, Prod.mk.injEq] at h
    obtain ⟨rfl, rfl⟩ := h
    exact ⟨v, rfl, rfl⟩

/-- An insert that returned 1 on a well-formed state was not a rejected one. -/
theorem WellFormed.not_rejects_of_one {st st1 : State} {l : List Entry} (h : WellFormed st l)
    {fuel p pkg : Nat} {num rej : Int} (hp : Fresh st.mem p)
    (hi : pipeline_insert fuel st (some p) pkg num rej = .ok (st1, 1)) :
    ¬ Rejects (notAbove num l) num rej := by
  intro hr
  have hbig := pipeline_insert_mono hi (Nat.le_max_left fuel l.length)
  rw [(insert_spec h hp (max fuel l.length) (Nat.le_max_right _ _) pkg num rej).1 hr] at hbig
  simp at hbig

/-- Along a run all of whose inserts reject duplicates, strictly descending keys stay
strictly descending. -/
theorem WellFormed.run_strict {fuel : Nat} (cs : List Call) :
    ∀ {st st1 : State} {l : List Entry} {rs : List Ret} (_ : WellFormed st l)
    (_ : ValidRun fuel st cs) (_ : run fuel st cs = .ok (st1, rs))
    (_ : ∀ c ∈ cs, c.rejecting) (_ : l.Pairwise (fun a b => a.num > b.num)),
    ∃ l1, WellFormed st1 l1 ∧ l1.Pairwise (fun a b => a.num > b.num) := by
  induction cs with
  | nil =>
    intro st st1 l rs h _ hr _ hp
    simp only [run, pure, Except.pure, Except.ok.injEq, Prod.mk.injEq] at hr
    obtain ⟨rfl, rfl⟩ := hr
    exact ⟨l, h, hp⟩
  | cons c cs ih =>
    intro st st1 l rs h hv hr hrej hp
    obtain ⟨hv1, hv2⟩ := hv
    simp only [run, bind, Except.bind] at hr
    cases he : exec fuel st c with
    | error e => simp [he] at hr
    | ok x =>
      obtain ⟨s, r⟩ := x
      simp only [he] at hr hv2
      cases hrest : run fuel s cs with
      | error e => simp [hrest] at hr
      | ok y =>
        obtain ⟨s2, rs2⟩ := y
        simp only [hrest, pure, Except.pure, Except.ok.injEq, Prod.mk.injEq] at hr
        obtain ⟨rfl, rfl⟩ := hr
        obtain ⟨l1, h1, hcount, hshape⟩ := h.step_spec hv1 he
        have hrej2 : ∀ c ∈ cs, c.rejecting := fun c hc => hrej c (List.mem_cons_of_mem _ hc)
        rcases hshape with hsub | ⟨a, pkg, num, rej, rfl, rfl⟩
        · exact ih h1 hv2 hrest hrej2 (hp.sublist hsub)
        · refine ih h1 hv2 hrest hrej2 ?_
          obtain ⟨v, rfl, hi⟩ := exec_insert_inv he
          have hlen := congrArg List.length (above_append_notAbove num l)
          have hone : v = 1 := by
            by_contra hne
            simp [inserts_ok, pops_ok, hne] at hcount hlen
            omega
          subst hone
          have hnr := h.not_rejects_of_one hv1 hi
          have hr0 : rej ≠ 0 := hrej _ (List.mem_cons_self _ _)
          have hnot : ∀ x ∈ l, x.num ≠ num := fun x hx hc =>
            hnr ((rejects_iff h.2.2.2.2.2.2 num rej).2 ⟨hr0, x, hx, hc⟩)
          exact strict_splice hp ⟨a, pkg, num⟩ hnot

/-- In a well-formed state the node below a linked node is the next entry. -/
theorem WellFormed.lower_next {st : State} {l : List Entry} (h : WellFormed st l)
    {a : Nat} (ha : a ∈ spine st) {na : oqnode_t} (hna : st.mem.get a = some na) {b : Nat}
    (hb : na.lower = some b) :
    ∃ xs ea eb ys, l = xs ++ ea :: eb :: ys ∧ ea.addr = a ∧ eb.addr = b ∧ na.num = ea.num ∧
      st.mem.get b = some ⟨eb.pkg, eb.num, headAddr ys none, some a⟩ := by
  rw [h.spine_eq] at ha
  obtain ⟨ea, hea, rfl⟩ := List.mem_map.1 ha
  obtain ⟨xs, ys, rfl⟩ := List.append_of_mem hea
  have hn := h.1.node_at_split
  rw [hn] at hna
  cases hna
  cases ys with
  | nil => simp at hb
  | cons eb ys =>
    simp only [headAddr_cons, Option.some.injEq] at hb
    refine ⟨xs, ea, eb, ys, rfl, rfl, hb, rfl, ?_⟩
    have h2 : Seg st.mem none ((xs ++ [ea]) ++ eb :: ys) none := by simpa using h.1
    have := h2.node_at_split
    rw [← hb, this]
    simp [lastAddr_append]

theorem lastAddr_eq_getLast (l : List Entry) :
    lastAddr none l = (l.map Entry.addr).getLast? := by
  rcases List.eq_nil_or_concat l with rfl | ⟨xs, z, rfl⟩
  · rfl
  · simp [lastAddr_append]

theorem WellFormed.nodup_spine {st : State} {l : List Entry} (h : WellFormed st l) :
    (spine st).Nodup := by
  rw [h.spine_eq, List.Nodup, List.pairwise_map]
  exact h.2.2.2.2.1.imp (fun hab => hab.ne)

/-- With duplicates allowed the test sequence leaves equal keys next to each other;
with duplicates rejected the linked keys are 43, 42, 41. -/
theorem linkedKeys_test_sequence :
    linkedKeys (stateAfter test_sequence 0) = [43, 43, 42, 42, 42, 41, 41, 41, 41] ∧
    linkedKeys (stateAfter test_sequence 1) = [43, 42, 41] ∧
    (∀ c ∈ insertCalls test_sequence 1, c.rejecting) := by
  decide

theorem find_predecessor_top {st : State} {y : Entry} {t : List Entry}
    (h : WellFormed st (y :: t)) (fuel : Nat) {k : Int} (hy : y.num ≤ k) :
    find_predecessor fuel st k = .ok none := by
  have hhi : st.g_highest = some y.addr := h.2.1
  have hg := h.1.1
  simp [find_predecessor, hhi, deref, hg, hy, bind, Except.bind, pure, Except.pure]

theorem headAddr_append_cons (hi : List Entry) (lo : List Entry) (n : Option Nat) :
    hi ≠ [] → headAddr (hi ++ lo) n = headAddr hi none := by
  intro h
  cases hi with
  | nil => exact absurd rfl h
  | cons x t => rfl

theorem lastAddr_append_of_ne (hi : List Entry) (lo : List Entry) :
    lo ≠ [] → lastAddr none (hi ++ lo) = lastAddr none lo := by
  intro h
  rw [lastAddr_eq_getLast, lastAddr_eq_getLast, List.map_append, List.getLast?_append]
  cases hl : (lo.map Entry.addr).getLast? with
  | none =>
    rw [List.getLast?_eq_none_iff, List.map_eq_nil_iff] at hl
    exact absurd hl h
  | some z => simp

/-- The spines of the queue after inserting 10, 20, 30 (after each insert) and
after inserting 10, 30, 20. -/
theorem spines_ten_twenty_thirty :
    linkedKeys (stateAfter [(32, 1, 10)] 0) = [10] ∧
    linkedKeys (stateAfter [(32, 1, 10), (64, 2, 20)] 0) = [20, 10] ∧
    linkedKeys (stateAfter [(32, 1, 10), (64, 2, 20), (96, 3, 30)] 0) = [30, 20, 10] ∧
    linkedKeys (stateAfter [(32, 1, 10), (64, 2, 30), (96, 3, 20)] 0) = [30, 20, 10] := by
  decide

theorem wrap_long_of_high {x : Int} (h0 : 2 ^ 63 ≤ x) (h1 : x < 2 ^ 64) :
    wrap_long x = x - 2 ^ 64 := by
  unfold wrap_long
  omega

theorem bind_ok_iff {α β : Type} (x : Except Fault α) (f : α → Except Fault β) (b : β) :
    (x >>= f) = .ok b ↔ ∃ a, x = .ok a ∧ f a = .ok b := by
  cases x with
  | error e => simp [bind, Except.bind]
  | ok a => simp [bind, Except.bind]

theorem store_ok_iff {m m1 : Mem} {q : Nat} {f : oqnode_t → oqnode_t} :
    store m q f = .ok m1 ↔ ∃ nd, m.get q = some nd ∧ m1 = m.set q (f nd) := by
  unfold store
  cases hg : m.get q with
  | none => simp
  | some nd => simp [eq_comm]

theorem deref_ok_iff {m : Mem} {q : Nat} {nd : oqnode_t} :
    deref m q = .ok nd ↔ m.get q = some nd := by
  unfold deref
  cases hg : m.get q with
  | none => simp
  | some nd => simp

/-- Every allocated node has a key that fits a `long`. -/
theorem LongKeys.get {m : Mem} (h : LongKeys m) {q : Nat} {nd : oqnode_t}
    (hg : m.get q = some nd) : -2 ^ 63 ≤ nd.num ∧ nd.num < 2 ^ 63 :=
  h _ (Mem.mem_cells_of_get hg)

theorem LongKeys.set {m : Mem} (h : LongKeys m) (q : Nat) {nd : oqnode_t}
    (hn : -2 ^ 63 ≤ nd.num ∧ nd.num < 2 ^ 63) : LongKeys (m.set q nd) := by
  intro c hc
  simp only [Mem.set, List.mem_map] at hc
  obtain ⟨c0, hc0, rfl⟩ := hc
  by_cases hq : c0.1 = q
  · simpa [hq] using hn
  · simpa [hq] using h c0 hc0

theorem LongKeys.store {m m1 : Mem} (h : LongKeys m) {q : Nat} {f : oqnode_t → oqnode_t}
    (hs : store m q f = .ok m1) (hf : ∀ nd, (f nd).num = nd.num) : LongKeys m1 := by
  obtain ⟨nd, hg, rfl⟩ := store_ok_iff.1 hs
  exact h.set q (by rw [hf]; exact h.get hg)

theorem LongKeys.alloc {m : Mem} (h : LongKeys m) (p : Nat) :
    LongKeys (m.alloc p { pkg := 0, num := 0, lower := none, higher := none }) := by
  intro c hc
  simp only [Mem.alloc, List.mem_cons] at hc
  rcases hc with rfl | hc
  · simp
  · exact h c hc

theorem ld_len_le {x : Int} (h0 : -2 ^ 63 ≤ x) (h1 : x < 2 ^ 63) : ld_len x ≤ 20 := by
  have hd : (Nat.digits 10 x.natAbs).length ≤ 19 := by
    by_cases hx : x.natAbs = 0
    · simp [hx]
    · have h2 := Nat.base_pow_length_digits_le 10 x.natAbs (by norm_num) hx
      by_contra hlen
      have h3 : 10 ^ 20 ≤ 10 ^ (Nat.digits 10 x.natAbs).length :=
        Nat.pow_le_pow_right (by norm_num) (by omega)
      have h4 : x.natAbs ≤ 2 ^ 63 := by omega
      have h5 : (10 : Nat) ^ 20 ≤ 10 * 2 ^ 63 := by omega
      norm_num at h5
  unfold ld_len
  split <;> omega

theorem Trace.Within.snprintf {t : Trace} {k len d : Nat} (h : t.Within k) (hl : len ≤ d) :
    (t.snprintf len).Within (k + d) := by
  constructor
  · intro o ho
    simp only [Trace.snprintf, List.mem_append, List.mem_singleton] at ho
    rcases ho with ho | rfl
    · have := h.1 o ho; omega
    · have := h.2; omega
  · have := h.2
    simp only [Trace.snprintf]; omega

theorem Trace.Within.mono {t : Trace} {k k1 : Nat} (h : t.Within k) (hk : k ≤ k1) :
    t.Within k1 :=
  ⟨fun o ho => le_trans (h.1 o ho) hk, le_trans h.2 hk⟩

theorem insert_finish_traced_erase (st : State) (cursor : Nat) (pre post : Option Nat)
    (pkg : Nat) (num : Int) (t : Trace) :
    (insert_finish_traced st cursor pre post pkg num t).map (fun r => (r.1, r.2.1)) =
      insert_finish st cursor post pkg num := by
  unfold insert_finish_traced insert_finish
  cases post with
  | none =>
    simp only [bind, Except.bind, pure, Except.pure]
    cases store st.mem cursor (fun n => { n with num := num }) with
    | error e => rfl
    | ok m3 =>
      simp only []
      cases store m3 cursor (fun n => { n with pkg := pkg }) with
      | error e => rfl
      | ok m4 => rfl
  | some po =>
    simp only [bind, Except.bind, pure, Except.pure]
    cases h1 : store st.mem cursor (fun n => { n with lower := some po }) with
    | error e => rfl
    | ok m1 =>
      simp only []
      cases h2 : store m1 po (fun n => { n with higher := some cursor }) with
      | error e => rfl
      | ok m2 =>
        obtain ⟨nd, hg, rfl⟩ := store_ok_iff.1 h2
        have hd : deref (m1.set po { nd with higher := some cursor }) po =
            .ok { nd with higher := some cursor } := by
          rw [deref_ok_iff, Mem.get_set]; simp [hg]
        simp only [hd]
        cases store (m1.set po { nd with higher := some cursor }) cursor
            (fun n => { n with num := num }) with
        | error e => rfl
        | ok m3 =>
          simp only []
          cases store m3 cursor (fun n => { n with pkg := pkg }) with
          | error e => rfl
          | ok m4 => rfl

/-- Forgetting the trace, `pipeline_insert_traced` is `pipeline_insert`. -/
theorem pipeline_insert_traced_erase (fuel : Nat) (st : State) (a : Option Nat) (pkg : Nat)
    (num rej : Int) :
    (pipeline_insert_traced fuel st a pkg num rej).map (fun r => (r.1, r.2.1)) =
      pipeline_insert fuel st a pkg num rej := by
  unfold pipeline_insert_traced pipeline_insert
  cases hg : st.g_highest with
  | none =>
    simp only [bind, Except.bind]
    cases new_oqnode st.mem a with
    | error e => rfl
    | ok x => exact insert_finish_traced_erase _ _ _ _ _ _ _
  | some hi =>
    simp only [bind, Except.bind]
    cases find_predecessor fuel st num with
    | error e => rfl
    | ok pre =>
      simp only []
      cases new_oqnode st.mem a with
      | error e => rfl
      | ok x =>
        obtain ⟨m1, cursor⟩ := x
        simp only []
        cases pre with
        | none =>
          simp only []
          split
          · rename_i e he
            simp only [he, Except.map]
          · rename_i dup he
            cases dup with
            | true => rfl
            | false =>
              simp only [Bool.false_eq_true, if_false]
              exact insert_finish_traced_erase _ _ _ _ _ _ _
        | some pr =>
          simp only []
          split
          · rename_i e he
            simp only [he, Except.map]
          · rename_i dup he
            cases dup with
            | true => rfl
            | false =>
              simp only [Bool.false_eq_true, if_false]
              cases deref m1 pr with
              | error e => rfl
              | ok p =>
                simp only []
                cases store m1 pr (fun n => { n with lower := some cursor }) with
                | error e => rfl
                | ok m2 =>
                  simp only []
                  cases store m2 cursor (fun n => { n with higher := some pr }) with
                  | error e => rfl
                  | ok m3 => exact insert_finish_traced_erase _ _ _ _ _ _ _

theorem insert_finish_traced_within {st st1 : State} {cursor : Nat} {pre post : Option Nat}
    {pkg : Nat} {num r : Int} {t t1 : Trace} {k : Nat}
    (h : insert_finish_traced st cursor pre post pkg num t = .ok (st1, r, t1))
    (hm : LongKeys st.mem) (hn0 : -2 ^ 63 ≤ num) (hn1 : num < 2 ^ 63) (ht : t.Within k) :
    t1.Within (k + (if pre.isNone then 4 else 0) + 48) := by
  have hnum := ld_len_le hn0 hn1
  have ht1 : (if pre.isNone then t.snprintf 4 else t).Within
      (k + (if pre.isNone then 4 else 0)) := by
    split
    · exact ht.snprintf (le_refl 4)
    · exact ht
  have ht2 := ht1.snprintf hnum
  unfold insert_finish_traced at h
  cases post with
  | none =>
    simp only [bind_ok_iff, pure, Except.pure, Except.ok.injEq, Prod.mk.injEq] at h
    obtain ⟨x, hx, m3, -, m4, -, -, -, rfl⟩ := h
    obtain ⟨rfl, rfl⟩ := hx
    exact (ht2.snprintf (le_refl 4)).mono (by omega)
  | some po =>
    simp only [bind_ok_iff, pure, Except.pure, Except.ok.injEq, Prod.mk.injEq] at h
    obtain ⟨x, ⟨m1, hs1, m2, hs2, p, hd, hx⟩, m3, -, m4, -, -, -, rfl⟩ := h
    subst hx
    have hm2 : LongKeys m2 := (hm.store hs1 (fun _ => rfl)).store hs2 (fun _ => rfl)
    have hp := hm2.get (deref_ok_iff.1 hd)
    have hpl := ld_len_le hp.1 hp.2
    exact (((ht2.snprintf (le_refl 4)).snprintf hpl).snprintf (le_refl 4)).mono (by omega)

theorem pipeline_insert_traced_within {fuel : Nat} {st st1 : State} {a : Option Nat}
    {pkg : Nat} {num rej r : Int} {t : Trace}
    (h : pipeline_insert_traced fuel st a pkg num rej = .ok (st1, r, t))
    (hm : LongKeys st.mem) (hn0 : -2 ^ 63 ≤ num) (hn1 : num < 2 ^ 63) : t.Within 76 := by
  have hstart : Trace.start.Within 0 := ⟨fun o ho => by simp [Trace.start] at ho, le_refl _⟩
  unfold pipeline_insert_traced at h
  cases hg : st.g_highest with
  | none =>
    simp only [hg, bind_ok_iff] at h
    obtain ⟨⟨m1, cursor⟩, hnew, hfin⟩ := h
    cases a with
    | none => simp [new_oqnode] at hnew
    | some p =>
      simp only [new_oqnode, Except.ok.injEq, Prod.mk.injEq] at hnew
      obtain ⟨rfl, rfl⟩ := hnew
      exact (insert_finish_traced_within hfin (hm.alloc p) hn0 hn1 hstart).mono (by simp)
  | some hi =>
    simp only [hg, bind_ok_iff] at h
    obtain ⟨pre, -, ⟨m1, cursor⟩, hnew, hrest⟩ := h
    cases a with
    | none => simp [new_oqnode] at hnew
    | some p =>
      simp only [new_oqnode, Except.ok.injEq, Prod.mk.injEq] at hnew
      obtain ⟨rfl, rfl⟩ := hnew
      cases pre with
      | none =>
        simp only [bind_ok_iff] at hrest
        obtain ⟨dup, -, hrest⟩ := hrest
        cases dup with
        | true =>
          simp only [if_true, pure, Except.pure, Except.ok.injEq, Prod.mk.injEq] at hrest
          obtain ⟨-, -, rfl⟩ := hrest
          exact hstart.mono (by omega)
        | false =>
          simp only [Bool.false_eq_true, if_false] at hrest
          exact (insert_finish_traced_within hrest (hm.alloc p) hn0 hn1 hstart).mono (by simp)
      | some pr =>
        simp only [bind_ok_iff] at hrest
        obtain ⟨dup, -, hrest⟩ := hrest
        cases dup with
        | true =>
          simp only [if_true, pure, Except.pure, Except.ok.injEq, Prod.mk.injEq] at hrest
          obtain ⟨-, -, rfl⟩ := hrest
          exact hstart.mono (by omega)
        | false =>
          simp only [Bool.false_eq_true, if_false, bind_ok_iff] at hrest
          obtain ⟨nd, hd, m2, hs2, m3, hs3, hfin⟩ := hrest
          have hndr := (hm.alloc p).get (deref_ok_iff.1 hd)
          have hndl := ld_len_le hndr.1 hndr.2
          have hm3 : LongKeys m3 := ((hm.alloc p).store hs2 (fun _ => rfl)).store hs3 (fun _ => rfl)
          have ht := ((hstart.snprintf (le_refl 4)).snprintf hndl).snprintf (le_refl 4)
          exact (insert_finish_traced_within hfin hm3 hn0 hn1 ht).mono (by simp)

/-- The trace of placing the key 20 between 30 and 10, `... 30 -> 20 -> 10 ...`:
seven `snprintf`, at the offsets 0, 4, 6, 10, 12, 16, 18, and 22 characters. -/
theorem trace_ten_twenty_thirty :
    (pipeline_insert_traced 2 (stateAfter ten_thirty 0) (some 96) 3 20 0).map
      (fun r => r.2.2) = .ok ⟨[0, 4, 6, 10, 12, 16, 18], 22⟩ := by
  simp [pipeline_insert_traced, stateAfter, outcome, ten_thirty, run, insertCalls, exec,
    pipeline_insert, insert_finish, insert_finish_traced, find_predecessor,
    find_predecessor_loop, new_oqnode, store, deref, Mem.get, Mem.set, Mem.alloc, lookup,
    State.init, bind, Except.bind, pure, Except.pure, Except.map, Trace.snprintf, Trace.start,
    ld_len]

theorem perm_above_notAbove (num : Int) (l : List Entry) (x : Entry) (f : Entry → Int × Nat) :
    ((above num l ++ x :: notAbove num l).map f).Perm (f x :: l.map f) := by
  have hl := above_append_notAbove num l
  generalize above num l = hi at hl
  generalize notAbove num l = lo at hl
  subst hl
  simp only [List.map_append, List.map_cons]
  exact List.perm_middle

/-- One call keeps the books of (key, payload) pairs: what the call hands back
together with what is linked afterwards is what the call accepted together
with what was linked before. -/
theorem WellFormed.step_pairs {st st1 : State} {l : List Entry} (h : WellFormed st l)
    {fuel : Nat} {c : Call} {r : Ret} (hv : c.Valid st) (he : exec fuel st c = .ok (st1, r)) :
    ∃ l1 here, WellFormed st1 l1 ∧ handed st1 r = .ok here ∧
      (here ++ l1.map (fun e => (e.num, e.pkg))).Perm
        (accepted [c] [r] ++ l.map (fun e => (e.num, e.pkg))) := by
  cases c with
  | insert a pkg num rej =>
    cases a with
    | none => simp [OrderQueue.exec, pipeline_insert, new_oqnode, bind, Except.bind] at he
              cases hg : st.g_highest <;> simp [hg] at he
              cases hf : find_predecessor fuel st num <;> simp [hf] at he
    | some p =>
      simp only [OrderQueue.exec, bind, Except.bind] at he
      cases hi : pipeline_insert fuel st (some p) pkg num rej with
      | error e => simp [hi] at he
      | ok x =>
        obtain ⟨s, v⟩ := x
        simp only [hi, pure, Except.pure, Except.ok.injEq, Prod.mk.injEq] at he
        obtain ⟨rfl, rfl⟩ := he
        have hbig := pipeline_insert_mono hi (Nat.le_max_left fuel l.length)
        obtain ⟨h1, h2⟩ := insert_spec h hv (max fuel l.length) (Nat.le_max_right _ _) pkg num rej
        by_cases hr : Rejects (notAbove num l) num rej
        · rw [h1 hr] at hbig
          simp only [Except.ok.injEq, Prod.mk.injEq] at hbig
          obtain ⟨rfl, rfl⟩ := hbig
          exact ⟨l, [], h, rfl, by simp [accepted]⟩
        · obtain ⟨s1, h3, h4, -⟩ := h2 hr
          rw [h3] at hbig
          simp only [Except.ok.injEq, Prod.mk.injEq] at hbig
          obtain ⟨rfl, rfl⟩ := hbig
          refine ⟨_, [], h4, rfl, ?_⟩
          simpa [accepted] using perm_above_notAbove num l ⟨p, pkg, num⟩ (fun e => (e.num, e.pkg))
  | pop which =>
    simp only [OrderQueue.exec, bind, Except.bind] at he
    cases hp : pipeline_pop st which with
    | error e => simp [hp] at he
    | ok x =>
      obtain ⟨s, v⟩ := x
      simp only [hp, pure, Except.pure, Except.ok.injEq, Prod.mk.injEq] at he
      obtain ⟨rfl, rfl⟩ := he
      by_cases h1 : which = OQ_HIGHEST
      · subst h1
        cases l with
        | nil =>
          rw [pop_empty h] at hp
          simp only [Except.ok.injEq, Prod.mk.injEq] at hp
          obtain ⟨rfl, rfl⟩ := hp
          exact ⟨[], [], h, rfl, by simp [accepted]⟩
        | cons e t =>
          obtain ⟨s1, h3, h4, h5, -⟩ := pop_highest_cons h
          rw [h3] at hp
          simp only [Except.ok.injEq, Prod.mk.injEq] at hp
          obtain ⟨rfl, rfl⟩ := hp
          refine ⟨t, [(e.num, e.pkg)], h4, ?_, by simp [accepted]⟩
          simp [handed, deref, h5, bind, Except.bind, pure, Except.pure]
      · by_cases h0 : which = OQ_LOWEST
        · subst h0
          rcases List.eq_nil_or_concat l with rfl | ⟨xs, z, rfl⟩
          · rw [pop_empty h] at hp
            simp only [Except.ok.injEq, Prod.mk.injEq] at hp
            obtain ⟨rfl, rfl⟩ := hp
            exact ⟨[], [], h, rfl, by simp [accepted]⟩
          · simp only [List.concat_eq_append] at h ⊢
            obtain ⟨s1, h3, h4, h5, -⟩ := pop_lowest_concat h
            rw [h3] at hp
            simp only [Except.ok.injEq, Prod.mk.injEq] at hp
            obtain ⟨rfl, rfl⟩ := hp
            refine ⟨xs, [(z.num, z.pkg)], h4, ?_, ?_⟩
            · simp [handed, deref, h5, bind, Except.bind, pure, Except.pure]
            · simp only [accepted, List.nil_append, List.map_append, List.map_cons, List.map_nil,
                List.singleton_append]
              exact (List.perm_append_singleton _ _).symm
        · rw [pop_invalid st which h0 h1] at hp
          simp only [Except.ok.injEq, Prod.mk.injEq] at hp
          obtain ⟨rfl, rfl⟩ := hp
          exact ⟨l, [], h, rfl, by simp [accepted]⟩
  | destroy p =>
    simp only [OrderQueue.exec, pure, Except.pure, Except.ok.injEq, Prod.mk.injEq] at he
    obtain ⟨rfl, rfl⟩ := he
    cases p with
    | none => exact ⟨l, [], h, rfl, by simp [accepted]⟩
    | some q => exact ⟨l, [], h.destroy hv.2, rfl, by simp [accepted]⟩

theorem accepted_cons (c : Call) (cs : List Call) (r : Ret) (rs : List Ret) :
    accepted (c :: cs) (r :: rs) = accepted [c] [r] ++ accepted cs rs := by
  cases c <;> cases r <;> simp [accepted]
  split <;> simp

theorem run_cons_inv {fuel : Nat} {st st2 : State} {c : Call} {cs : List Call} {rs : List Ret}
    (hr : run fuel st (c :: cs) = .ok (st2, rs)) :
    ∃ st1 r rs1, exec fuel st c = .ok (st1, r) ∧ run fuel st1 cs = .ok (st2, rs1) ∧
      rs = r :: rs1 := by
  simp only [run, bind, Except.bind] at hr
  cases he : exec fuel st c with
  | error e => simp [he] at hr
  | ok x =>
    obtain ⟨s, r⟩ := x
    simp only [he] at hr
    cases hrest : run fuel s cs with
    | error e => simp [hrest] at hr
    | ok y =>
      obtain ⟨s2, rs2⟩ := y
      simp only [hrest, pure, Except.pure, Except.ok.injEq, Prod.mk.injEq] at hr
      obtain ⟨rfl, rfl⟩ := hr
      exact ⟨s, r, rs2, rfl, hrest, rfl⟩

/-- A run keeps the books of (key, payload) pairs: what the pops handed back
together with what is linked at the end is what the inserts accepted together
with what was linked at the start. -/
theorem WellFormed.run_pairs {fuel : Nat} (cs : List Call) : ∀ {st st1 : State}
    {l : List Entry} {rs : List Ret} (_ : WellFormed st l) (_ : ValidRun fuel st cs)
    (_ : run fuel st cs = .ok (st1, rs)),
    ∃ l1 obs, WellFormed st1 l1 ∧ observed fuel st cs = .ok obs ∧
      (obs ++ l1.map (fun e => (e.num, e.pkg))).Perm
        (accepted cs rs ++ l.map (fun e => (e.num, e.pkg))) := by
  induction cs with
  | nil =>
    intro st st1 l rs h _ hr
    simp only [run, pure, Except.pure, Except.ok.injEq, Prod.mk.injEq] at hr
    obtain ⟨rfl, rfl⟩ := hr
    exact ⟨l, [], h, rfl, by simp [accepted]⟩
  | cons c cs ih =>
    intro st st1 l rs h hv hr
    obtain ⟨sa, r, rs1, he, hrest, rfl⟩ := run_cons_inv hr
    obtain ⟨hv1, hv2⟩ := hv
    simp only [he] at hv2
    obtain ⟨la, here, hwa, hha, hpa⟩ := h.step_pairs hv1 he
    obtain ⟨l1, obs, hw1, hobs, hp1⟩ := ih hwa hv2 hrest
    refine ⟨l1, here ++ obs, hw1, ?_, ?_⟩
    · simp [observed, he, hha, hobs, bind, Except.bind, pure, Except.pure]
    · rw [accepted_cons, List.append_assoc, List.append_assoc]
      refine (List.Perm.append_left here hp1).trans ?_
      refine (List.perm_append_comm_assoc _ _ _).trans ?_
      refine (List.Perm.append_left _ hpa).trans ?_
      exact List.perm_append_comm_assoc _ _ _

theorem run_take {fuel : Nat} (cs : List Call) : ∀ {st st2 : State} {rs : List Ret} (k : Nat)
    (_ : run fuel st cs = .ok (st2, rs)),
    ∃ st1, run fuel st (cs.take k) = .ok (st1, rs.take k) := by
  induction cs with
  | nil =>
    intro st st2 rs k hr
    simp only [run, pure, Except.pure, Except.ok.injEq, Prod.mk.injEq] at hr
    obtain ⟨rfl, rfl⟩ := hr
    exact ⟨st, by simp [run, pure, Except.pure]⟩
  | cons c cs ih =>
    intro st st2 rs k hr
    obtain ⟨sa, r, rs1, he, hrest, rfl⟩ := run_cons_inv hr
    cases k with
    | zero => exact ⟨st, by simp [run, pure, Except.pure]⟩
    | succ k =>
      obtain ⟨s1, h1⟩ := ih k hrest
      exact ⟨s1, by simpa using run_cons_ok he h1⟩

theorem validRun_take {fuel : Nat} (cs : List Call) : ∀ {st : State} (k : Nat)
    (_ : ValidRun fuel st cs), ValidRun fuel st (cs.take k) := by
  induction cs with
  | nil => intro st k h; simpa using h
  | cons c cs ih =>
    intro st k h
    cases k with
    | zero => exact trivial
    | succ k =>
      obtain ⟨hv1, hv2⟩ := h
      refine ⟨hv1, ?_⟩
      cases he : exec fuel st c with
      | error e => trivial
      | ok x =>
        obtain ⟨s, r⟩ := x
        simp only [he] at hv2 ⊢
        exact ih k hv2

/-- The calls of `carried_calls` return; the pops hand back (42, 2) and (41, 1), the
pair (41, 3) stays linked, and the accepted pairs are (41, 1), (42, 2), (41, 3). -/
theorem carried_calls_outcome :
    run 6 State.init carried_calls = .ok (outcome 6 carried_calls) ∧
    observed 6 State.init carried_calls = .ok [(42, 2), (41, 1)] ∧
    accepted carried_calls (outcome 6 carried_calls).2 = [(41, 1), (42, 2), (41, 3)] ∧
    (linked (outcome 6 carried_calls).1).map (fun nd => (nd.num, nd.pkg)) = [(41, 3)] ∧
    observed 6 State.init (carried_calls.take 3) = .ok [(42, 2)] := by
  decide

theorem unguarded_true_append {es : List Event} (h : ∀ e ∈ es, e.isAccess = true)
    (rest : List Event) : unguarded true (es ++ rest) = unguarded true rest := by
  induction es with
  | nil => rfl
  | cons e t ih =>
    have ht := ih (fun x hx => h x (List.mem_cons_of_mem _ hx))
    have he := h e (List.mem_cons_self _ _)
    cases e with
    | lock => simp [Event.isAccess] at he
    | unlock => simp [Event.isAccess] at he
    | read l => simpa [unguarded] using ht
    | write l => simpa [unguarded] using ht

theorem unguarded_false_append {es : List Event} (h : ∀ e ∈ es, e.isAccess = true)
    (rest : List Event) : unguarded false (es ++ rest) = es ++ unguarded false rest := by
  induction es with
  | nil => rfl
  | cons e t ih =>
    have ht := ih (fun x hx => h x (List.mem_cons_of_mem _ hx))
    have he := h e (List.mem_cons_self _ _)
    cases e with
    | lock => simp [Event.isAccess] at he
    | unlock => simp [Event.isAccess] at he
    | read l => simpa [unguarded] using ht
    | write l => simpa [unguarded] using ht

/-- Accesses between `PIPELOCK` and `PIPEUNLOCK` are all guarded. -/
theorem unguarded_locked {body : List Event} (h : ∀ e ∈ body, e.isAccess = true)
    (rest : List Event) :
    unguarded false (.lock :: body ++ .unlock :: rest) = unguarded false rest := by
  rw [List.cons_append]
  show unguarded true (body ++ .unlock :: rest) = _
  rw [unguarded_true_append h]
  rfl

theorem find_predecessor_loop_events_ok {m : Mem} {num : Int} : ∀ (fuel : Nat) {cursor r : Nat},
    find_predecessor_loop m num fuel cursor = .ok r →
    ∃ evs, find_predecessor_loop_events m num fuel cursor = .ok evs ∧
      ∀ e ∈ evs, e.isAccess = true := by
  intro fuel
  induction fuel with
  | zero => intro cursor r h; simp [find_predecessor_loop] at h
  | succ n ih =>
    intro cursor r h
    simp only [find_predecessor_loop, bind_ok_iff] at h
    obtain ⟨c, hc, h⟩ := h
    simp only [find_predecessor_loop_events, hc, bind, Except.bind]
    cases hlo : c.lower with
    | none => exact ⟨_, rfl, by simp [Event.isAccess]⟩
    | some lo =>
      simp only [hlo, bind_ok_iff] at h
      obtain ⟨l, hl, h⟩ := h
      simp only [hl]
      by_cases hge : num ≥ l.num
      · simp only [hge, if_true]
        exact ⟨_, rfl, by simp [Event.isAccess]⟩
      · simp only [hge, if_false] at h ⊢
        obtain ⟨evs, he, ha⟩ := ih h
        simp only [he, pure, Except.pure]
        refine ⟨_, rfl, ?_⟩
        intro e hm
        rcases List.mem_append.1 hm with h1 | h1
        · simp at h1
          rcases h1 with rfl | rfl | rfl <;> rfl
        · exact ha e h1

theorem find_predecessor_events_ok {fuel : Nat} {st : State} {num : Int} {r : Option Nat}
    (h : find_predecessor fuel st num = .ok r) :
    ∃ evs, find_predecessor_events fuel st num = .ok evs ∧ ∀ e ∈ evs, e.isAccess = true := by
  unfold find_predecessor at h
  unfold find_predecessor_events
  cases hg : st.g_highest with
  | none => simp [hg] at h
  | some hi =>
    simp only [hg, bind_ok_iff] at h
    obtain ⟨nd, hd, h⟩ := h
    simp only [hd, bind, Except.bind]
    by_cases hge : num ≥ nd.num
    · simp only [hge, if_true]
      exact ⟨_, rfl, by simp [Event.isAccess]⟩
    · simp only [hge, if_false, bind_ok_iff] at h ⊢
      obtain ⟨c, hc, -⟩ := h
      obtain ⟨evs, he, ha⟩ := find_predecessor_loop_events_ok fuel hc
      simp only [he, pure, Except.pure]
      refine ⟨_, rfl, ?_⟩
      intro e hm
      rcases List.mem_append.1 hm with h1 | h1
      · simp at h1
        rcases h1 with rfl | rfl | rfl <;> rfl
      · exact ha e h1

theorem insert_finish_events_shape (cursor : Nat) (post : Option Nat) :
    ∃ body, insert_finish_events cursor post = body ++ [.unlock] ∧
      ∀ e ∈ body, e.isAccess = true := by
  cases post with
  | none =>
    exact ⟨[.write .g_lowest, .write (.num cursor), .write (.pkg cursor), .read .g_count,
      .write .g_count], rfl, by simp [Event.isAccess]⟩
  | some po =>
    exact ⟨[.write (.lower cursor), .write (.higher po), .read (.num po),
      .write (.num cursor), .write (.pkg cursor), .read .g_count, .write .g_count], rfl,
      by simp [Event.isAccess]⟩

theorem access_wrap {evp tail : List Event} (hap : ∀ e ∈ evp, e.isAccess = true)
    (ht : ∀ e ∈ tail, e.isAccess = true) :
    ∀ e ∈ Event.read .g_highest :: evp ++ tail, e.isAccess = true := by
  intro e he
  simp only [List.cons_append, List.mem_cons, List.mem_append] at he
  rcases he with rfl | he | he
  · rfl
  · exact hap e he
  · exact ht e he

/-- Whenever `pipeline_insert` returns, its events are `PIPELOCK`, then reads and
writes only, then `PIPEUNLOCK`. -/
theorem pipeline_insert_events_ok {fuel : Nat} {st : State} {a : Option Nat} {pkg : Nat}
    {num rej : Int} {r : State × Int} (h : pipeline_insert fuel st a pkg num rej = .ok r) :
    ∃ body, pipeline_insert_events fuel st a num rej = .ok (.lock :: body ++ [.unlock]) ∧
      ∀ e ∈ body, e.isAccess = true := by
  unfold pipeline_insert at h
  cases hg : st.g_highest with
  | none =>
    simp only [hg, bind_ok_iff] at h
    obtain ⟨⟨m1, cursor⟩, hnew, -⟩ := h
    refine ⟨[.read .g_highest, .write .g_highest, .write .g_lowest, .write (.num cursor),
      .write (.pkg cursor), .read .g_count, .write .g_count], ?_, by simp [Event.isAccess]⟩
    simp [pipeline_insert_events, hg, hnew, bind, Except.bind, pure, Except.pure,
      insert_finish_events]
  | some hi =>
    simp only [hg, bind_ok_iff] at h
    obtain ⟨pre, hpre, ⟨m1, cursor⟩, hnew, h⟩ := h
    obtain ⟨evp, hevp, hap⟩ := find_predecessor_events_ok hpre
    cases pre with
    | none =>
      simp only [bind_ok_iff] at h
      obtain ⟨dup, hdup, h⟩ := h
      by_cases hr : rej = 0
      · refine ⟨.read .g_highest :: evp ++ [.read .g_highest, .write .g_highest,
          .write (.lower cursor), .write (.higher hi), .read (.num hi), .write (.num cursor),
          .write (.pkg cursor), .read .g_count, .write .g_count], ?_,
          access_wrap hap (by simp [Event.isAccess])⟩
        simp [pipeline_insert_events, hg, hpre, hevp, hnew, hr, bind, Except.bind, pure,
          Except.pure, insert_finish_events]
      · cases hd : deref m1 hi with
        | error e => simp [hr, hd, bind, Except.bind] at hdup
        | ok nd =>
          by_cases hnum : num = nd.num
          · generalize hk : nd.num = k at hnum
            subst hnum
            rename nd.num = num => hnum
            refine ⟨.read .g_highest :: evp ++ [.read .g_highest, .read .g_highest,
              .read (.num hi)], ?_, access_wrap hap (by simp [Event.isAccess])⟩
            simp [pipeline_insert_events, hg, hpre, hevp, hnew, hr, hd, hnum, bind, Except.bind,
              pure, Except.pure, insert_finish_events]
          · refine ⟨.read .g_highest :: evp ++ [.read .g_highest, .read .g_highest,
              .read (.num hi), .read .g_highest, .write .g_highest,
              .write (.lower cursor), .write (.higher hi), .read (.num hi),
              .write (.num cursor), .write (.pkg cursor), .read .g_count, .write .g_count], ?_,
              access_wrap hap (by simp [Event.isAccess])⟩
            simp [pipeline_insert_events, hg, hpre, hevp, hnew, hr, hd, hnum, bind, Except.bind,
              pure, Except.pure, insert_finish_events]
    | some pr =>
      simp only [bind_ok_iff] at h
      obtain ⟨dup, hdup, h⟩ := h
      cases hp : deref m1 pr with
      | error e =>
        by_cases hr : rej = 0
        · simp only [hr, ne_eq, not_true_eq_false, if_false, pure, Except.pure,
            Except.ok.injEq] at hdup
          subst hdup
          simp [hp, bind, Except.bind] at h
        · simp [hr, hp, bind, Except.bind] at hdup
      | ok p =>
        by_cases hr : rej = 0
        · cases hlo : p.lower with
          | none =>
            refine ⟨.read .g_highest :: evp ++ [.read (.num pr), .read (.lower pr),
              .write (.lower pr), .write (.higher cursor), .write .g_lowest,
              .write (.num cursor), .write (.pkg cursor), .read .g_count, .write .g_count], ?_,
              access_wrap hap (by simp [Event.isAccess])⟩
            simp [pipeline_insert_events, hg, hpre, hevp, hnew, hr, hp, hlo, bind, Except.bind,
              pure, Except.pure, insert_finish_events]
          | some lo =>
            refine ⟨.read .g_highest :: evp ++ [.read (.num pr), .read (.lower pr),
              .write (.lower pr), .write (.higher cursor), .write (.lower cursor),
              .write (.higher lo), .read (.num lo),
              .write (.num cursor), .write (.pkg cursor), .read .g_count, .write .g_count], ?_,
              access_wrap hap (by simp [Event.isAccess])⟩
            simp [pipeline_insert_events, hg, hpre, hevp, hnew, hr, hp, hlo, bind, Except.bind,
              pure, Except.pure, insert_finish_events]
        · cases hlo : p.lower with
          | none =>
            refine ⟨.read .g_highest :: evp ++ [.read (.lower pr), .read (.num pr),
              .read (.lower pr), .write (.lower pr), .write (.higher cursor), .write .g_lowest,
              .write (.num cursor), .write (.pkg cursor), .read .g_count, .write .g_count], ?_,
              access_wrap hap (by simp [Event.isAccess])⟩
            simp [pipeline_insert_events, hg, hpre, hevp, hnew, hr, hp, hlo, bind, Except.bind,
              pure, Except.pure, insert_finish_events]
          | some lo =>
            cases hl : deref m1 lo with
            | error e => simp [hr, hp, hlo, hl, bind, Except.bind] at hdup
            | ok l =>
              by_cases hnum : num = l.num
              · generalize hk : l.num = k at hnum
                subst hnum
                rename l.num = num => hnum
                refine ⟨.read .g_highest :: evp ++ [.read (.lower pr), .read (.lower pr),
                  .read (.num lo)], ?_, access_wrap hap (by simp [Event.isAccess])⟩
                simp [pipeline_insert_events, hg, hpre, hevp, hnew, hr, hp, hlo, hl, hnum, bind,
                  Except.bind, pure, Except.pure, insert_finish_events]
              · refine ⟨.read .g_highest :: evp ++ [.read (.lower pr), .read (.lower pr),
                  .read (.num lo), .read (.num pr), .read (.lower pr),
                  .write (.lower pr), .write (.higher cursor), .write (.lower cursor),
                  .write (.higher lo), .read (.num lo), .write (.num cursor),
                  .write (.pkg cursor), .read .g_count, .write .g_count], ?_,
                  access_wrap hap (by simp [Event.isAccess])⟩
                simp [pipeline_insert_events, hg, hpre, hevp, hnew, hr, hp, hlo, hl, hnum, bind,
                  Except.bind, pure, Except.pure, insert_finish_events]

/-- Forgetting the events, `pipeline_pop_events` is `pipeline_pop`; and the only
accesses it makes without the lock are the two writes that clear the links of
the node it returns. -/
theorem pipeline_pop_events_spec (st : State) (which : Int) :
    (pipeline_pop_events st which).map Prod.fst = pipeline_pop st which ∧
    ∀ s p evs, pipeline_pop_events st which = .ok ((s, p), evs) →
      unguarded false evs =
        (match p with
          | some c => [.write (.higher c), .write (.lower c)]
          | none => []) := by
  by_cases hH : which = OQ_HIGHEST
  · subst hH
    cases hg : st.g_highest with
    | none =>
      simp [pipeline_pop_events, pipeline_pop, OQ_LOWEST, OQ_HIGHEST, hg, bind, Except.bind,
        pure, Except.pure, Except.map, unguarded]
    | some hi =>
      cases hd : deref st.mem hi with
      | error e =>
        simp [pipeline_pop_events, pipeline_pop, OQ_LOWEST, OQ_HIGHEST, hg, hd, bind, Except.bind,
          pure, Except.pure, Except.map, unguarded]
      | ok h =>
        cases hlo : h.lower with
        | none =>
          cases hs1 : store st.mem hi (fun n => { n with higher := none }) with
          | error e =>
            simp [pipeline_pop_events, pipeline_pop, OQ_LOWEST, OQ_HIGHEST, hg, hd, hlo, hs1, bind, Except.bind,
              pure, Except.pure, Except.map, unguarded]
          | ok m1 =>
            cases hs2 : store m1 hi (fun n => { n with lower := none }) with
            | error e =>
              simp [pipeline_pop_events, pipeline_pop, OQ_LOWEST, OQ_HIGHEST, hg, hd, hlo, hs1, hs2, bind, Except.bind,
                pure, Except.pure, Except.map, unguarded]
            | ok m2 =>
              simp [pipeline_pop_events, pipeline_pop, OQ_LOWEST, OQ_HIGHEST, hg, hd, hlo, hs1, hs2, bind, Except.bind,
                pure, Except.pure, Except.map, unguarded]
        | some nh =>
          cases hs0 : store st.mem nh (fun n => { n with higher := none }) with
          | error e =>
            simp [pipeline_pop_events, pipeline_pop, OQ_LOWEST, OQ_HIGHEST, hg, hd, hlo, hs0, bind, Except.bind,
              pure, Except.pure, Except.map, unguarded]
          | ok m0 =>
            cases hs1 : store m0 hi (fun n => { n with higher := none }) with
            | error e =>
              simp [pipeline_pop_events, pipeline_pop, OQ_LOWEST, OQ_HIGHEST, hg, hd, hlo, hs0, hs1, bind, Except.bind,
                pure, Except.pure, Except.map, unguarded]
            | ok m1 =>
              cases hs2 : store m1 hi (fun n => { n with lower := none }) with
              | error e =>
                simp [pipeline_pop_events, pipeline_pop, OQ_LOWEST, OQ_HIGHEST, hg, hd, hlo, hs0, hs1, hs2, bind, Except.bind,
                  pure, Except.pure, Except.map, unguarded]
              | ok m2 =>
                simp [pipeline_pop_events, pipeline_pop, OQ_LOWEST, OQ_HIGHEST, hg, hd, hlo, hs0, hs1, hs2, bind, Except.bind,
                  pure, Except.pure, Except.map, unguarded]
  · by_cases hL : which = OQ_LOWEST
    · subst hL
      cases hg : st.g_lowest with
      | none =>
        simp [pipeline_pop_events, pipeline_pop, OQ_LOWEST, OQ_HIGHEST, hg, bind, Except.bind,
          pure, Except.pure, Except.map, unguarded]
      | some hi =>
        cases hd : deref st.mem hi with
        | error e =>
          simp [pipeline_pop_events, pipeline_pop, OQ_LOWEST, OQ_HIGHEST, hg, hd, bind, Except.bind,
            pure, Except.pure, Except.map, unguarded]
        | ok h =>
          cases hlo : h.higher with
          | none =>
            cases hs1 : store st.mem hi (fun n => { n with higher := none }) with
            | error e =>
              simp [pipeline_pop_events, pipeline_pop, OQ_LOWEST, OQ_HIGHEST, hg, hd, hlo, hs1, bind, Except.bind,
                pure, Except.pure, Except.map, unguarded]
            | ok m1 =>
              cases hs2 : store m1 hi (fun n => { n with lower := none }) with
              | error e =>
                simp [pipeline_pop_events, pipeline_pop, OQ_LOWEST, OQ_HIGHEST, hg, hd, hlo, hs1, hs2, bind, Except.bind,
                  pure, Except.pure, Except.map, unguarded]
              | ok m2 =>
                simp [pipeline_pop_events, pipeline_pop, OQ_LOWEST, OQ_HIGHEST, hg, hd, hlo, hs1, hs2, bind, Except.bind,
                  pure, Except.pure, Except.map, unguarded]
          | some nh =>
            cases hs0 : store st.mem nh (fun n => { n with lower := none }) with
            | error e =>
              simp [pipeline_pop_events, pipeline_pop, OQ_LOWEST, OQ_HIGHEST, hg, hd, hlo, hs0, bind, Except.bind,
                pure, Except.pure, Except.map, unguarded]
            | ok m0 =>
              cases hs1 : store m0 hi (fun n => { n with higher := none }) with
              | error e =>
                simp [pipeline_pop_events, pipeline_pop, OQ_LOWEST, OQ_HIGHEST, hg, hd, hlo, hs0, hs1, bind, Except.bind,
                  pure, Except.pure, Except.map, unguarded]
              | ok m1 =>
                cases hs2 : store m1 hi (fun n => { n with lower := none }) with
                | error e =>
                  simp [pipeline_pop_events, pipeline_pop, OQ_LOWEST, OQ_HIGHEST, hg, hd, hlo, hs0, hs1, hs2, bind, Except.bind,
                    pure, Except.pure, Except.map, unguarded]
                | ok m2 =>
                  simp [pipeline_pop_events, pipeline_pop, OQ_LOWEST, OQ_HIGHEST, hg, hd, hlo, hs0, hs1, hs2, bind, Except.bind,
                    pure, Except.pure, Except.map, unguarded]
    · simp [pipeline_pop_events, pipeline_pop, hH, hL, pure, Except.pure, Except.map]
      rintro s p evs rfl rfl rfl
      rfl

theorem map_ok_inv {α β : Type} {f : α → β} {x : Except Fault α} {y : β}
    (h : x.map f = .ok y) : ∃ z, x = .ok z ∧ f z = y := by
  cases x with
  | error e => simp [Except.map] at h
  | ok z => exact ⟨z, rfl, by simpa [Except.map] using h⟩

/-- Forgetting the events, `pipeline_span_events` is `pipeline_span`; its events are
the reads of the emptiness test followed, on a non-empty queue, by `PIPELOCK`,
the reads of the subtraction and `PIPEUNLOCK`. -/
theorem pipeline_span_events_spec (st : State) :
    (pipeline_span_events st).map Prod.fst = pipeline_span st ∧
    ∀ v evs, pipeline_span_events st = .ok (v, evs) →
      ∃ test body, evs = test ++ body ∧
        (∀ e ∈ test, e = .read .g_highest ∨ e = .read .g_lowest) ∧
        unguarded false body = [] ∧
        (∀ hi lo, st.g_highest = some hi → st.g_lowest = some lo →
          body = [.lock, .read .g_highest, .read (.num hi), .read .g_lowest, .read (.num lo),
            .unlock]) := by
  cases hg : st.g_highest with
  | none =>
    refine ⟨by simp [pipeline_span_events, pipeline_span, hg, pure, Except.pure, Except.map], ?_⟩
    intro v evs h
    simp only [pipeline_span_events, hg, pure, Except.pure, Except.ok.injEq, Prod.mk.injEq] at h
    obtain ⟨-, rfl⟩ := h
    exact ⟨[.read .g_highest], [], rfl, by simp, rfl, by simp⟩
  | some hi =>
    cases hl : st.g_lowest with
    | none =>
      refine ⟨by simp [pipeline_span_events, pipeline_span, hg, hl, pure, Except.pure,
        Except.map], ?_⟩
      intro v evs h
      simp only [pipeline_span_events, hg, hl, pure, Except.pure, Except.ok.injEq,
        Prod.mk.injEq] at h
      obtain ⟨-, rfl⟩ := h
      exact ⟨[.read .g_highest, .read .g_lowest], [], rfl, by simp, rfl, by simp⟩
    | some lo =>
      cases hdh : deref st.mem hi with
      | error e =>
        simp [pipeline_span_events, pipeline_span, hg, hl, hdh, bind, Except.bind, Except.map]
      | ok h =>
        cases hdl : deref st.mem lo with
        | error e =>
          simp [pipeline_span_events, pipeline_span, hg, hl, hdh, hdl, bind, Except.bind,
            Except.map]
        | ok l =>
          refine ⟨by simp [pipeline_span_events, pipeline_span, hg, hl, hdh, hdl, bind,
            Except.bind, pure, Except.pure, Except.map], ?_⟩
          intro v evs h
          simp only [pipeline_span_events, hg, hl, hdh, hdl, bind, Except.bind, pure,
            Except.pure, Except.ok.injEq, Prod.mk.injEq] at h
          obtain ⟨-, rfl⟩ := h
          refine ⟨[.read .g_highest, .read .g_lowest], _, rfl, by simp, rfl, ?_⟩
          intro hi1 lo1 h1 h2
          simp only [Option.some.injEq] at h1 h2
          subst h1 h2
          rfl

/-- On a well-formed state `pipeline_pop` returns, and the node it returns is not
on the spine afterwards. -/
theorem WellFormed.pop_returns {st : State} {l : List Entry} (h : WellFormed st l)
    (which : Int) :
    ∃ st1 q, pipeline_pop st which = .ok (st1, q) ∧ ∀ c, q = some c → c ∉ spine st1 := by
  by_cases h1 : which = OQ_HIGHEST
  · subst h1
    cases l with
    | nil => exact ⟨st, none, pop_empty h _, by simp⟩
    | cons e t =>
      obtain ⟨s1, h3, h4, -⟩ := pop_highest_cons h
      refine ⟨s1, some e.addr, h3, ?_⟩
      intro c hc
      simp only [Option.some.injEq] at hc
      subst hc
      rw [h4.spine_eq]
      exact h.not_mem_of_pop_highest
  · by_cases h0 : which = OQ_LOWEST
    · subst h0
      rcases List.eq_nil_or_concat l with rfl | ⟨xs, z, rfl⟩
      · exact ⟨st, none, pop_empty h _, by simp⟩
      · simp only [List.concat_eq_append] at h
        obtain ⟨s1, h3, h4, -⟩ := pop_lowest_concat h
        refine ⟨s1, some z.addr, h3, ?_⟩
        intro c hc
        simp only [Option.some.injEq] at hc
        subst hc
        rw [h4.spine_eq]
        exact h.not_mem_of_pop_lowest
    · exact ⟨st, none, pop_invalid st which h0 h1, by simp⟩

/-- On the queue holding 42 above 41, an insert of 41 with rejection returns 0 and
leaves the state as it was; an insert of 43 with rejection returns 1 and the
keys become 43, 42, 41. -/
theorem reject_two_inserts :
    linkedKeys (stateAfter two_inserts 0) = [42, 41] ∧
    pipeline_insert 2 (stateAfter two_inserts 0) (some 96) 3 41 1 =
      .ok (stateAfter two_inserts 0, 0) ∧
    (pipeline_insert 2 (stateAfter two_inserts 0) (some 96) 3 43 1).map
      (fun r => (linkedKeys r.1, r.2)) = .ok ([43, 42, 41], 1) := by
  decide

/-! ## Claims -/

/-- C1. Insert any finite sequence of keys into the empty queue with duplicates
allowed (calloc answering each call with a fresh block): every call returns 1;
the loop popping `OQ_LOWEST` until null then terminates and yields exactly the
inserted keys, as a multiset, in non-decreasing order; the loop popping
`OQ_HIGHEST` instead yields them in non-increasing order. -/
theorem drain_after_inserts (xs : List (Nat × Nat × Int)) (fuel n : Nat)
    (hf : xs.length ≤ fuel) (hn : xs.length < n)
    (hv : ValidRun fuel State.init (insertCalls xs 0)) :
    ∃ st, run fuel State.init (insertCalls xs 0) = .ok (st, xs.map (fun _ => Ret.inserted 1)) ∧
      (∃ out st1, drain OQ_LOWEST n st = .ok (out, st1) ∧
        (out.map Prod.fst).Perm (xs.map (fun x => x.2.2)) ∧
        (out.map Prod.fst).Pairwise (fun a b => a ≤ b)) ∧
      (∃ out st1, drain OQ_HIGHEST n st = .ok (out, st1) ∧
        (out.map Prod.fst).Perm (xs.map (fun x => x.2.2)) ∧
        (out.map Prod.fst).Pairwise (fun a b => a ≥ b)) := by
  obtain ⟨st, l, h1, h2, h3⟩ := run_inserts_allow xs wellFormed_init fuel (by simpa using hf) hv
  have hlen : l.length = xs.length := by simpa using h3.length_eq
  have hkeys : (l.map Entry.num).Perm (xs.map (fun x => x.2.2)) := by
    have := h3.map Entry.num
    simpa [entryOf, List.map_map, Function.comp_def] using this
  have hsort : (l.map Entry.num).Pairwise (fun a b => a ≥ b) := by
    rw [List.pairwise_map]; exact h2.2.2.2.2.2.2
  obtain ⟨sL, hL, -⟩ := drain_lowest h2 n (by omega)
  obtain ⟨sH, hH, -⟩ := drain_highest h2 n (by omega)
  refine ⟨st, h1, ⟨_, sL, hL, ?_, ?_⟩, ⟨_, sH, hH, ?_, ?_⟩⟩
  · simp only [List.map_map, Function.comp_def]
    rw [List.map_reverse]
    exact (List.reverse_perm _).trans hkeys
  · simp only [List.map_map, Function.comp_def]
    rw [List.map_reverse, List.pairwise_reverse]
    exact hsort
  · simpa [List.map_map, Function.comp_def] using hkeys
  · simpa [List.map_map, Function.comp_def] using hsort

/-- C1 witness. The test sequence with duplicates allowed. -/
theorem drain_after_inserts_witness :
    test_sequence.length ≤ 9 ∧ test_sequence.length < 10 ∧
    ValidRun 9 State.init (insertCalls test_sequence 0) ∧
    ∃ st, run 9 State.init (insertCalls test_sequence 0) =
        .ok (st, test_sequence.map (fun _ => Ret.inserted 1)) ∧
      (∃ out st1, drain OQ_LOWEST 10 st = .ok (out, st1) ∧
        (out.map Prod.fst).Perm (test_sequence.map (fun x => x.2.2)) ∧
        (out.map Prod.fst).Pairwise (fun a b => a ≤ b)) ∧
      (∃ out st1, drain OQ_HIGHEST 10 st = .ok (out, st1) ∧
        (out.map Prod.fst).Perm (test_sequence.map (fun x => x.2.2)) ∧
        (out.map Prod.fst).Pairwise (fun a b => a ≥ b)) :=
  ⟨by decide, by decide, by decide,
    drain_after_inserts test_sequence 9 10 (by decide) (by decide) (by decide)⟩

/-- C2. In a reachable state, with calloc answering a fresh block and fuel for the
walk, `pipeline_insert` with `reject_dupes != 0` returns, its result is 1 or 0,
and it is 1 exactly when no linked node carries the key and 0 exactly when one
does. When it returns 1 the key is linked afterwards, the linked keys being the
old ones and the new one; when it returns 0 the state is as it was. On the
queue holding 42 above 41, inserting 41 returns 0 and inserting 43 returns 1. -/
theorem pipeline_insert_reject_iff (st : State) (h : Reachable st) (p : Nat)
    (hp : Fresh st.mem p) (fuel : Nat) (hf : st.g_count ≤ fuel) (pkg : Nat) (k : Int)
    (reject_dupes : Int) (hrej : reject_dupes ≠ 0) :
    (∃ st1 r, pipeline_insert fuel st (some p) pkg k reject_dupes = .ok (st1, r) ∧
      (r = 1 ∨ r = 0) ∧ (r = 1 ↔ k ∉ linkedKeys st) ∧ (r = 0 ↔ k ∈ linkedKeys st) ∧
      (r = 1 → (linkedKeys st1).Perm (k :: linkedKeys st)) ∧ (r = 0 → st1 = st)) ∧
    (linkedKeys (stateAfter two_inserts 0) = [42, 41] ∧
      pipeline_insert 2 (stateAfter two_inserts 0) (some 96) 3 41 1 =
        .ok (stateAfter two_inserts 0, 0) ∧
      (pipeline_insert 2 (stateAfter two_inserts 0) (some 96) 3 43 1).map
        (fun r => (linkedKeys r.1, r.2)) = .ok ([43, 42, 41], 1)) := by
  refine ⟨?_, reject_two_inserts⟩
  obtain ⟨l, hl⟩ := h.wellFormed
  obtain ⟨h1, h2⟩ := insert_spec hl hp fuel (by rw [← hl.2.2.2.1]; exact hf) pkg k reject_dupes
  have hiff := rejects_iff hl.2.2.2.2.2.2 k reject_dupes
  have hmem : k ∈ linkedKeys st ↔ ∃ e ∈ l, e.num = k := by
    rw [hl.linkedKeys_eq]; simp
  by_cases hr : Rejects (notAbove k l) k reject_dupes
  · have hk : k ∈ linkedKeys st := hmem.2 (hiff.1 hr).2
    exact ⟨st, 0, h1 hr, Or.inr rfl, by simp [hk], by simp [hk], by simp, fun _ => rfl⟩
  · have hk : k ∉ linkedKeys st := fun hc => hr (hiff.2 ⟨hrej, hmem.1 hc⟩)
    obtain ⟨st1, h3, h4, -⟩ := h2 hr
    refine ⟨st1, 1, h3, Or.inl rfl, by simp [hk], by simp [hk], fun _ => ?_, by simp⟩
    rw [h4.linkedKeys_eq, hl.linkedKeys_eq]
    have hsplit := above_append_notAbove k l
    generalize above k l = hi at hsplit
    generalize notAbove k l = lo at hsplit
    subst hsplit
    simp only [List.map_append, List.map_cons]
    exact List.perm_middle

/-- C2 witness. Key 41 is linked after the two inserts, and a third insert of 41
with rejection is made into the fresh block 96. -/
theorem pipeline_insert_reject_iff_witness :
    Reachable (stateAfter two_inserts 0) ∧ Fresh (stateAfter two_inserts 0).mem 96 ∧
    (stateAfter two_inserts 0).g_count ≤ 2 ∧ (1 : Int) ≠ 0 ∧
    ((∃ st1 r, pipeline_insert 2 (stateAfter two_inserts 0) (some 96) 3 41 1 = .ok (st1, r) ∧
      (r = 1 ∨ r = 0) ∧ (r = 1 ↔ (41 : Int) ∉ linkedKeys (stateAfter two_inserts 0)) ∧
      (r = 0 ↔ (41 : Int) ∈ linkedKeys (stateAfter two_inserts 0)) ∧
      (r = 1 → (linkedKeys st1).Perm (41 :: linkedKeys (stateAfter two_inserts 0))) ∧
      (r = 0 → st1 = stateAfter two_inserts 0)) ∧
    (linkedKeys (stateAfter two_inserts 0) = [42, 41] ∧
      pipeline_insert 2 (stateAfter two_inserts 0) (some 96) 3 41 1 =
        .ok (stateAfter two_inserts 0, 0) ∧
      (pipeline_insert 2 (stateAfter two_inserts 0) (some 96) 3 43 1).map
        (fun r => (linkedKeys r.1, r.2)) = .ok ([43, 42, 41], 1))) :=
  ⟨reachable_stateAfter two_inserts 0 (by decide), by decide, by decide, by decide,
    pipeline_insert_reject_iff (stateAfter two_inserts 0)
      (reachable_stateAfter two_inserts 0 (by decide)) 96 (by decide) 2 (by decide) 3 41 1
      (by decide)⟩

/-- C3. Whenever `pipeline_insert` returns 0, the state after the call is the state
before it: `g_highest`, `g_lowest`, `g_count` and the whole node heap, hence
every field of every linked node, are as they were. -/
theorem pipeline_insert_rejected_state (fuel : Nat) (st st1 : State) (a : Option Nat) (pkg : Nat)
    (num : Int) (reject_dupes : Int) (hv : (Call.insert a pkg num reject_dupes).Valid st)
    (h : pipeline_insert fuel st a pkg num reject_dupes = .ok (st1, 0)) :
    st1 = st := by
  cases a with
  | none =>
    unfold pipeline_insert at h
    cases hg : st.g_highest with
    | none => simp [hg, new_oqnode, bind, Except.bind] at h
    | some hi =>
      simp only [hg, new_oqnode, bind, Except.bind] at h
      cases hf : find_predecessor fuel st num <;> simp [hf] at h
  | some p => exact pipeline_insert_zero hv h

/-- C3 witness. The rejected insert of key 41 after the two inserts. -/
theorem pipeline_insert_rejected_state_witness :
    (Call.insert (some 96) 3 41 1).Valid (stateAfter two_inserts 0) ∧
    pipeline_insert 2 (stateAfter two_inserts 0) (some 96) 3 41 1 =
      .ok (stateAfter two_inserts 0, 0) ∧
    stateAfter two_inserts 0 = stateAfter two_inserts 0 :=
  ⟨by decide, by decide,
    pipeline_insert_rejected_state 2 (stateAfter two_inserts 0) (stateAfter two_inserts 0)
      (some 96) 3 41 1 (by decide) (by decide)⟩

/-- C4. On a well-formed state, `pipeline_pop` at an edge of the empty queue returns
null and leaves the state as it is; on a non-empty queue `OQ_HIGHEST` returns the
node `g_highest` pointed to, whose key is a maximum of the linked keys, and
`OQ_LOWEST` returns the node `g_lowest` pointed to, whose key is a minimum; the
spine afterwards is the old spine without its first (resp. last) node, and the
state is well-formed again. -/
theorem pipeline_pop_edge (st : State) (l : List Entry) (h : WellFormed st l) :
    (spine st = [] →
      pipeline_pop st OQ_HIGHEST = .ok (st, none) ∧ pipeline_pop st OQ_LOWEST = .ok (st, none)) ∧
    (spine st ≠ [] →
      (∃ st1 p nd, pipeline_pop st OQ_HIGHEST = .ok (st1, some p) ∧ st.g_highest = some p ∧
        st.mem.get p = some nd ∧ (∀ k ∈ linkedKeys st, k ≤ nd.num) ∧
        spine st1 = (spine st).tail ∧ WellFormed st1 l.tail) ∧
      (∃ st1 p nd, pipeline_pop st OQ_LOWEST = .ok (st1, some p) ∧ st.g_lowest = some p ∧
        st.mem.get p = some nd ∧ (∀ k ∈ linkedKeys st, nd.num ≤ k) ∧
        spine st1 = (spine st).dropLast ∧ WellFormed st1 l.dropLast)) := by
  have hsp := h.spine_eq
  constructor
  · intro h0
    rw [hsp] at h0
    have : l = [] := by simpa using h0
    subst this
    exact ⟨pop_empty h _, pop_empty h _⟩
  · intro h0
    rw [hsp] at h0
    have hne : l ≠ [] := by simpa using h0
    constructor
    · cases l with
      | nil => exact absurd rfl hne
      | cons e t =>
        obtain ⟨st1, h1, h2, -⟩ := pop_highest_cons h
        obtain ⟨nd, hnd, -, hnum⟩ := h.node_of_mem (List.mem_cons_self e t)
        refine ⟨st1, e.addr, nd, h1, h.2.1, hnd, ?_, ?_, h2⟩
        · rw [hnum]; exact h.key_le_head
        · rw [hsp, h2.spine_eq]; rfl
    · rcases List.eq_nil_or_concat l with rfl | ⟨xs, z, rfl⟩
      · exact absurd rfl hne
      · simp only [List.concat_eq_append] at h hsp ⊢
        obtain ⟨st1, h1, h2, -⟩ := pop_lowest_concat h
        obtain ⟨nd, hnd, -, hnum⟩ := h.node_of_mem (e := z) (by simp)
        refine ⟨st1, z.addr, nd, h1, ?_, hnd, ?_, ?_, ?_⟩
        · rw [h.2.2.1, lastAddr_append]; rfl
        · rw [hnum]; exact h.last_le_key
        · rw [hsp, h2.spine_eq]; simp
        · simpa using h2

/-- C4 witness. The queue holding 42 above 41. -/
theorem pipeline_pop_edge_witness :
    WellFormed (stateAfter two_inserts 0) [⟨64, 2, 42⟩, ⟨32, 1, 41⟩] ∧
    ((spine (stateAfter two_inserts 0) = [] →
      pipeline_pop (stateAfter two_inserts 0) OQ_HIGHEST = .ok (stateAfter two_inserts 0, none) ∧
      pipeline_pop (stateAfter two_inserts 0) OQ_LOWEST = .ok (stateAfter two_inserts 0, none)) ∧
    (spine (stateAfter two_inserts 0) ≠ [] →
      (∃ st1 p nd, pipeline_pop (stateAfter two_inserts 0) OQ_HIGHEST = .ok (st1, some p) ∧
        (stateAfter two_inserts 0).g_highest = some p ∧
        (stateAfter two_inserts 0).mem.get p = some nd ∧
        (∀ k ∈ linkedKeys (stateAfter two_inserts 0), k ≤ nd.num) ∧
        spine st1 = (spine (stateAfter two_inserts 0)).tail ∧
        WellFormed st1 [⟨64, 2, 42⟩, ⟨32, 1, 41⟩].tail) ∧
      (∃ st1 p nd, pipeline_pop (stateAfter two_inserts 0) OQ_LOWEST = .ok (st1, some p) ∧
        (stateAfter two_inserts 0).g_lowest = some p ∧
        (stateAfter two_inserts 0).mem.get p = some nd ∧
        (∀ k ∈ linkedKeys (stateAfter two_inserts 0), nd.num ≤ k) ∧
        spine st1 = (spine (stateAfter two_inserts 0)).dropLast ∧
        WellFormed st1 [⟨64, 2, 42⟩, ⟨32, 1, 41⟩].dropLast))) :=
  ⟨by decide, pipeline_pop_edge (stateAfter two_inserts 0) [⟨64, 2, 42⟩, ⟨32, 1, 41⟩] (by decide)⟩

/-- C5. Take any sequence of calls made from the load-time state, calloc and the
caller keeping their contracts.  With fuel for the walks and calloc never
answering null, the calls return.  Whenever they return, `pipeline_count` is the
number of inserts that returned 1 minus the number of pops that returned a node,
and it is the number of nodes on the spine; and in the state reached, an insert
that returns 0, a pop on the empty queue and a pop with an edge other than
`OQ_LOWEST` and `OQ_HIGHEST` leave `pipeline_count` as it is. -/
theorem pipeline_count_conservation (fuel : Nat) (cs : List Call)
    (hv : ValidRun fuel State.init cs) :
    (cs.length ≤ fuel → (∀ c ∈ cs, c.answered) →
      ∃ st rs, run fuel State.init cs = .ok (st, rs)) ∧
    ∀ st rs, run fuel State.init cs = .ok (st, rs) →
      pipeline_count st = (inserts_ok rs : Int) - (pops_ok rs : Int) ∧
      pipeline_count st = ((spine st).length : Int) ∧
      (∀ f st1 p pkg num rej, Fresh st.mem p →
        pipeline_insert f st (some p) pkg num rej = .ok (st1, 0) →
        pipeline_count st1 = pipeline_count st) ∧
      (spine st = [] → ∀ which, ∃ st1, pipeline_pop st which = .ok (st1, none) ∧
        pipeline_count st1 = pipeline_count st) ∧
      (∀ which, which ≠ OQ_LOWEST → which ≠ OQ_HIGHEST →
        ∃ st1, pipeline_pop st which = .ok (st1, none) ∧
          pipeline_count st1 = pipeline_count st) := by
  constructor
  · intro hf ha
    exact wellFormed_init.run_returns cs (by simpa using hf) hv ha
  intro st rs hr
  obtain ⟨l, hl, hcount⟩ := wellFormed_init.run_count cs hv hr
  refine ⟨?_, ?_, ?_, ?_, ?_⟩
  · rw [hl.count_eq]
    simp at hcount
    omega
  · rw [hl.count_eq, hl.spine_eq]; simp
  · intro f st1 p pkg num rej hp hins
    rw [pipeline_insert_zero hp hins]
  · intro h0 which
    rw [hl.spine_eq] at h0
    have : l = [] := by simpa using h0
    subst this
    exact ⟨st, pop_empty hl which, rfl⟩
  · intro which h0 h1
    exact ⟨st, pop_invalid st which h0 h1, rfl⟩

/-- C5 witness. The mixed call sequence. -/
theorem pipeline_count_conservation_witness :
    ValidRun 9 State.init mixed_calls ∧
    ((mixed_calls.length ≤ 9 → (∀ c ∈ mixed_calls, c.answered) →
      ∃ st rs, run 9 State.init mixed_calls = .ok (st, rs)) ∧
    ∀ st rs, run 9 State.init mixed_calls = .ok (st, rs) →
      pipeline_count st = (inserts_ok rs : Int) - (pops_ok rs : Int) ∧
      pipeline_count st = ((spine st).length : Int) ∧
      (∀ f st1 p pkg num rej, Fresh st.mem p →
        pipeline_insert f st (some p) pkg num rej = .ok (st1, 0) →
        pipeline_count st1 = pipeline_count st) ∧
      (spine st = [] → ∀ which, ∃ st1, pipeline_pop st which = .ok (st1, none) ∧
        pipeline_count st1 = pipeline_count st) ∧
      (∀ which, which ≠ OQ_LOWEST → which ≠ OQ_HIGHEST →
        ∃ st1, pipeline_pop st which = .ok (st1, none) ∧
          pipeline_count st1 = pipeline_count st)) :=
  ⟨by decide, pipeline_count_conservation 9 mixed_calls (by decide)⟩

/-- C6 counterexample. With the linked keys `2^62` and `-2^62` (a reachable state)
the maximum linked key minus the minimum linked key is `2^63`, and
`pipeline_span` returns `-2^63`. -/
theorem pipeline_span_not_max_minus_min :
    Reachable (stateAfter half_range_pair 0) ∧
    linkedKeys (stateAfter half_range_pair 0) = [4611686018427387904, -4611686018427387904] ∧
    (4611686018427387904 : Int) - (-4611686018427387904) = 9223372036854775808 ∧
    pipeline_span (stateAfter half_range_pair 0) = .ok (-9223372036854775808) ∧
    pipeline_span (stateAfter half_range_pair 0) ≠
      .ok ((4611686018427387904 : Int) - (-4611686018427387904)) :=
  ⟨reachable_stateAfter half_range_pair 0 (by decide), by decide, by decide, by decide,
    by decide⟩

/-- C6. In a reachable state `pipeline_span` returns 0 when the queue is empty;
otherwise it returns the maximum linked key minus the minimum linked key, the
subtraction being that of `long` (two's complement, 64 bits), which is the exact
difference whenever that difference is below `2^63`. After the test sequence
with duplicates allowed the span is 2; after inserting the single key 7 it is
0. -/
theorem pipeline_span_spec (st : State) (h : Reachable st) :
    ((spine st = [] → pipeline_span st = .ok 0) ∧
    (spine st ≠ [] → ∃ hi lo, hi ∈ linkedKeys st ∧ lo ∈ linkedKeys st ∧
      (∀ k ∈ linkedKeys st, lo ≤ k ∧ k ≤ hi) ∧
      pipeline_span st = .ok (wrap_long (hi - lo)) ∧
      (hi - lo < 2 ^ 63 → pipeline_span st = .ok (hi - lo)))) ∧
    (pipeline_span (stateAfter test_sequence 0) = .ok 2 ∧
      pipeline_span (stateAfter [(32, 1, 7)] 0) = .ok 0) := by
  refine ⟨?_, span_test_sequence.1, span_test_sequence.2.2.1⟩
  obtain ⟨l, hl⟩ := h.wellFormed
  rw [hl.spine_eq, hl.linkedKeys_eq]
  constructor
  · intro h0
    have : l = [] := by simpa using h0
    subst this
    have hhi : st.g_highest = none := hl.2.1
    simp [pipeline_span, hhi, pure, Except.pure]
  · intro h0
    cases l with
    | nil => simp at h0
    | cons e t =>
      obtain ⟨z, hz, hmin, hspan⟩ := hl.span
      have hmax : ∀ x ∈ e :: t, x.num ≤ e.num := by
        intro x hx
        rcases List.mem_cons.1 hx with rfl | ht
        · exact le_refl _
        · exact (List.pairwise_cons.1 hl.2.2.2.2.2.2).1 x ht
      refine ⟨e.num, z.num, List.mem_map_of_mem _ (List.mem_cons_self _ _),
        List.mem_map_of_mem _ hz, ?_, hspan, ?_⟩
      · intro k hk
        obtain ⟨x, hx, rfl⟩ := List.mem_map.1 hk
        exact ⟨hmin x hx, hmax x hx⟩
      · intro hlt
        rw [hspan, wrap_long_of_range (by have := hmin e (List.mem_cons_self _ _); omega) hlt]

/-- C6 witness. The state after the test sequence with duplicates allowed. -/
theorem pipeline_span_spec_witness :
    Reachable (stateAfter test_sequence 0) ∧
    (((spine (stateAfter test_sequence 0) = [] →
      pipeline_span (stateAfter test_sequence 0) = .ok 0) ∧
    (spine (stateAfter test_sequence 0) ≠ [] →
      ∃ hi lo, hi ∈ linkedKeys (stateAfter test_sequence 0) ∧
        lo ∈ linkedKeys (stateAfter test_sequence 0) ∧
        (∀ k ∈ linkedKeys (stateAfter test_sequence 0), lo ≤ k ∧ k ≤ hi) ∧
        pipeline_span (stateAfter test_sequence 0) = .ok (wrap_long (hi - lo)) ∧
        (hi - lo < 2 ^ 63 → pipeline_span (stateAfter test_sequence 0) = .ok (hi - lo)))) ∧
    (pipeline_span (stateAfter test_sequence 0) = .ok 2 ∧
      pipeline_span (stateAfter [(32, 1, 7)] 0) = .ok 0)) :=
  ⟨reachable_stateAfter test_sequence 0 (by decide),
    pipeline_span_spec (stateAfter test_sequence 0)
      (reachable_stateAfter test_sequence 0 (by decide))⟩

/-- C7. Insert any finite sequence of keys into the empty queue with
`reject_dupes = 1` on every call (calloc answering each call with a fresh block):
the final count is the number of distinct keys; the loop popping `OQ_LOWEST`
until null yields every distinct key once, in strictly ascending order, and the
loop popping `OQ_HIGHEST` yields every distinct key once, in strictly descending
order. -/
theorem drain_after_inserts_reject (xs : List (Nat × Nat × Int)) (fuel n : Nat)
    (hf : xs.length ≤ fuel) (hn : xs.length < n)
    (hv : ValidRun fuel State.init (insertCalls xs 1)) :
    ∃ st rets, run fuel State.init (insertCalls xs 1) = .ok (st, rets) ∧
      pipeline_count st = ((xs.map (fun x => x.2.2)).dedup).length ∧
      (∃ out st1, drain OQ_LOWEST n st = .ok (out, st1) ∧
        (out.map Prod.fst).Pairwise (fun a b => a < b) ∧
        ∀ k, k ∈ out.map Prod.fst ↔ k ∈ xs.map (fun x => x.2.2)) ∧
      (∃ out st1, drain OQ_HIGHEST n st = .ok (out, st1) ∧
        (out.map Prod.fst).Pairwise (fun a b => a > b) ∧
        ∀ k, k ∈ out.map Prod.fst ↔ k ∈ xs.map (fun x => x.2.2)) := by
  obtain ⟨st, rets, l, h1, h2, h3, h4⟩ := run_inserts_reject xs 1 (by decide)
    wellFormed_init List.Pairwise.nil fuel (by simpa using hf) hv
  have hkeys : ∀ k, k ∈ l.map Entry.num ↔ k ∈ xs.map (fun x => x.2.2) := by
    intro k; rw [h4 k]; simp
  have hsort : (l.map Entry.num).Pairwise (fun a b => a > b) := by
    rw [List.pairwise_map]; exact h3
  have hnd : (l.map Entry.num).Nodup := hsort.imp (fun h => (ne_of_lt h).symm)
  have hcard : l.length = ((xs.map (fun x => x.2.2)).dedup).length := by
    rw [← List.card_toFinset, ← List.length_map l Entry.num, ← List.toFinset_card_of_nodup hnd]
    congr 1
    ext k
    simp only [List.mem_toFinset]
    exact hkeys k
  have hlen : l.length ≤ xs.length := by
    rw [hcard]
    exact le_trans (List.Sublist.length_le (List.dedup_sublist _)) (by simp)
  obtain ⟨sL, hL, -⟩ := drain_lowest h2 n (by omega)
  obtain ⟨sH, hH, -⟩ := drain_highest h2 n (by omega)
  refine ⟨st, rets, h1, ?_, ⟨_, sL, hL, ?_, ?_⟩, ⟨_, sH, hH, ?_, ?_⟩⟩
  · rw [h2.count_eq, hcard]
  · simp only [List.map_map, Function.comp_def]
    rw [List.map_reverse, List.pairwise_reverse]
    exact hsort
  · intro k
    simp only [List.map_map, Function.comp_def]
    rw [List.map_reverse, List.mem_reverse]
    exact hkeys k
  · simpa [List.map_map, Function.comp_def] using hsort
  · intro k
    simpa [List.map_map, Function.comp_def] using hkeys k

/-- C7 witness. The test sequence with duplicates rejected. -/
theorem drain_after_inserts_reject_witness :
    test_sequence.length ≤ 9 ∧ test_sequence.length < 10 ∧
    ValidRun 9 State.init (insertCalls test_sequence 1) ∧
    ∃ st rets, run 9 State.init (insertCalls test_sequence 1) = .ok (st, rets) ∧
      pipeline_count st = ((test_sequence.map (fun x => x.2.2)).dedup).length ∧
      (∃ out st1, drain OQ_LOWEST 10 st = .ok (out, st1) ∧
        (out.map Prod.fst).Pairwise (fun a b => a < b) ∧
        ∀ k, k ∈ out.map Prod.fst ↔ k ∈ test_sequence.map (fun x => x.2.2)) ∧
      (∃ out st1, drain OQ_HIGHEST 10 st = .ok (out, st1) ∧
        (out.map Prod.fst).Pairwise (fun a b => a > b) ∧
        ∀ k, k ∈ out.map Prod.fst ↔ k ∈ test_sequence.map (fun x => x.2.2)) :=
  ⟨by decide, by decide, by decide,
    drain_after_inserts_reject test_sequence 9 10 (by decide) (by decide) (by decide)⟩

/-- C8. In a reachable state insert `(pkg1, k)` and then `(pkg2, k)` with duplicates
allowed, into blocks `a1` and `a2`.  If no linked key was above `k`, two pops
of `OQ_HIGHEST` return the second node and then the first, carrying `pkg2` and
`pkg1`.  If every linked key was above `k`, two pops of `OQ_LOWEST` return the
first node and then the second, carrying `pkg1` and `pkg2`. -/
theorem equal_keys_pop_order (st : State) (h : Reachable st) (fuel : Nat)
    (hf : st.g_count + 1 ≤ fuel) (a1 a2 pkg1 pkg2 : Nat) (k : Int)
    (hv : ValidRun fuel st [.insert (some a1) pkg1 k 0, .insert (some a2) pkg2 k 0]) :
    ((∀ x ∈ linkedKeys st, x ≤ k) →
      ∃ st4, run fuel st [.insert (some a1) pkg1 k 0, .insert (some a2) pkg2 k 0,
          .pop OQ_HIGHEST, .pop OQ_HIGHEST] =
          .ok (st4, [.inserted 1, .inserted 1, .popped (some a2), .popped (some a1)]) ∧
        st4.mem.get a2 = some ⟨pkg2, k, none, none⟩ ∧
        st4.mem.get a1 = some ⟨pkg1, k, none, none⟩) ∧
    ((∀ x ∈ linkedKeys st, k < x) →
      ∃ st4, run fuel st [.insert (some a1) pkg1 k 0, .insert (some a2) pkg2 k 0,
          .pop OQ_LOWEST, .pop OQ_LOWEST] =
          .ok (st4, [.inserted 1, .inserted 1, .popped (some a1), .popped (some a2)]) ∧
        st4.mem.get a1 = some ⟨pkg1, k, none, none⟩ ∧
        st4.mem.get a2 = some ⟨pkg2, k, none, none⟩) := by
  obtain ⟨l, hl⟩ := h.wellFormed
  have hlen : l.length + 1 ≤ fuel := by rw [← hl.2.2.2.1]; exact hf
  rw [hl.linkedKeys_eq]
  obtain ⟨hv1, hv2⟩ := hv
  constructor
  · intro hmax
    obtain ⟨st1, i1, w1, -⟩ := insert_allow_split [] l hl hv1 fuel
      (by simp; omega) pkg1 k (by simp)
      (fun y hy => hmax _ (List.mem_map_of_mem _ (List.mem_of_mem_head? hy)))
    rw [exec_insert_ok i1] at hv2
    obtain ⟨st2, i2, w2, -⟩ := insert_allow_split [] (⟨a1, pkg1, k⟩ :: l) w1 hv2.1
      fuel (by simp; omega) pkg2 k (by simp) (by intro y hy; simp at hy; subst hy; exact le_refl _)
    simp only [List.nil_append] at w1 w2
    obtain ⟨st3, p1, w3, g1, fr1⟩ := pop_highest_cons w2
    obtain ⟨st4, p2, w4, g2, fr2⟩ := pop_highest_cons w3
    have hap := w2.2.2.2.2.1
    have hne : a2 ≠ a1 := ((List.pairwise_cons.1 hap).1 _ (List.mem_cons_self _ _)).ne
    have hnl : ∀ e ∈ l, e.addr ≠ a2 := fun e he =>
      ((List.pairwise_cons.1 hap).1 e (List.mem_cons_of_mem _ he)).symm.ne
    refine ⟨st4, ?_, ?_, g2⟩
    · exact run_cons_ok (exec_insert_ok i1) (run_cons_ok (exec_insert_ok i2)
        (run_cons_ok (exec_pop_ok p1) (run_cons_ok (exec_pop_ok p2) rfl)))
    · rw [fr2 a2 hne (headAddr_ne_of_not_mem hnl)]
      exact g1
  · intro hmin
    obtain ⟨st1, i1, w1, -⟩ := insert_allow_split l [] (by simpa using hl) hv1 fuel
      (by simp; omega) pkg1 k
      (fun x hx => hmin _ (List.mem_map_of_mem _ hx)) (by simp)
    rw [exec_insert_ok i1] at hv2
    obtain ⟨st2, i2, w2, -⟩ := insert_allow_split l [⟨a1, pkg1, k⟩] w1 hv2.1
      fuel (by simp; omega) pkg2 k (fun x hx => hmin _ (List.mem_map_of_mem _ hx))
      (by intro y hy; simp at hy; subst hy; exact le_refl _)
    have w2a : WellFormed st2 ((l ++ [⟨a2, pkg2, k⟩]) ++ [⟨a1, pkg1, k⟩]) := by simpa using w2
    obtain ⟨st3, p1, w3, g1, fr1⟩ := pop_lowest_concat w2a
    obtain ⟨st4, p2, w4, g2, fr2⟩ := pop_lowest_concat w3
    have hap := List.pairwise_append.1 w2a.2.2.2.2.1
    have hne : a1 ≠ a2 := (hap.2.2 ⟨a2, pkg2, k⟩ (by simp) ⟨a1, pkg1, k⟩ (by simp)).symm.ne
    have hnl : ∀ e ∈ l, e.addr ≠ a1 := fun e he =>
      (hap.2.2 e (by simp [he]) ⟨a1, pkg1, k⟩ (by simp)).ne
    refine ⟨st4, ?_, ?_, g2⟩
    · exact run_cons_ok (exec_insert_ok i1) (run_cons_ok (exec_insert_ok i2)
        (run_cons_ok (exec_pop_ok p1) (run_cons_ok (exec_pop_ok p2) rfl)))
    · rw [fr2 a1 hne (lastAddr_ne_of_not_mem hnl)]
      exact g1

/-- C8 witness. Key 41 inserted twice into the empty queue. -/
theorem equal_keys_pop_order_witness :
    Reachable State.init ∧ State.init.g_count + 1 ≤ 2 ∧
    ValidRun 2 State.init [.insert (some 32) 1 41 0, .insert (some 64) 2 41 0] ∧
    (((∀ x ∈ linkedKeys State.init, x ≤ 41) →
      ∃ st4, run 2 State.init [.insert (some 32) 1 41 0, .insert (some 64) 2 41 0,
          .pop OQ_HIGHEST, .pop OQ_HIGHEST] =
          .ok (st4, [.inserted 1, .inserted 1, .popped (some 64), .popped (some 32)]) ∧
        st4.mem.get 64 = some ⟨2, 41, none, none⟩ ∧
        st4.mem.get 32 = some ⟨1, 41, none, none⟩) ∧
    ((∀ x ∈ linkedKeys State.init, 41 < x) →
      ∃ st4, run 2 State.init [.insert (some 32) 1 41 0, .insert (some 64) 2 41 0,
          .pop OQ_LOWEST, .pop OQ_LOWEST] =
          .ok (st4, [.inserted 1, .inserted 1, .popped (some 32), .popped (some 64)]) ∧
        st4.mem.get 32 = some ⟨1, 41, none, none⟩ ∧
        st4.mem.get 64 = some ⟨2, 41, none, none⟩)) :=
  ⟨Reachable.init, by decide, by decide,
    equal_keys_pop_order State.init Reachable.init 2 (by decide) 32 64 1 2 41 (by decide)⟩

/-- C9. In a reachable state, inserting with duplicates allowed a key `k` that some
linked node carries puts the new node immediately above the highest-positioned
node with key `k`: the spine was `hi ++ t :: lo` with `t` carrying `k` and every
node of `hi` a key above `k`, it becomes `hi ++ p :: t :: lo`, and the `lower`
link of the new node `p` is `t`.  Hence, whatever history of calls led to the
state, if its insert calls carried increasing payload handles then linked nodes
sharing a key carry decreasing handles from top to bottom: the most recently
inserted comes first. After the test sequence with duplicates allowed the
linked (key, payload) pairs are (43, 7), (43, 6), (42, 8), (42, 4), (42, 3),
(41, 9), (41, 5), (41, 2), (41, 1), and a further insert of 42 into block 320
lands directly above block 256, the topmost 42. -/
theorem insert_tie_placement (st : State) (h : Reachable st) (f p pkg : Nat) (k : Int)
    (hp : Fresh st.mem p) (hf : st.g_count ≤ f) (hk : k ∈ linkedKeys st) :
    (∃ st1 hi t lo nt, pipeline_insert f st (some p) pkg k 0 = .ok (st1, 1) ∧
      spine st = hi ++ t :: lo ∧ st.mem.get t = some nt ∧ nt.num = k ∧
      (∀ q ∈ hi, ∀ nq, st.mem.get q = some nq → k < nq.num) ∧
      spine st1 = hi ++ p :: t :: lo ∧
      st1.mem.get p = some ⟨pkg, k, some t, hi.getLast?⟩) ∧
    (∀ fuel cs rs, ValidRun fuel State.init cs → run fuel State.init cs = .ok (st, rs) →
      (payloads cs).Pairwise (fun a b => a < b) →
      (linked st).Pairwise (fun a b => a.num = b.num → b.pkg < a.pkg)) ∧
    ((linked (stateAfter test_sequence 0)).map (fun nd => (nd.num, nd.pkg)) =
        [(43, 7), (43, 6), (42, 8), (42, 4), (42, 3), (41, 9), (41, 5), (41, 2), (41, 1)] ∧
      spine (stateAfter test_sequence 0) = [224, 192, 256, 128, 96, 288, 160, 64, 32] ∧
      (pipeline_insert 9 (stateAfter test_sequence 0) (some 320) 10 42 0).map
          (fun r => (spine r.1, r.1.mem.get 320, r.2)) =
        .ok ([224, 192, 320, 256, 128, 96, 288, 160, 64, 32],
          some ⟨10, 42, some 256, some 192⟩, 1)) := by
  refine ⟨?_, ?_, linked_test_sequence, insert_tie_test_sequence⟩
  · obtain ⟨l, hl⟩ := h.wellFormed
    exact hl.insert_tie hp f hf pkg k hk
  · intro fuel cs rs hv hr hser
    obtain ⟨l, hl, hp⟩ := wellFormed_init.run_recency cs hv hr hser List.Pairwise.nil
      (by intro e he; cases he)
    exact hl.linked_pairwise hp

/-- C9 witness. After the test sequence with duplicates allowed, a further insert of
the linked key 42 with payload 10 into the fresh block 320. -/
theorem insert_tie_placement_witness :
    Reachable (stateAfter test_sequence 0) ∧
    Fresh (stateAfter test_sequence 0).mem 320 ∧
    (stateAfter test_sequence 0).g_count ≤ 9 ∧
    (42 : Int) ∈ linkedKeys (stateAfter test_sequence 0) ∧
    ((∃ st1 hi t lo nt,
      pipeline_insert 9 (stateAfter test_sequence 0) (some 320) 10 42 0 = .ok (st1, 1) ∧
      spine (stateAfter test_sequence 0) = hi ++ t :: lo ∧
      (stateAfter test_sequence 0).mem.get t = some nt ∧ nt.num = 42 ∧
      (∀ q ∈ hi, ∀ nq, (stateAfter test_sequence 0).mem.get q = some nq → 42 < nq.num) ∧
      spine st1 = hi ++ 320 :: t :: lo ∧
      st1.mem.get 320 = some ⟨10, 42, some t, hi.getLast?⟩) ∧
    (∀ fuel cs rs, ValidRun fuel State.init cs →
      run fuel State.init cs = .ok (stateAfter test_sequence 0, rs) →
      (payloads cs).Pairwise (fun a b => a < b) →
      (linked (stateAfter test_sequence 0)).Pairwise
        (fun a b => a.num = b.num → b.pkg < a.pkg)) ∧
    ((linked (stateAfter test_sequence 0)).map (fun nd => (nd.num, nd.pkg)) =
        [(43, 7), (43, 6), (42, 8), (42, 4), (42, 3), (41, 9), (41, 5), (41, 2), (41, 1)] ∧
      spine (stateAfter test_sequence 0) = [224, 192, 256, 128, 96, 288, 160, 64, 32] ∧
      (pipeline_insert 9 (stateAfter test_sequence 0) (some 320) 10 42 0).map
          (fun r => (spine r.1, r.1.mem.get 320, r.2)) =
        .ok ([224, 192, 320, 256, 128, 96, 288, 160, 64, 32],
          some ⟨10, 42, some 256, some 192⟩, 1))) :=
  ⟨reachable_stateAfter test_sequence 0 (by decide), by decide, by decide, by decide,
    insert_tie_placement (stateAfter test_sequence 0)
      (reachable_stateAfter test_sequence 0 (by decide)) 9 320 10 42 (by decide) (by decide)
      (by decide)⟩

/-- C10. On a non-empty well-formed state and a valid edge, the node `pipeline_pop`
returns has both links null, cannot be reached from `g_highest` along `lower`
links nor from `g_lowest` along `higher` links, and no linked node points to
it. -/
theorem pipeline_pop_orphan (st : State) (l : List Entry) (h : WellFormed st l)
    (hne : spine st ≠ []) (which : Int) (hw : which = OQ_HIGHEST ∨ which = OQ_LOWEST) :
    ∃ st1 p nd, pipeline_pop st which = .ok (st1, some p) ∧
      st1.mem.get p = some nd ∧ nd.higher = none ∧ nd.lower = none ∧
      (∀ fuel, p ∉ walk_lower st1.mem fuel st1.g_highest) ∧
      (∀ fuel, p ∉ walk_higher st1.mem fuel st1.g_lowest) ∧
      (∀ q ∈ spine st1, ∀ nq, st1.mem.get q = some nq →
        nq.higher ≠ some p ∧ nq.lower ≠ some p) := by
  rw [h.spine_eq] at hne
  have hne : l ≠ [] := by simpa using hne
  rcases hw with rfl | rfl
  · cases l with
    | nil => exact absurd rfl hne
    | cons e t =>
      obtain ⟨st1, h1, h2, h3, -⟩ := pop_highest_cons h
      have hp : ∀ x ∈ t, x.addr ≠ e.addr := fun x hx =>
        ((List.pairwise_cons.1 h.2.2.2.2.1).1 x hx).symm.ne
      obtain ⟨i1, i2, i3⟩ := h2.isolated hp
      exact ⟨st1, e.addr, _, h1, h3, rfl, rfl, i1, i2, i3⟩
  · rcases List.eq_nil_or_concat l with rfl | ⟨xs, z, rfl⟩
    · exact absurd rfl hne
    · simp only [List.concat_eq_append] at h
      obtain ⟨st1, h1, h2, h3, -⟩ := pop_lowest_concat h
      have hp : ∀ x ∈ xs, x.addr ≠ z.addr := fun x hx =>
        ((List.pairwise_append.1 h.2.2.2.2.1).2.2 x hx z (by simp)).ne
      obtain ⟨i1, i2, i3⟩ := h2.isolated hp
      exact ⟨st1, z.addr, _, h1, h3, rfl, rfl, i1, i2, i3⟩

/-- C10 witness. Popping the top of the queue holding 42 above 41. -/
theorem pipeline_pop_orphan_witness :
    WellFormed (stateAfter two_inserts 0) [⟨64, 2, 42⟩, ⟨32, 1, 41⟩] ∧
    spine (stateAfter two_inserts 0) ≠ [] ∧ (OQ_HIGHEST = OQ_HIGHEST ∨ OQ_HIGHEST = OQ_LOWEST) ∧
    ∃ st1 p nd, pipeline_pop (stateAfter two_inserts 0) OQ_HIGHEST = .ok (st1, some p) ∧
      st1.mem.get p = some nd ∧ nd.higher = none ∧ nd.lower = none ∧
      (∀ fuel, p ∉ walk_lower st1.mem fuel st1.g_highest) ∧
      (∀ fuel, p ∉ walk_higher st1.mem fuel st1.g_lowest) ∧
      (∀ q ∈ spine st1, ∀ nq, st1.mem.get q = some nq →
        nq.higher ≠ some p ∧ nq.lower ≠ some p) :=
  ⟨by decide, by decide, by decide,
    pipeline_pop_orphan (stateAfter two_inserts 0) [⟨64, 2, 42⟩, ⟨32, 1, 41⟩] (by decide)
      (by decide) OQ_HIGHEST (by decide)⟩

/-- C11. Whatever the state, `pipeline_pop` with an edge other than `OQ_LOWEST` and
`OQ_HIGHEST` returns null and the state after the call is the state before it:
`g_highest`, `g_lowest`, `g_count` and every node are as they were. -/
theorem pipeline_pop_invalid_edge (st : State) (which : Int) (h0 : which ≠ OQ_LOWEST)
    (h1 : which ≠ OQ_HIGHEST) : pipeline_pop st which = .ok (st, none) :=
  pop_invalid st which h0 h1

/-- C11 witness. Edge 2 on the queue holding 42 above 41. -/
theorem pipeline_pop_invalid_edge_witness :
    (2 : Int) ≠ OQ_LOWEST ∧ (2 : Int) ≠ OQ_HIGHEST ∧
    pipeline_pop (stateAfter two_inserts 0) 2 = .ok (stateAfter two_inserts 0, none) :=
  ⟨by decide, by decide,
    pipeline_pop_invalid_edge (stateAfter two_inserts 0) 2 (by decide) (by decide)⟩

/-- C12. Take a valid sequence of calls made from the load-time state that
returns. Up to any point `k` of it, the (key, payload) pairs read from the
nodes the pops handed back are, counted with multiplicity, among the argument
pairs of the inserts that had returned 1 by then. At the end, the pairs handed
back together with the pairs still linked are exactly, with multiplicity, the
argument pairs of the inserts that returned 1; and the loop popping either
edge until null returns the pairs still linked, so that every accepted pair is
handed back exactly once. -/
theorem payload_carried (fuel : Nat) (cs : List Call) (st : State) (rs : List Ret) (n k : Nat)
    (hv : ValidRun fuel State.init cs) (hr : run fuel State.init cs = .ok (st, rs))
    (hn : (spine st).length < n) :
    (∃ obs0, observed fuel State.init (cs.take k) = .ok obs0 ∧
      obs0.Subperm (accepted (cs.take k) (rs.take k))) ∧
    ∃ obs, observed fuel State.init cs = .ok obs ∧
      (obs ++ (linked st).map (fun nd => (nd.num, nd.pkg))).Perm (accepted cs rs) ∧
      (∃ out st1, drain OQ_HIGHEST n st = .ok (out, st1) ∧
        out.Perm ((linked st).map (fun nd => (nd.num, nd.pkg))) ∧
        (obs ++ out).Perm (accepted cs rs)) ∧
      (∃ out st1, drain OQ_LOWEST n st = .ok (out, st1) ∧
        out.Perm ((linked st).map (fun nd => (nd.num, nd.pkg))) ∧
        (obs ++ out).Perm (accepted cs rs)) := by
  constructor
  · obtain ⟨s1, h1⟩ := run_take cs k hr
    obtain ⟨l1, obs0, -, ho, hp⟩ := wellFormed_init.run_pairs (cs.take k) (validRun_take cs k hv) h1
    refine ⟨obs0, ho, ?_⟩
    simp only [List.map_nil, List.append_nil] at hp
    exact (List.sublist_append_left obs0 _).subperm.trans hp.subperm
  · obtain ⟨l, obs, hw, ho, hp⟩ := wellFormed_init.run_pairs cs hv hr
    simp only [List.map_nil, List.append_nil] at hp
    rw [hw.spine_eq, List.length_map] at hn
    rw [hw.linked_eq]
    refine ⟨obs, ho, hp, ?_, ?_⟩
    · obtain ⟨s1, hd, -⟩ := drain_highest hw n hn
      exact ⟨_, s1, hd, List.Perm.refl _, hp⟩
    · obtain ⟨s1, hd, -⟩ := drain_lowest hw n hn
      refine ⟨_, s1, hd, ?_, ?_⟩
      · rw [List.map_reverse]; exact List.reverse_perm _
      · rw [List.map_reverse]
        exact (List.Perm.append_left obs (List.reverse_perm _)).trans hp

/-- C12 witness. The calls of `carried_calls`, looked at after the third call and
at the end. -/
theorem payload_carried_witness :
    ValidRun 6 State.init carried_calls ∧
    run 6 State.init carried_calls = .ok (outcome 6 carried_calls) ∧
    (spine (outcome 6 carried_calls).1).length < 2 ∧
    ((∃ obs0, observed 6 State.init (carried_calls.take 3) = .ok obs0 ∧
      obs0.Subperm (accepted (carried_calls.take 3) ((outcome 6 carried_calls).2.take 3))) ∧
    ∃ obs, observed 6 State.init carried_calls = .ok obs ∧
      (obs ++ (linked (outcome 6 carried_calls).1).map (fun nd => (nd.num, nd.pkg))).Perm
        (accepted carried_calls (outcome 6 carried_calls).2) ∧
      (∃ out st1, drain OQ_HIGHEST 2 (outcome 6 carried_calls).1 = .ok (out, st1) ∧
        out.Perm ((linked (outcome 6 carried_calls).1).map (fun nd => (nd.num, nd.pkg))) ∧
        (obs ++ out).Perm (accepted carried_calls (outcome 6 carried_calls).2)) ∧
      (∃ out st1, drain OQ_LOWEST 2 (outcome 6 carried_calls).1 = .ok (out, st1) ∧
        out.Perm ((linked (outcome 6 carried_calls).1).map (fun nd => (nd.num, nd.pkg))) ∧
        (obs ++ out).Perm (accepted carried_calls (outcome 6 carried_calls).2))) :=
  ⟨by decide, by decide, by decide,
    payload_carried 6 carried_calls (outcome 6 carried_calls).1 (outcome 6 carried_calls).2 2 3
      (by decide) (by decide) (by decide)⟩

/-- C13 counterexample. On the test sequence with `reject_dupes = 1` the calls do not
return 1, 0, 1, 0, 0, 1, 0, 1, 0: the eighth call, the third insert of 42,
returns 0 as well, so six calls are rejected and not five. -/
theorem test_sequence_not_five_rejections :
    (run 9 State.init (insertCalls test_sequence 1)).map Prod.snd ≠
      .ok [.inserted 1, .inserted 0, .inserted 1, .inserted 0, .inserted 0, .inserted 1,
        .inserted 0, .inserted 1, .inserted 0] ∧
    ((run 9 State.init (insertCalls test_sequence 1)).map
      (fun x => x.2.count (Ret.inserted 0))) = .ok 6 := by
  decide

/-- C13. Inserting 41, 41, 42, 42, 41, 43, 43, 42, 41 into the empty queue with
`reject_dupes = 1` makes exactly six of the nine calls return 0, the second 41,
the second 42, the third 41, the second 43, the third 42 and the fourth 41, and
the other three calls return 1. -/
theorem test_sequence_six_rejections (fuel : Nat) (hf : 9 ≤ fuel) :
    (run fuel State.init (insertCalls test_sequence 1)).map Prod.snd =
      .ok [.inserted 1, .inserted 0, .inserted 1, .inserted 0, .inserted 0, .inserted 1,
        .inserted 0, .inserted 0, .inserted 0] := by
  have h : run 9 State.init (insertCalls test_sequence 1) =
      .ok (outcome 9 (insertCalls test_sequence 1)) := by decide
  rw [run_mono hf _ h]
  decide

/-- C13 witness. Fuel 9. -/
theorem test_sequence_six_rejections_witness :
    9 ≤ 9 ∧
    (run 9 State.init (insertCalls test_sequence 1)).map Prod.snd =
      .ok [.inserted 1, .inserted 0, .inserted 1, .inserted 0, .inserted 0, .inserted 1,
        .inserted 0, .inserted 0, .inserted 0] :=
  ⟨by decide, test_sequence_six_rejections 9 (by decide)⟩

/-- C14 counterexample. On the queue holding 42 above 41, `pipeline_span` reads
`g_highest` and `g_lowest` for its emptiness test before `PIPELOCK`, and
`pipeline_pop` writes the two links of the node it returns after `PIPEUNLOCK`. -/
theorem lock_not_held_throughout :
    (pipeline_span_events (stateAfter two_inserts 0)).map (fun r => unguarded false r.2) =
      .ok [.read .g_highest, .read .g_lowest] ∧
    (pipeline_pop_events (stateAfter two_inserts 0) OQ_HIGHEST).map
      (fun r => unguarded false r.2) = .ok [.write (.higher 64), .write (.lower 64)] := by
  decide

/-- C14. On a well-formed state, with fuel for the walk and a fresh block from
calloc: `pipeline_insert` returns, and its events are `PIPELOCK`, reads and
writes, `PIPEUNLOCK`, so that none of its accesses is made without the lock,
on the rejecting path too; `pipeline_pop` returns, and the only accesses it
makes without the lock are the two writes clearing the links of the node it
returns, which is then not on the spine; `pipeline_span` returns, and after
the reads of `g_highest` and `g_lowest` of its emptiness test all its accesses,
the reads of the two keys among them, are made with the lock held. -/
theorem lock_discipline (st : State) (l : List Entry) (h : WellFormed st l)
    (fuel p pkg : Nat) (num rej which : Int) (hf : l.length ≤ fuel) (hp : Fresh st.mem p) :
    (∃ r body, pipeline_insert fuel st (some p) pkg num rej = .ok r ∧
      pipeline_insert_events fuel st (some p) num rej = .ok (.lock :: body ++ [.unlock]) ∧
      (∀ e ∈ body, e.isAccess = true) ∧
      unguarded false (.lock :: body ++ [.unlock]) = []) ∧
    (∃ st1 q evs, pipeline_pop st which = .ok (st1, q) ∧
      pipeline_pop_events st which = .ok ((st1, q), evs) ∧
      unguarded false evs =
        (match q with
          | some c => [.write (.higher c), .write (.lower c)]
          | none => []) ∧
      ∀ c, q = some c → c ∉ spine st1) ∧
    (∃ v test body, pipeline_span st = .ok v ∧
      pipeline_span_events st = .ok (v, test ++ body) ∧
      (∀ e ∈ test, e = .read .g_highest ∨ e = .read .g_lowest) ∧
      unguarded false body = [] ∧
      (∀ hi lo, st.g_highest = some hi → st.g_lowest = some lo →
        body = [.lock, .read .g_highest, .read (.num hi), .read .g_lowest, .read (.num lo),
          .unlock])) := by
  refine ⟨?_, ?_, ?_⟩
  · have hret : ∃ r, pipeline_insert fuel st (some p) pkg num rej = .ok r := by
      have hs := insert_spec h hp fuel hf pkg num rej
      by_cases hr : Rejects (notAbove num l) num rej
      · exact ⟨_, hs.1 hr⟩
      · obtain ⟨st1, h1, -⟩ := hs.2 hr
        exact ⟨_, h1⟩
    obtain ⟨r, hr⟩ := hret
    obtain ⟨body, hb, ha⟩ := pipeline_insert_events_ok hr
    exact ⟨r, body, hr, hb, ha, unguarded_locked ha []⟩
  · obtain ⟨st1, q, hpop, hq⟩ := h.pop_returns which
    obtain ⟨he, hu⟩ := pipeline_pop_events_spec st which
    rw [hpop] at he
    obtain ⟨⟨⟨s, q1⟩, evs⟩, hz, hfst⟩ := map_ok_inv he
    simp only [Prod.mk.injEq] at hfst
    obtain ⟨rfl, rfl⟩ := hfst
    exact ⟨s, q1, evs, hpop, hz, hu s q1 evs hz, hq⟩
  · obtain ⟨he, hu⟩ := pipeline_span_events_spec st
    have hret : ∃ v, pipeline_span st = .ok v := by
      cases l with
      | nil =>
        have hhi : st.g_highest = none := h.2.1
        exact ⟨0, by simp [pipeline_span, hhi, pure, Except.pure]⟩
      | cons e t =>
        obtain ⟨z, -, -, hspan⟩ := h.span
        exact ⟨_, hspan⟩
    obtain ⟨v, hv⟩ := hret
    rw [hv] at he
    obtain ⟨⟨v1, evs⟩, hz, hfst⟩ := map_ok_inv he
    simp only at hfst
    subst hfst
    obtain ⟨test, body, rfl, h1, h2, h3⟩ := hu v1 evs hz
    exact ⟨v1, test, body, hv, hz, h1, h2, h3⟩

/-- C14 witness. The queue holding 30 above 10: an insert of 20, a pop of the top. -/
theorem lock_discipline_witness :
    WellFormed (stateAfter ten_thirty 0) [⟨64, 2, 30⟩, ⟨32, 1, 10⟩] ∧
    ([⟨64, 2, 30⟩, ⟨32, 1, 10⟩] : List Entry).length ≤ 2 ∧
    Fresh (stateAfter ten_thirty 0).mem 96 ∧
    ((∃ r body, pipeline_insert 2 (stateAfter ten_thirty 0) (some 96) 3 20 1 = .ok r ∧
      pipeline_insert_events 2 (stateAfter ten_thirty 0) (some 96) 20 1 =
        .ok (.lock :: body ++ [.unlock]) ∧
      (∀ e ∈ body, e.isAccess = true) ∧
      unguarded false (.lock :: body ++ [.unlock]) = []) ∧
    (∃ st1 q evs, pipeline_pop (stateAfter ten_thirty 0) OQ_HIGHEST = .ok (st1, q) ∧
      pipeline_pop_events (stateAfter ten_thirty 0) OQ_HIGHEST = .ok ((st1, q), evs) ∧
      unguarded false evs =
        (match q with
          | some c => [.write (.higher c), .write (.lower c)]
          | none => []) ∧
      ∀ c, q = some c → c ∉ spine st1) ∧
    (∃ v test body, pipeline_span (stateAfter ten_thirty 0) = .ok v ∧
      pipeline_span_events (stateAfter ten_thirty 0) = .ok (v, test ++ body) ∧
      (∀ e ∈ test, e = .read .g_highest ∨ e = .read .g_lowest) ∧
      unguarded false body = [] ∧
      (∀ hi lo, (stateAfter ten_thirty 0).g_highest = some hi →
        (stateAfter ten_thirty 0).g_lowest = some lo →
        body = [.lock, .read .g_highest, .read (.num hi), .read .g_lowest, .read (.num lo),
          .unlock]))) :=
  ⟨by decide, by decide, by decide,
    lock_discipline (stateAfter ten_thirty 0) [⟨64, 2, 30⟩, ⟨32, 1, 10⟩] (by decide)
      2 96 3 20 1 OQ_HIGHEST (by decide) (by decide)⟩

/-- C15 counterexample. On the queue holding 5 above 3, the walk for the new key 3
returns the node of key 5 (block 64), not the node of key 3 (block 32) that the
rule "first node whose lower link is null or has a key strictly less than k"
and the rule "lowest-positioned node whose key is at least k" both name; and
for the new key 5 it returns null, where both rules name the node of key 5. -/
theorem find_predecessor_not_spec :
    WellFormed (stateAfter five_above_three 0) [⟨64, 2, 5⟩, ⟨32, 1, 3⟩] ∧
    find_predecessor 2 (stateAfter five_above_three 0) 3 = .ok (some 64) ∧
    spec_predecessor 3 [⟨64, 2, 5⟩, ⟨32, 1, 3⟩] = some ⟨32, 1, 3⟩ ∧
    spec_lowest_ge 3 [⟨64, 2, 5⟩, ⟨32, 1, 3⟩] = some ⟨32, 1, 3⟩ ∧
    find_predecessor 2 (stateAfter five_above_three 0) 5 = .ok none ∧
    spec_predecessor 5 [⟨64, 2, 5⟩, ⟨32, 1, 3⟩] = some ⟨64, 2, 5⟩ ∧
    spec_lowest_ge 5 [⟨64, 2, 5⟩, ⟨32, 1, 3⟩] = some ⟨64, 2, 5⟩ := by
  decide

/-- C15. On a non-empty well-formed queue, with fuel for the walk, `find_predecessor`
returns null exactly when the new key `k` is at least the key of `g_highest`;
otherwise it returns the node `P` such that `P` and every node above it have a
key above `k` and every node below `P` has a key not above `k`: `P` is the
first node from the top whose lower link is null or whose lower node has a key
not above `k`, and it is the lowest-positioned node whose key is strictly
above `k`. -/
theorem find_predecessor_choice (st : State) (l : List Entry) (h : WellFormed st l)
    (hne : l ≠ []) (fuel : Nat) (hf : l.length ≤ fuel) (k : Int) :
    ∃ P : Option Entry, find_predecessor fuel st k = .ok (P.map Entry.addr) ∧
      (P = none ↔ ∀ e, l.head? = some e → e.num ≤ k) ∧
      (∀ p, P = some p → ∃ xs lo, l = xs ++ p :: lo ∧ (∀ x ∈ xs, k < x.num) ∧ k < p.num ∧
        (∀ y ∈ lo, y.num ≤ k)) := by
  have hl := above_append_notAbove k l
  have hab : ∀ x ∈ above k l, k < x.num := fun x hx => lt_of_mem_above hx
  have hna : ∀ y, (notAbove k l).head? = some y → y.num ≤ k := fun y hy =>
    head_notAbove_le hy
  generalize above k l = hi at hl hab
  generalize notAbove k l = lo at hl hna
  subst hl
  have hsort := (List.pairwise_append.1 h.2.2.2.2.2.2).2.1
  have hle := sorted_le_of_head hsort hna
  rcases List.eq_nil_or_concat hi with rfl | ⟨xs, pre, rfl⟩
  · cases lo with
    | nil => exact absurd rfl hne
    | cons y t =>
      refine ⟨none, find_predecessor_top h fuel (hna y rfl), ?_, ?_⟩
      · simp only [List.nil_append, List.head?_cons, Option.some.injEq, forall_eq', true_iff]
        exact hna y rfl
      · intro p hp; cases hp
  · simp only [List.concat_eq_append, List.append_assoc, List.singleton_append] at h hf hab ⊢
    have hpre : k < pre.num := hab pre (by simp)
    have hxs : ∀ x ∈ xs, k < x.num := fun x hx => hab x (by simp [hx])
    refine ⟨some pre, find_predecessor_spec h fuel (by simp at hf; omega) hxs hpre hna, ?_, ?_⟩
    · refine ⟨fun hp => (by cases hp), fun hall => ?_⟩
      cases xs with
      | nil => exact absurd (hall pre (by simp)) (not_le.2 hpre)
      | cons x t => exact absurd (hall x (by simp)) (not_le.2 (hxs x (by simp)))
    · intro p hp
      cases hp
      exact ⟨xs, lo, rfl, hxs, hpre, hle⟩

/-- C15 witness. The queue holding 5 above 3. -/
theorem find_predecessor_choice_witness :
    WellFormed (stateAfter five_above_three 0) [⟨64, 2, 5⟩, ⟨32, 1, 3⟩] ∧
    ([⟨64, 2, 5⟩, ⟨32, 1, 3⟩] : List Entry) ≠ [] ∧
    ([⟨64, 2, 5⟩, ⟨32, 1, 3⟩] : List Entry).length ≤ 2 ∧
    ∃ P : Option Entry,
      find_predecessor 2 (stateAfter five_above_three 0) 3 = .ok (P.map Entry.addr) ∧
      (P = none ↔ ∀ e, ([⟨64, 2, 5⟩, ⟨32, 1, 3⟩] : List Entry).head? = some e → e.num ≤ 3) ∧
      (∀ p, P = some p → ∃ xs lo, [⟨64, 2, 5⟩, ⟨32, 1, 3⟩] = xs ++ p :: lo ∧
        (∀ x ∈ xs, 3 < x.num) ∧ 3 < p.num ∧ (∀ y ∈ lo, y.num ≤ 3)) :=
  ⟨by decide, by decide, by decide,
    find_predecessor_choice (stateAfter five_above_three 0) [⟨64, 2, 5⟩, ⟨32, 1, 3⟩]
      (by decide) (by decide) 2 (by decide) 3⟩

/-- C16. On a well-formed state, a call of `pipeline_insert` that returns 1 splices
one node into the spine: the old spine is `hs ++ ls`, the new one is
`hs ++ p :: ls` with `p` the new block, not on the old spine and now carrying
the key and payload of the call; every node of the old spine keeps its key and
payload; `g_highest` is unchanged unless `hs` is empty (then it is `p`),
`g_lowest` is unchanged unless `ls` is empty (then it is `p`), and `g_count`
grows by exactly one. Inserting 10, 20, 30 gives the spines [10], [20, 10],
[30, 20, 10]; inserting 10, 30, 20 gives [30, 20, 10]. -/
theorem pipeline_insert_splice (st : State) (l : List Entry) (h : WellFormed st l)
    (fuel p pkg : Nat) (num rej : Int) (st1 : State) (hp : Fresh st.mem p)
    (hi : pipeline_insert fuel st (some p) pkg num rej = .ok (st1, 1)) :
    (∃ hs ls : List Nat, spine st = hs ++ ls ∧ spine st1 = hs ++ p :: ls ∧ p ∉ spine st ∧
      (∃ nd, st1.mem.get p = some nd ∧ nd.num = num ∧ nd.pkg = pkg) ∧
      (∀ q ∈ spine st, ∃ n0 n1, st.mem.get q = some n0 ∧ st1.mem.get q = some n1 ∧
        n1.num = n0.num ∧ n1.pkg = n0.pkg) ∧
      (hs ≠ [] → st1.g_highest = st.g_highest) ∧ (hs = [] → st1.g_highest = some p) ∧
      (ls ≠ [] → st1.g_lowest = st.g_lowest) ∧ (ls = [] → st1.g_lowest = some p) ∧
      st1.g_count = st.g_count + 1 ∧ pipeline_count st1 = pipeline_count st + 1) ∧
    (linkedKeys (stateAfter [(32, 1, 10)] 0) = [10] ∧
      linkedKeys (stateAfter [(32, 1, 10), (64, 2, 20)] 0) = [20, 10] ∧
      linkedKeys (stateAfter [(32, 1, 10), (64, 2, 20), (96, 3, 30)] 0) = [30, 20, 10] ∧
      linkedKeys (stateAfter [(32, 1, 10), (64, 2, 30), (96, 3, 20)] 0) = [30, 20, 10]) := by
  refine ⟨?_, spines_ten_twenty_thirty⟩
  have hnr := h.not_rejects_of_one hp hi
  obtain ⟨st2, h2, hw, -⟩ :=
    (insert_spec h hp (max fuel l.length) (Nat.le_max_right _ _) pkg num rej).2 hnr
  have hbig := pipeline_insert_mono hi (Nat.le_max_left fuel l.length)
  rw [h2] at hbig
  simp only [Except.ok.injEq, Prod.mk.injEq, and_true] at hbig
  subst hbig
  have hl := above_append_notAbove num l
  generalize above num l = hi' at hl hw
  generalize notAbove num l = lo' at hl hw
  subst hl
  refine ⟨hi'.map Entry.addr, lo'.map Entry.addr, ?_, ?_, ?_, ?_, ?_, ?_, ?_, ?_, ?_, ?_, ?_⟩
  · rw [h.spine_eq, List.map_append]
  · rw [hw.spine_eq, List.map_append, List.map_cons]
  · rw [h.spine_eq]
    intro hm
    obtain ⟨e, he, hep⟩ := List.mem_map.1 hm
    obtain ⟨nd, hnd, -⟩ := h.node_of_mem he
    have hap := hp.apart (q := e.addr) (by rw [hnd]; simp)
    exact hap.ne hep.symm
  · obtain ⟨nd, hnd, h1, h2⟩ := hw.node_of_mem (e := ⟨p, pkg, num⟩) (by simp)
    exact ⟨nd, hnd, h2, h1⟩
  · intro q hq
    rw [h.spine_eq] at hq
    obtain ⟨e, he, rfl⟩ := List.mem_map.1 hq
    obtain ⟨n0, hn0, hp0, hk0⟩ := h.node_of_mem he
    obtain ⟨n1, hn1, hp1, hk1⟩ := hw.node_of_mem (e := e) (by
      rcases List.mem_append.1 he with hx | hx
      · exact List.mem_append_left _ hx
      · exact List.mem_append_right _ (List.mem_cons_of_mem _ hx))
    exact ⟨n0, n1, hn0, hn1, by rw [hk1, hk0], by rw [hp1, hp0]⟩
  · intro hne
    have hne' : hi' ≠ [] := fun hx => hne (by rw [hx]; rfl)
    rw [hw.2.1, h.2.1, headAddr_append_cons _ _ _ hne', headAddr_append_cons _ _ _ hne']
  · intro he
    have he' : hi' = [] := List.map_eq_nil_iff.1 he
    rw [hw.2.1, he']; rfl
  · intro hne
    have hne' : lo' ≠ [] := fun hx => hne (by rw [hx]; rfl)
    rw [hw.2.2.1, h.2.2.1, lastAddr_append_of_ne _ _ hne',
      lastAddr_append_of_ne hi' (_ :: lo') (by simp)]
    cases lo' with
    | nil => exact absurd rfl hne'
    | cons y t => rfl
  · intro he
    have he' : lo' = [] := List.map_eq_nil_iff.1 he
    rw [hw.2.2.1, he', lastAddr_eq_getLast]; simp
  · rw [hw.2.2.2.1, h.2.2.2.1]; simp; omega
  · rw [hw.count_eq, h.count_eq]; simp; omega

/-- C16 witness. The queue holding 30 above 10 takes the key 20 in between. -/
theorem pipeline_insert_splice_witness :
    WellFormed (stateAfter ten_thirty 0) [⟨64, 2, 30⟩, ⟨32, 1, 10⟩] ∧
    Fresh (stateAfter ten_thirty 0).mem 96 ∧
    pipeline_insert 2 (stateAfter ten_thirty 0) (some 96) 3 20 0 =
      .ok (stateAfter (ten_thirty ++ [(96, 3, 20)]) 0, 1) ∧
    (∃ hs ls : List Nat, spine (stateAfter ten_thirty 0) = hs ++ ls ∧
      spine (stateAfter (ten_thirty ++ [(96, 3, 20)]) 0) = hs ++ 96 :: ls ∧
      96 ∉ spine (stateAfter ten_thirty 0) ∧
      (∃ nd, (stateAfter (ten_thirty ++ [(96, 3, 20)]) 0).mem.get 96 = some nd ∧
        nd.num = 20 ∧ nd.pkg = 3) ∧
      (∀ q ∈ spine (stateAfter ten_thirty 0), ∃ n0 n1,
        (stateAfter ten_thirty 0).mem.get q = some n0 ∧
        (stateAfter (ten_thirty ++ [(96, 3, 20)]) 0).mem.get q = some n1 ∧
        n1.num = n0.num ∧ n1.pkg = n0.pkg) ∧
      (hs ≠ [] → (stateAfter (ten_thirty ++ [(96, 3, 20)]) 0).g_highest =
        (stateAfter ten_thirty 0).g_highest) ∧
      (hs = [] → (stateAfter (ten_thirty ++ [(96, 3, 20)]) 0).g_highest = some 96) ∧
      (ls ≠ [] → (stateAfter (ten_thirty ++ [(96, 3, 20)]) 0).g_lowest =
        (stateAfter ten_thirty 0).g_lowest) ∧
      (ls = [] → (stateAfter (ten_thirty ++ [(96, 3, 20)]) 0).g_lowest = some 96) ∧
      (stateAfter (ten_thirty ++ [(96, 3, 20)]) 0).g_count =
        (stateAfter ten_thirty 0).g_count + 1 ∧
      pipeline_count (stateAfter (ten_thirty ++ [(96, 3, 20)]) 0) =
        pipeline_count (stateAfter ten_thirty 0) + 1) ∧
    (linkedKeys (stateAfter [(32, 1, 10)] 0) = [10] ∧
      linkedKeys (stateAfter [(32, 1, 10), (64, 2, 20)] 0) = [20, 10] ∧
      linkedKeys (stateAfter [(32, 1, 10), (64, 2, 20), (96, 3, 30)] 0) = [30, 20, 10] ∧
      linkedKeys (stateAfter [(32, 1, 10), (64, 2, 30), (96, 3, 20)] 0) = [30, 20, 10]) :=
  ⟨by decide, by decide, by decide,
    pipeline_insert_splice (stateAfter ten_thirty 0) [⟨64, 2, 30⟩, ⟨32, 1, 10⟩] (by decide)
      2 96 3 20 0 (stateAfter (ten_thirty ++ [(96, 3, 20)]) 0) (by decide) (by decide)⟩

/-- C17. In every reachable state: (I1) `g_highest` is null iff `g_lowest` is null iff
`g_count` is 0; (I2) if `g_count` is 1 the two edge pointers are equal and that
node has both links null; (I3) following `lower` links from `g_highest`, with
any bound of at least `g_count` steps, visits exactly `g_count` nodes, all
allocated and pairwise distinct, the last of them `g_lowest`, and stops there;
(I4) if the `lower` link of a linked node `a` is `b` then the `higher` link of
`b` is `a`, the `higher` link of `g_highest` is null and the `lower` link of
`g_lowest` is null. -/
theorem spine_invariant (st : State) (h : Reachable st) :
    ((st.g_highest = none ↔ st.g_lowest = none) ∧ (st.g_lowest = none ↔ st.g_count = 0)) ∧
    (st.g_count = 1 → st.g_highest = st.g_lowest ∧
      ∃ p nd, st.g_highest = some p ∧ st.mem.get p = some nd ∧
        nd.lower = none ∧ nd.higher = none) ∧
    ((∀ fuel, st.g_count ≤ fuel → walk_lower st.mem fuel st.g_highest = spine st) ∧
      (spine st).length = st.g_count ∧ (spine st).Nodup ∧
      (∀ p ∈ spine st, st.mem.get p ≠ none) ∧ (spine st).getLast? = st.g_lowest) ∧
    ((∀ a ∈ spine st, ∀ na b, st.mem.get a = some na → na.lower = some b →
        ∃ nb, st.mem.get b = some nb ∧ nb.higher = some a) ∧
      (∀ p nd, st.g_highest = some p → st.mem.get p = some nd → nd.higher = none) ∧
      (∀ p nd, st.g_lowest = some p → st.mem.get p = some nd → nd.lower = none)) := by
  obtain ⟨l, hl⟩ := h.wellFormed
  have hsp := hl.spine_eq
  obtain ⟨hseg, hhi, hlo, hcnt, hap, hrg, hsort⟩ := id hl
  refine ⟨⟨?_, ?_⟩, ?_, ⟨?_, ?_, hl.nodup_spine, ?_, ?_⟩, ⟨?_, ?_, ?_⟩⟩
  · rw [hhi, hlo, lastAddr_eq_getLast]
    cases l with
    | nil => simp
    | cons e t => simp
  · rw [hlo, hcnt, lastAddr_eq_getLast]
    cases l with
    | nil => simp
    | cons e t => simp
  · intro h1
    rw [hcnt] at h1
    obtain ⟨e, rfl⟩ := List.length_eq_one.1 h1
    refine ⟨by rw [hhi, hlo]; rfl, e.addr, _, hhi, hseg.1, rfl, rfl⟩
  · intro fuel hf
    rw [hsp, hhi]
    exact walk_lower_seg hseg fuel (by rw [← hcnt]; exact hf)
  · rw [hsp, hcnt]; simp
  · intro p hp
    rw [hsp] at hp
    obtain ⟨e, he, rfl⟩ := List.mem_map.1 hp
    exact hseg.get_of_mem he
  · rw [hsp, hlo, lastAddr_eq_getLast]
  · intro a ha na b hna hb
    obtain ⟨xs, ea, eb, ys, -, -, -, -, hgb⟩ := hl.lower_next ha hna hb
    exact ⟨_, hgb, rfl⟩
  · intro p nd hp hnd
    rw [hhi] at hp
    cases l with
    | nil => simp at hp
    | cons e t =>
      simp only [headAddr_cons, Option.some.injEq] at hp
      subst hp
      rw [hseg.1] at hnd
      cases hnd
      rfl
  · intro p nd hp hnd
    rw [hlo] at hp
    rcases List.eq_nil_or_concat l with rfl | ⟨xs, z, rfl⟩
    · simp at hp
    · simp only [List.concat_eq_append, lastAddr_append, lastAddr_cons, lastAddr_nil,
        Option.some.injEq] at hp
      subst hp
      simp only [List.concat_eq_append] at hseg
      rw [hseg.node_at_split] at hnd
      cases hnd
      rfl

/-- C17 witness. The state after the test sequence with duplicates allowed. -/
theorem spine_invariant_witness :
    Reachable (stateAfter test_sequence 0) ∧
    (((stateAfter test_sequence 0).g_highest = none ↔
        (stateAfter test_sequence 0).g_lowest = none) ∧
      ((stateAfter test_sequence 0).g_lowest = none ↔
        (stateAfter test_sequence 0).g_count = 0)) ∧
    ((stateAfter test_sequence 0).g_count = 1 →
      (stateAfter test_sequence 0).g_highest = (stateAfter test_sequence 0).g_lowest ∧
      ∃ p nd, (stateAfter test_sequence 0).g_highest = some p ∧
        (stateAfter test_sequence 0).mem.get p = some nd ∧
        nd.lower = none ∧ nd.higher = none) ∧
    ((∀ fuel, (stateAfter test_sequence 0).g_count ≤ fuel →
        walk_lower (stateAfter test_sequence 0).mem fuel (stateAfter test_sequence 0).g_highest =
          spine (stateAfter test_sequence 0)) ∧
      (spine (stateAfter test_sequence 0)).length = (stateAfter test_sequence 0).g_count ∧
      (spine (stateAfter test_sequence 0)).Nodup ∧
      (∀ p ∈ spine (stateAfter test_sequence 0), (stateAfter test_sequence 0).mem.get p ≠ none) ∧
      (spine (stateAfter test_sequence 0)).getLast? = (stateAfter test_sequence 0).g_lowest) ∧
    ((∀ a ∈ spine (stateAfter test_sequence 0), ∀ na b,
        (stateAfter test_sequence 0).mem.get a = some na → na.lower = some b →
        ∃ nb, (stateAfter test_sequence 0).mem.get b = some nb ∧ nb.higher = some a) ∧
      (∀ p nd, (stateAfter test_sequence 0).g_highest = some p →
        (stateAfter test_sequence 0).mem.get p = some nd → nd.higher = none) ∧
      (∀ p nd, (stateAfter test_sequence 0).g_lowest = some p →
        (stateAfter test_sequence 0).mem.get p = some nd → nd.lower = none)) :=
  ⟨reachable_stateAfter test_sequence 0 (by decide),
    spine_invariant (stateAfter test_sequence 0)
      (reachable_stateAfter test_sequence 0 (by decide))⟩

/-- C18. In every reachable state, whenever the `lower` link of a linked node `a` is
`b`, the key of `a` is at least the key of `b`.  Moreover, whatever history of
calls led to the state, if every insert of it was made with `reject_dupes != 0`
then the key of `a` is above the key of `b`, and no two linked nodes carry the
same key. -/
theorem order_invariant (st : State) (h : Reachable st) :
    (∀ a ∈ spine st, ∀ na b nb, st.mem.get a = some na → na.lower = some b →
      st.mem.get b = some nb → na.num ≥ nb.num) ∧
    (∀ fuel cs rs, ValidRun fuel State.init cs → run fuel State.init cs = .ok (st, rs) →
      (∀ c ∈ cs, c.rejecting) →
      (∀ a ∈ spine st, ∀ na b nb, st.mem.get a = some na → na.lower = some b →
        st.mem.get b = some nb → na.num > nb.num) ∧
      (linkedKeys st).Nodup) := by
  constructor
  · obtain ⟨l, hl⟩ := h.wellFormed
    intro a ha na b nb hna hb hnb
    obtain ⟨xs, ea, eb, ys, rfl, -, -, hnum, hgb⟩ := hl.lower_next ha hna hb
    rw [hgb] at hnb
    cases hnb
    rw [hnum]
    have hs := (List.pairwise_append.1 hl.2.2.2.2.2.2).2.1
    exact (List.pairwise_cons.1 hs).1 eb (List.mem_cons_self _ _)
  · intro fuel cs rs hv hr hrej
    obtain ⟨l, hl, hp⟩ := wellFormed_init.run_strict cs hv hr hrej List.Pairwise.nil
    constructor
    · intro a ha na b nb hna hb hnb
      obtain ⟨xs, ea, eb, ys, rfl, -, -, hnum, hgb⟩ := hl.lower_next ha hna hb
      rw [hgb] at hnb
      cases hnb
      rw [hnum]
      have hs := (List.pairwise_append.1 hp).2.1
      exact (List.pairwise_cons.1 hs).1 eb (List.mem_cons_self _ _)
    · rw [hl.linkedKeys_eq, List.Nodup, List.pairwise_map]
      exact hp.imp (fun hab => (ne_of_lt hab).symm)

/-- C18 witness. The state after the test sequence with duplicates rejected. -/
theorem order_invariant_witness :
    Reachable (stateAfter test_sequence 1) ∧
    ((∀ a ∈ spine (stateAfter test_sequence 1), ∀ na b nb,
      (stateAfter test_sequence 1).mem.get a = some na → na.lower = some b →
      (stateAfter test_sequence 1).mem.get b = some nb → na.num ≥ nb.num) ∧
    (∀ fuel cs rs, ValidRun fuel State.init cs →
      run fuel State.init cs = .ok (stateAfter test_sequence 1, rs) →
      (∀ c ∈ cs, c.rejecting) →
      (∀ a ∈ spine (stateAfter test_sequence 1), ∀ na b nb,
        (stateAfter test_sequence 1).mem.get a = some na → na.lower = some b →
        (stateAfter test_sequence 1).mem.get b = some nb → na.num > nb.num) ∧
      (linkedKeys (stateAfter test_sequence 1)).Nodup)) :=
  ⟨reachable_stateAfter test_sequence 1 (by decide),
    order_invariant (stateAfter test_sequence 1)
      (reachable_stateAfter test_sequence 1 (by decide))⟩

/-- C19 counterexample. With the linked keys `LONG_MAX` and -1 (a reachable state)
`pipeline_span` returns `LONG_MIN`, which is negative and is not the exact
difference `2^63`; with `LONG_MAX` and `LONG_MIN` it returns -1, not `2^64 - 1`. -/
theorem pipeline_span_overflow :
    Reachable (stateAfter minus_one_long_max 0) ∧
    linkedKeys (stateAfter minus_one_long_max 0) = [9223372036854775807, -1] ∧
    pipeline_span (stateAfter minus_one_long_max 0) = .ok (-9223372036854775808) ∧
    (9223372036854775807 : Int) - (-1) = 2 ^ 63 ∧
    Reachable (stateAfter long_min_long_max 0) ∧
    linkedKeys (stateAfter long_min_long_max 0) = [9223372036854775807, -9223372036854775808] ∧
    pipeline_span (stateAfter long_min_long_max 0) = .ok (-1) ∧
    (9223372036854775807 : Int) - (-9223372036854775808) = 2 ^ 64 - 1 :=
  ⟨reachable_stateAfter minus_one_long_max 0 (by decide), by decide, by decide, by decide,
    reachable_stateAfter long_min_long_max 0 (by decide), by decide, by decide, by decide⟩

/-- C19. In a reachable state whose linked keys all fit a signed 64-bit integer,
`pipeline_span` returns 0 on the empty queue; otherwise, with `hi` the greatest
and `lo` the least linked key, the exact difference `hi - lo` is non-negative,
and `pipeline_span` returns exactly `hi - lo` (a non-negative value) when
`hi - lo < 2^63`, while it returns the negative value `hi - lo - 2^64` when
`hi - lo ≥ 2^63`. -/
theorem pipeline_span_long_range (st : State) (h : Reachable st)
    (hk : ∀ k ∈ linkedKeys st, -2 ^ 63 ≤ k ∧ k < 2 ^ 63) :
    (spine st = [] → pipeline_span st = .ok 0) ∧
    (spine st ≠ [] → ∃ hi lo, hi ∈ linkedKeys st ∧ lo ∈ linkedKeys st ∧
      (∀ k ∈ linkedKeys st, lo ≤ k ∧ k ≤ hi) ∧ 0 ≤ hi - lo ∧
      (hi - lo < 2 ^ 63 → pipeline_span st = .ok (hi - lo)) ∧
      (2 ^ 63 ≤ hi - lo → pipeline_span st = .ok (hi - lo - 2 ^ 64) ∧ hi - lo - 2 ^ 64 < 0)) := by
  obtain ⟨l, hl⟩ := h.wellFormed
  rw [hl.spine_eq]
  rw [hl.linkedKeys_eq] at hk ⊢
  constructor
  · intro h0
    have : l = [] := by simpa using h0
    subst this
    have hhi : st.g_highest = none := hl.2.1
    simp [pipeline_span, hhi, pure, Except.pure]
  · intro h0
    cases l with
    | nil => simp at h0
    | cons e t =>
      obtain ⟨z, hz, hmin, hspan⟩ := hl.span
      have hmax : ∀ x ∈ e :: t, x.num ≤ e.num := by
        intro x hx
        rcases List.mem_cons.1 hx with rfl | ht
        · exact le_refl _
        · exact (List.pairwise_cons.1 hl.2.2.2.2.2.2).1 x ht
      have hze := hmin e (List.mem_cons_self _ _)
      have hke := hk e.num (List.mem_map_of_mem _ (List.mem_cons_self _ _))
      have hkz := hk z.num (List.mem_map_of_mem _ hz)
      refine ⟨e.num, z.num, List.mem_map_of_mem _ (List.mem_cons_self _ _),
        List.mem_map_of_mem _ hz, ?_, by omega, ?_, ?_⟩
      · intro k hk
        obtain ⟨x, hx, rfl⟩ := List.mem_map.1 hk
        exact ⟨hmin x hx, hmax x hx⟩
      · intro hlt
        rw [hspan, wrap_long_of_range (by omega) hlt]
      · intro hge
        rw [hspan, wrap_long_of_high hge (by omega)]
        exact ⟨rfl, by omega⟩

/-- C19 witness. The state whose linked keys are `LONG_MAX` and -1. -/
theorem pipeline_span_long_range_witness :
    Reachable (stateAfter minus_one_long_max 0) ∧
    (∀ k ∈ linkedKeys (stateAfter minus_one_long_max 0), -2 ^ 63 ≤ k ∧ k < 2 ^ 63) ∧
    ((spine (stateAfter minus_one_long_max 0) = [] →
      pipeline_span (stateAfter minus_one_long_max 0) = .ok 0) ∧
    (spine (stateAfter minus_one_long_max 0) ≠ [] →
      ∃ hi lo, hi ∈ linkedKeys (stateAfter minus_one_long_max 0) ∧
        lo ∈ linkedKeys (stateAfter minus_one_long_max 0) ∧
        (∀ k ∈ linkedKeys (stateAfter minus_one_long_max 0), lo ≤ k ∧ k ≤ hi) ∧ 0 ≤ hi - lo ∧
        (hi - lo < 2 ^ 63 → pipeline_span (stateAfter minus_one_long_max 0) = .ok (hi - lo)) ∧
        (2 ^ 63 ≤ hi - lo →
          pipeline_span (stateAfter minus_one_long_max 0) = .ok (hi - lo - 2 ^ 64) ∧
          hi - lo - 2 ^ 64 < 0))) :=
  ⟨reachable_stateAfter minus_one_long_max 0 (by decide), by decide,
    pipeline_span_long_range (stateAfter minus_one_long_max 0)
      (reachable_stateAfter minus_one_long_max 0 (by decide)) (by decide)⟩

/-- C20. On a well-formed state whose nodes all carry a key that fits a `long`,
with fuel for the walk, a fresh block from calloc and a new key that fits a
`long`, `pipeline_insert` returns, whichever path it takes, and every
`snprintf` it makes into `log[128]` is made at an offset `n` strictly below 128:
the index `&log[n]` is inside the buffer and the size `128-n` is positive. The
final `n`, the length of the trace text, is at most 76. -/
theorem trace_offset_bound (st : State) (l : List Entry) (h : WellFormed st l)
    (hm : LongKeys st.mem) (fuel p pkg : Nat) (num rej : Int) (hf : l.length ≤ fuel)
    (hp : Fresh st.mem p) (hn0 : -2 ^ 63 ≤ num) (hn1 : num < 2 ^ 63) :
    ∃ st1 r t, pipeline_insert_traced fuel st (some p) pkg num rej = .ok (st1, r, t) ∧
      pipeline_insert fuel st (some p) pkg num rej = .ok (st1, r) ∧
      (∀ o ∈ t.offsets, o < 128 ∧ (0 : Int) < 128 - (o : Int)) ∧ t.n ≤ 76 := by
  have her := pipeline_insert_traced_erase fuel st (some p) pkg num rej
  have hret : ∃ st1 r, pipeline_insert fuel st (some p) pkg num rej = .ok (st1, r) := by
    have hs := insert_spec h hp fuel hf pkg num rej
    by_cases hr : Rejects (notAbove num l) num rej
    · exact ⟨st, 0, hs.1 hr⟩
    · obtain ⟨st1, h1, -⟩ := hs.2 hr
      exact ⟨st1, 1, h1⟩
  obtain ⟨st1, r, hi⟩ := hret
  cases ht : pipeline_insert_traced fuel st (some p) pkg num rej with
  | error e => rw [ht, hi] at her; simp [Except.map] at her
  | ok x =>
    obtain ⟨s, v, t⟩ := x
    rw [ht, hi] at her
    simp only [Except.map, Except.ok.injEq, Prod.mk.injEq] at her
    obtain ⟨rfl, rfl⟩ := her
    have hw := pipeline_insert_traced_within ht hm hn0 hn1
    refine ⟨s, v, t, rfl, hi, ?_, hw.2⟩
    intro o ho
    have := hw.1 o ho
    omega

/-- C20 witness. The queue holding 30 above 10 takes the key 20 in between, the
path that makes all seven `snprintf`. -/
theorem trace_offset_bound_witness :
    WellFormed (stateAfter ten_thirty 0) [⟨64, 2, 30⟩, ⟨32, 1, 10⟩] ∧
    LongKeys (stateAfter ten_thirty 0).mem ∧
    ([⟨64, 2, 30⟩, ⟨32, 1, 10⟩] : List Entry).length ≤ 2 ∧
    Fresh (stateAfter ten_thirty 0).mem 96 ∧
    (-2 ^ 63 ≤ (20 : Int)) ∧ ((20 : Int) < 2 ^ 63) ∧
    ∃ st1 r t,
      pipeline_insert_traced 2 (stateAfter ten_thirty 0) (some 96) 3 20 0 = .ok (st1, r, t) ∧
      pipeline_insert 2 (stateAfter ten_thirty 0) (some 96) 3 20 0 = .ok (st1, r) ∧
      (∀ o ∈ t.offsets, o < 128 ∧ (0 : Int) < 128 - (o : Int)) ∧ t.n ≤ 76 :=
  ⟨by decide, by decide, by decide, by decide, by decide, by decide,
    trace_offset_bound (stateAfter ten_thirty 0) [⟨64, 2, 30⟩, ⟨32, 1, 10⟩] (by decide)
      (by decide) 2 96 3 20 0 (by decide) (by decide) (by decide) (by decide)⟩

end OrderQueue
